import Mathlib

/-! Ride-share assignment by maximum flow (`problem1_rideshare.cpp`) and
bus-stop placement (`problem2_busstop.cpp`).

A shallow embedding of the classes `MaxFlow` (Dinic's algorithm),
`RideShareAssignment` and `BusStopPlacement`, followed by the properties
proved about them.

Conventions of the embedding.

* `vector<T>` is `List T`; an index is a `Nat`.  Reading outside a vector is
  undefined behaviour in C++; the embedding reads a default there and a write
  outside a vector changes nothing.  The theorems assume indices in range.
* `int` capacities, flows and levels are `Int`.  The stored capacities stay
  between `0` and the inserted capacity and the levels below the node count.
  The accumulator `int flow` of `max_flow` can leave the range of `int`:
  `MaxFlow.max_flow` keeps the exact total, `MaxFlow.max_flow_int` is the same
  run with every `flow += f` reduced to 32 bits as the compiled code does, and
  the two return the same object.  In `solve` the total is at most the number
  of requests.
* The cursors `iter[v]` start at `0` and are only incremented, so they are
  kept as `Nat`.
* The identifiers `from` and `to` are reserved in Lean; they are written
  `from_` and `to_`.
* Loops that C++ does not bound (`while (!q.empty())`, `while (true)`, the
  recursion of `dfs`) take a fuel argument and return `none` when it runs out;
  `some r` is a run of the C++ code that returns `r`.
-/

/-! ## The embedding -/

/-- The constant `INF = 1e9`. -/
def INF : Int := 1000000000

/-- The struct `MaxFlow::Edge`. -/
structure Edge where
  to_ : Nat
  rev : Nat
  cap : Int
deriving DecidableEq, Repr

/-- The adjacency structure `vector<vector<Edge>> graph`. -/
abbrev Graph := List (List Edge)

/-- The class `MaxFlow`: its data members. -/
structure MaxFlow where
  graph : Graph
  level : List Int
  iter : List Nat
  n : Nat
deriving DecidableEq, Repr

/-- The adjacency list `graph[v]`. -/
def adjOf (g : Graph) (v : Nat) : List Edge := g[v]?.getD []

/-- The edge `graph[v][i]`, when it exists. -/
def edgeAt (g : Graph) (v i : Nat) : Option Edge := (adjOf g v)[i]?

/-- The entry `level[v]`. -/
def levelOf (level : List Int) (v : Nat) : Int := level[v]?.getD (-1)

/-- The statement `l[i].cap += d` on one adjacency list. -/
def bumpAt : List Edge → Nat → Int → List Edge
  | [], _, _ => []
  | e :: l, 0, d => { e with cap := e.cap + d } :: l
  | e :: l, i + 1, d => e :: bumpAt l i d

/-- The statement `graph[v][i].cap += d`. -/
def addCap (g : Graph) (v i : Nat) (d : Int) : Graph :=
  g.set v (bumpAt (adjOf g v) i d)

/-- The two updates of `dfs` on the edge `e = graph[v][i]`:
`e.cap -= d; graph[e.to][e.rev].cap += d;`. -/
def pushEdge (g : Graph) (v i : Nat) (d : Int) : Graph :=
  match edgeAt g v i with
  | none => g
  | some e => addCap (addCap g v i (-d)) e.to_ e.rev d

/-- The constructor `MaxFlow(int n)`. -/
def MaxFlow.new (n : Nat) : MaxFlow :=
  { graph := List.replicate n [], level := List.replicate n 0,
    iter := List.replicate n 0, n := n }

/-- The two `push_back`s of `add_edge`, on the adjacency structure. -/
def addEdgeG (g : Graph) (from_ to_ : Nat) (cap : Int) : Graph :=
  let g1 := g.set from_ (adjOf g from_ ++ [{ to_ := to_, rev := (adjOf g to_).length, cap := cap }])
  g1.set to_ (adjOf g1 to_ ++ [{ to_ := from_, rev := (adjOf g1 from_).length - 1, cap := 0 }])

/-- The method `MaxFlow::add_edge`. -/
def MaxFlow.add_edge (mf : MaxFlow) (from_ to_ : Nat) (cap : Int) : MaxFlow :=
  { mf with graph := addEdgeG mf.graph from_ to_ cap }

/-- The body of the loop `for (auto& e : graph[v])` of `bfs`, on the pair
`(level, q)`. -/
def bfsVisit (v : Nat) (st : List Int × List Nat) (e : Edge) : List Int × List Nat :=
  if e.cap > 0 ∧ levelOf st.1 e.to_ < 0 then
    (st.1.set e.to_ (levelOf st.1 v + 1), st.2 ++ [e.to_])
  else st

/-- The loop `while (!q.empty())` of `bfs`. -/
def bfsLoop (g : Graph) : Nat → List Int → List Nat → Option (List Int)
  | _, level, [] => some level
  | 0, _, _ :: _ => none
  | fuel + 1, level, v :: q =>
    let r := (adjOf g v).foldl (bfsVisit v) (level, q)
    bfsLoop g fuel r.1 r.2

/-- The method `MaxFlow::bfs`. -/
def MaxFlow.bfs (fuel : Nat) (mf : MaxFlow) (s : Nat) : Option MaxFlow :=
  match bfsLoop mf.graph fuel ((List.replicate mf.level.length (-1)).set s 0) [s] with
  | none => none
  | some level => some { mf with level := level }

/-- The statement `i++` on the reference `i = iter[v]`. -/
def MaxFlow.advance (mf : MaxFlow) (v : Nat) : MaxFlow :=
  { mf with iter := mf.iter.set v (mf.iter[v]?.getD 0 + 1) }

/-- The method `MaxFlow::dfs`.  The loop variable is the reference `iter[v]`,
so the next iteration of the `for` loop is the same call on the state whose
cursor has advanced. -/
def MaxFlow.dfs : Nat → MaxFlow → Nat → Nat → Int → Option (Int × MaxFlow)
  | 0, _, _, _, _ => none
  | fuel + 1, mf, v, t, f =>
    if v = t then some (f, mf)
    else
      let i := mf.iter[v]?.getD 0
      match edgeAt mf.graph v i with
      | none => some (0, mf)
      | some e =>
        if e.cap > 0 ∧ levelOf mf.level v < levelOf mf.level e.to_ then
          match MaxFlow.dfs fuel mf e.to_ t (min f e.cap) with
          | none => none
          | some (d, mf1) =>
            if d > 0 then some (d, { mf1 with graph := pushEdge mf1.graph v i d })
            else MaxFlow.dfs fuel (mf1.advance v) v t f
        else MaxFlow.dfs fuel (mf.advance v) v t f

/-- The loop `while ((f = dfs(s, t, INF)) > 0) flow += f;` of `max_flow`, with
the exact total in `flow` (`MaxFlow.augment_int` reduces it to 32 bits). -/
def MaxFlow.augment : Nat → MaxFlow → Nat → Nat → Int → Option (Int × MaxFlow)
  | 0, _, _, _, _ => none
  | fuel + 1, mf, s, t, flow =>
    match MaxFlow.dfs fuel mf s t INF with
    | none => none
    | some (f, mf1) =>
      if f > 0 then MaxFlow.augment fuel mf1 s t (flow + f) else some (flow, mf1)

/-- The loop `while (true)` of `max_flow`. -/
def MaxFlow.phases : Nat → MaxFlow → Nat → Nat → Int → Option (Int × MaxFlow)
  | 0, _, _, _, _ => none
  | fuel + 1, mf, s, t, flow =>
    match MaxFlow.bfs fuel mf s with
    | none => none
    | some mf1 =>
      if levelOf mf1.level t < 0 then some (flow, mf1)
      else
        match MaxFlow.augment fuel { mf1 with iter := List.replicate mf1.iter.length 0 } s t flow with
        | none => none
        | some (flow1, mf2) => MaxFlow.phases fuel mf2 s t flow1

/-- The method `MaxFlow::max_flow`. -/
def MaxFlow.max_flow (fuel : Nat) (mf : MaxFlow) (s t : Nat) : Option (Int × MaxFlow) :=
  MaxFlow.phases fuel mf s t 0

/-- The outer loop of `get_flow`: the inner loop returns the capacity of the
first edge of `graph[to]` that points to `from`. -/
def getFlowLoop (g : Graph) (from_ to_ : Nat) : List Edge → Int
  | [] => 0
  | e :: es =>
    if e.to_ = to_ then
      match (adjOf g to_).find? (fun re => re.to_ = from_) with
      | some re => re.cap
      | none => getFlowLoop g from_ to_ es
    else getFlowLoop g from_ to_ es

/-- The method `MaxFlow::get_flow`. -/
def MaxFlow.get_flow (mf : MaxFlow) (from_ to_ : Nat) : Int :=
  getFlowLoop mf.graph from_ to_ (adjOf mf.graph from_)

/-- The class `RideShareAssignment`: its data members (`flow_graph` is
`none` for the null pointer). -/
structure RideShareAssignment where
  num_drivers : Nat
  num_requests : Nat
  driver_capacities : List Int
  feasible_edges : List (List Bool)
  flow_graph : Option MaxFlow
  source : Nat
  sink : Nat
  driver_offset : Nat
  request_offset : Nat
deriving DecidableEq, Repr

/-- The constructor `RideShareAssignment(int m, int n)`. -/
def RideShareAssignment.new (m n : Nat) : RideShareAssignment :=
  { num_drivers := m, num_requests := n,
    driver_capacities := List.replicate m 1,
    feasible_edges := List.replicate m (List.replicate n false),
    flow_graph := none,
    source := 0, sink := 1 + m + n, driver_offset := 1, request_offset := 1 + m }

/-- The method `set_driver_capacity`. -/
def RideShareAssignment.set_driver_capacity (p : RideShareAssignment) (driver_id : Nat)
    (capacity : Int) : RideShareAssignment :=
  { p with driver_capacities := p.driver_capacities.set driver_id capacity }

/-- The method `add_feasible_assignment`. -/
def RideShareAssignment.add_feasible_assignment (p : RideShareAssignment)
    (driver_id request_id : Nat) : RideShareAssignment :=
  { p with feasible_edges :=
      p.feasible_edges.set driver_id ((p.feasible_edges[driver_id]?.getD []).set request_id true) }

/-- The entry `feasible_edges[i][j]`. -/
def RideShareAssignment.feasible (p : RideShareAssignment) (i j : Nat) : Bool :=
  (p.feasible_edges[i]?.getD [])[j]?.getD false

/-- The entry `driver_capacities[i]`. -/
def RideShareAssignment.capacity (p : RideShareAssignment) (i : Nat) : Int :=
  p.driver_capacities[i]?.getD 0

/-- The method `build_flow_network`: the three groups of `add_edge` calls on
a new `MaxFlow(total_nodes)`. -/
def RideShareAssignment.build_flow_network (p : RideShareAssignment) : RideShareAssignment :=
  let total_nodes := p.num_drivers + p.num_requests + 2
  let mf0 := MaxFlow.new total_nodes
  let mf1 := (List.range p.num_drivers).foldl
    (fun mf i => mf.add_edge p.source (p.driver_offset + i) (p.capacity i)) mf0
  let mf2 := (List.range p.num_drivers).foldl
    (fun mf i => (List.range p.num_requests).foldl
      (fun mf j =>
        if p.feasible i j then mf.add_edge (p.driver_offset + i) (p.request_offset + j) 1
        else mf) mf) mf1
  let mf3 := (List.range p.num_requests).foldl
    (fun mf j => mf.add_edge (p.request_offset + j) p.sink 1) mf2
  { p with flow_graph := some mf3 }

/-- The extraction loops of `solve`: the feasible pairs with positive
`get_flow`, in increasing `(i, j)` order. -/
def RideShareAssignment.extract (p : RideShareAssignment) (mf : MaxFlow) : List (Nat × Nat) :=
  (List.range p.num_drivers).foldl
    (fun acc i => (List.range p.num_requests).foldl
      (fun acc j =>
        if p.feasible i j then
          if mf.get_flow (p.driver_offset + i) (p.request_offset + j) > 0 then acc ++ [(i, j)]
          else acc
        else acc) acc) []

/-- The method `solve`: the returned pair and the object after the call. -/
def RideShareAssignment.solve (fuel : Nat) (p : RideShareAssignment) :
    Option ((Int × List (Nat × Nat)) × RideShareAssignment) :=
  let p1 := if p.flow_graph.isNone then p.build_flow_network else p
  match p1.flow_graph with
  | none => none
  | some mf =>
    match mf.max_flow fuel p1.source p1.sink with
    | none => none
    | some (max_flow_value, mf1) =>
      some ((max_flow_value, p1.extract mf1), { p1 with flow_graph := some mf1 })

/-- The sum of `φ e.to_ * e.cap` over a list of edges. -/
def wsum (φ : Nat → Int) (l : List Edge) : Int := (l.map (fun e => φ e.to_ * e.cap)).sum

/-- The sum of the capacities stored in `graph[w]`. -/
def outCap (g : Graph) (w : Nat) : Int := ((adjOf g w).map Edge.cap).sum

/-- A path of edge positions from `v` to `t` along which `dfs` can push `d`:
every edge has capacity at least `d` and goes to a node of larger level. -/
inductive AugPath (g : Graph) (level : List Int) (t : Nat) (d : Int) : Nat → List (Nat × Nat) → Prop
  | nil : AugPath g level t d t []
  | cons {v i : Nat} {e : Edge} {rest : List (Nat × Nat)} :
      v ≠ t → edgeAt g v i = some e → d ≤ e.cap →
      levelOf level v < levelOf level e.to_ →
      AugPath g level t d e.to_ rest → AugPath g level t d v ((v, i) :: rest)

/-- The updates of one successful `dfs`: the deepest edge is updated first. -/
def pushPath (g : Graph) (path : List (Nat × Nat)) (d : Int) : Graph :=
  path.foldr (fun p acc => pushEdge acc p.1 p.2 d) g

/-- Every stored capacity is non-negative. -/
def NonNeg (g : Graph) : Prop := ∀ v i e, edgeAt g v i = some e → 0 ≤ e.cap

/-- Every edge names an existing position `graph[e.to][e.rev]`. -/
def InRange (g : Graph) : Prop := ∀ v i e, edgeAt g v i = some e → ∃ r, edgeAt g e.to_ e.rev = some r

/-- The edge at `graph[e.to][e.rev]` points back to the node that stores `e`. -/
def BackPtr (g : Graph) : Prop :=
  ∀ v i e, edgeAt g v i = some e → ∃ r, edgeAt g e.to_ e.rev = some r ∧ r.to_ = v

/-- The two graphs store the same edges up to their capacities. -/
def SameShape (g g1 : Graph) : Prop :=
  g1.length = g.length ∧
  ∀ v i, (edgeAt g1 v i).map (fun e => (e.to_, e.rev)) = (edgeAt g v i).map (fun e => (e.to_, e.rev))

/-- The arguments of one call `add_edge(from, to, cap)`. -/
structure Call where
  from_ : Nat
  to_ : Nat
  cap : Int
deriving DecidableEq, Repr

/-- A sequence of `add_edge` calls on a `MaxFlow` object. -/
def MaxFlow.addEdges (mf : MaxFlow) (calls : List Call) : MaxFlow :=
  calls.foldl (fun m c => m.add_edge c.from_ c.to_ c.cap) mf

/-- The adjacency structure after a sequence of `add_edge` calls. -/
def buildG (g : Graph) (calls : List Call) : Graph :=
  calls.foldl (fun g c => addEdgeG g c.from_ c.to_ c.cap) g

/-- The calls name nodes of `[0, n)` and non-negative capacities. -/
def ValidCalls (n : Nat) (calls : List Call) : Prop :=
  ∀ c ∈ calls, c.from_ < n ∧ c.to_ < n ∧ 0 ≤ c.cap

/-- The cursor `iter[w]`. -/
def cursor (mf : MaxFlow) (w : Nat) : Nat := mf.iter[w]?.getD 0

/-- The number of cursor steps that remain in the current phase. -/
def slack (mf : MaxFlow) : Nat :=
  ∑ w in Finset.range mf.graph.length, ((adjOf mf.graph w).length - cursor mf w)

/-- The invariant of the loop `while (!q.empty())` of `bfs`. -/
structure BfsInv (g : Graph) (s : Nat) (level : List Int) (q : List Nat) : Prop where
  len : level.length = g.length
  src : levelOf level s = 0
  parent : ∀ w, 0 ≤ levelOf level w → w = s ∨ ∃ u i e, edgeAt g u i = some e ∧ e.to_ = w ∧
    0 < e.cap ∧ 0 ≤ levelOf level u ∧ levelOf level w = levelOf level u + 1
  closed : ∀ u, 0 ≤ levelOf level u →
    u ∈ q ∨ ∀ i e, edgeAt g u i = some e → 0 < e.cap → 0 ≤ levelOf level e.to_
  queued : ∀ w ∈ q, 0 ≤ levelOf level w

/-- The number of nodes that carry no label yet. -/
def unlabelled (level : List Int) : Nat := level.countP (fun x => decide (x < 0))

/-- The sink `t` can be reached from a node along edges of positive capacity
that go to a node of larger level. -/
inductive CanReach (g : Graph) (level : List Int) (t : Nat) : Nat → Prop
  | here : CanReach g level t t
  | step {v i : Nat} {e : Edge} : edgeAt g v i = some e → 0 < e.cap →
      levelOf level v < levelOf level e.to_ → CanReach g level t e.to_ → CanReach g level t v

/-- No edge that a cursor has passed leads to the sink any more. -/
def Blocked (mf : MaxFlow) (t : Nat) : Prop :=
  ∀ w j e, j < cursor mf w → edgeAt mf.graph w j = some e → 0 < e.cap →
    levelOf mf.level w < levelOf mf.level e.to_ → ¬ CanReach mf.graph mf.level t e.to_

/-- The graph `g1` arises from `g` by a sequence of augmentations from `s` to
`t` whose amounts add up to `x`. -/
inductive Flows (s t : Nat) : Graph → Int → Graph → Prop
  | refl (g : Graph) : Flows s t g 0 g
  | step {g g1 : Graph} {x d : Int} {path : List (Nat × Nat)} {level : List Int} :
      Flows s t g x g1 → 0 < d → AugPath g1 level t d s path →
      Flows s t g (x + d) (pushPath g1 path d)

/-- The size invariants of a `MaxFlow` object and the validity of its edges. -/
structure MaxFlow.WF (mf : MaxFlow) : Prop where
  level_len : mf.level.length = mf.graph.length
  iter_len : mf.iter.length = mf.graph.length
  inRange : InRange mf.graph
  nonNeg : NonNeg mf.graph

/-- The state in which `max_flow` returns: the last run of `bfs` left the
sink without a label. -/
def Final (s t : Nat) (mf : MaxFlow) : Prop :=
  mf.WF ∧ BfsInv mf.graph s mf.level [] ∧ levelOf mf.level t < 0

/-- The capacities stored at the nodes, weighted by `φ` at the node that
stores the edge (for an indicator `φ`: the capacity that leaves the set). -/
def storedCap (φ : Nat → Int) (g : Graph) : Int :=
  ∑ w in Finset.range g.length, φ w * outCap g w

/-- The capacities weighted by `φ` at the node that stores the edge and by `ψ`
at the node it points to (for two indicators: the capacity stored from the
first set to the second). -/
def bil (φ ψ : Nat → Int) (g : Graph) : Int :=
  ∑ w in Finset.range g.length, φ w * wsum ψ (adjOf g w)

/-- The sum of `ψ c * c.cap` over the calls. -/
def callSum (ψ : Call → Int) (calls : List Call) : Int := (calls.map (fun c => ψ c * c.cap)).sum

/-- The indicator of a set of nodes. -/
def ind (X : Nat → Bool) (w : Nat) : Int := if X w then 1 else 0

/-- The capacity of the cut `X`: the inserted capacities of the edges that
leave `X`. -/
def cutCap (X : Nat → Bool) (calls : List Call) : Int :=
  ((calls.filter (fun c => X c.from_ && !X c.to_)).map Call.cap).sum

/-- The object on which `max_flow` is called: a new `MaxFlow(n)` after the
given `add_edge` calls. -/
def MaxFlow.built (n : Nat) (calls : List Call) : MaxFlow := (MaxFlow.new n).addEdges calls

/-- The set of labelled nodes. -/
def labelled (level : List Int) (w : Nat) : Bool := decide (0 ≤ levelOf level w)

/-- The states of the object during `max_flow(s, t)` started on `mf0`: after
each `bfs`, after each reset of the cursors and after each call of `dfs`
(the recursive calls included, so after every augmentation of an edge pair
of the innermost call that has returned). -/
inductive Reached (mf0 : MaxFlow) (s t : Nat) : MaxFlow → Prop
  | init : Reached mf0 s t mf0
  | bfs {mf mf1 : MaxFlow} {fuel : Nat} :
      Reached mf0 s t mf → mf.bfs fuel s = some mf1 → Reached mf0 s t mf1
  | reset {mf : MaxFlow} :
      Reached mf0 s t mf → Reached mf0 s t { mf with iter := List.replicate mf.iter.length 0 }
  | dfs {mf mf1 : MaxFlow} {fuel v : Nat} {f d : Int} :
      Reached mf0 s t mf → mf.dfs fuel v t f = some (d, mf1) → Reached mf0 s t mf1

/-- The index in `graph[from]` at which `add_edge` on `g` stores the forward edge. -/
def fwdPos (g : Graph) (c : Call) : Nat := (adjOf g c.from_).length

/-- The index in `graph[to]` at which `add_edge` on `g` stores the reverse
edge: the forward edge comes first when `from = to`. -/
def revPos (g : Graph) (c : Call) : Nat :=
  (adjOf g c.to_).length + (if c.from_ = c.to_ then 1 else 0)

/-- The capacity `graph[v][i].cap`. -/
def capAt (g : Graph) (v i : Nat) : Int := ((edgeAt g v i).map Edge.cap).getD 0

/-- An edge that is not a loop and the edge at `graph[e.to][e.rev]` name each
other. -/
def Paired (g : Graph) : Prop :=
  ∀ v i e, edgeAt g v i = some e → e.to_ ≠ v →
    ∃ r, edgeAt g e.to_ e.rev = some r ∧ r.to_ = v ∧ r.rev = i

/-- The two edges of the call `c`, made on the graph `gp`, as they are stored
in `g`. -/
structure Slot (g gp : Graph) (c : Call) : Prop where
  fwd : ∃ F, edgeAt g c.from_ (fwdPos gp c) = some F ∧ F.to_ = c.to_ ∧
    F.rev = (adjOf gp c.to_).length
  bwd : ∃ R, edgeAt g c.to_ (revPos gp c) = some R ∧ R.to_ = c.from_ ∧ R.rev = fwdPos gp c

instance (n : Nat) (calls : List Call) : Decidable (ValidCalls n calls) := by
  unfold ValidCalls
  infer_instance

/-- The pair of edges of the call `c`, made on the graph `gp`, is stored in
`g` at the two positions that `add_edge` used, and the two capacities add up
to the inserted capacity. -/
def PairInv (g gp : Graph) (c : Call) : Prop :=
  Slot g gp c ∧ capAt g c.from_ (fwdPos gp c) + capAt g c.to_ (revPos gp c) = c.cap

/-- The instance of `demo_example`: 3 drivers of capacity 1, 4 requests and
the six feasible pairs. -/
def demoInstance : RideShareAssignment :=
  ((((((RideShareAssignment.new 3 4).add_feasible_assignment 0 0).add_feasible_assignment 0 1
    ).add_feasible_assignment 1 1).add_feasible_assignment 1 2).add_feasible_assignment 2 2
    ).add_feasible_assignment 2 3

/-- The `add_edge` calls of `build_flow_network`, in the order of the three
loops. -/
def netCalls (p : RideShareAssignment) : List Call :=
  (List.range p.num_drivers).map
      (fun i => { from_ := p.source, to_ := p.driver_offset + i, cap := p.capacity i })
    ++ (List.range p.num_drivers).flatMap (fun i => (List.range p.num_requests).flatMap (fun j =>
      if p.feasible i j then
        [{ from_ := p.driver_offset + i, to_ := p.request_offset + j, cap := 1 }]
      else []))
    ++ (List.range p.num_requests).map
      (fun j => { from_ := p.request_offset + j, to_ := p.sink, cap := 1 })

/-- An object as the constructor and the two setters leave it: the node
layout of the constructor, non-negative capacities and no network yet. -/
structure Configured (p : RideShareAssignment) : Prop where
  source_eq : p.source = 0
  driver_eq : p.driver_offset = 1
  request_eq : p.request_offset = 1 + p.num_drivers
  sink_eq : p.sink = 1 + p.num_drivers + p.num_requests
  cap_nonneg : ∀ i, i < p.num_drivers → 0 ≤ p.capacity i
  fresh : p.flow_graph = none

/-- The sum of `ψ` over the calls. -/
def callCount (ψ : Call → Int) (calls : List Call) : Int := (calls.map ψ).sum

/-- The indicator of the node `a`. -/
def pt (a : Nat) (w : Nat) : Int := if w = a then 1 else 0

/-- The sum of `ψ e.to_` over a list of edges (for an indicator: the number
of edges that point into the set). -/
def cntW (ψ : Nat → Int) (l : List Edge) : Int := (l.map (fun e => ψ e.to_)).sum

/-- The number of feasible requests of driver `i`. -/
def feasCount (p : RideShareAssignment) (i : Nat) : Int :=
  ∑ j in Finset.range p.num_requests, if p.feasible i j then 1 else 0

/-- The indicator of the nodes that are neither the source nor a request. -/
def restD (p : RideShareAssignment) (w : Nat) : Int :=
  if w = 0 ∨ (1 + p.num_drivers ≤ w ∧ w < 1 + p.num_drivers + p.num_requests) then 0 else 1

/-- The indicator of the nodes that are no driver. -/
def restS (p : RideShareAssignment) (w : Nat) : Int :=
  if 1 ≤ w ∧ w < 1 + p.num_drivers then 0 else 1

/-- The network of the instance, before any flow. -/
def netGraph (p : RideShareAssignment) : Graph :=
  buildG (List.replicate (p.num_drivers + p.num_requests + 2) []) (netCalls p)

/-- The capacity stored at request `j` towards driver `i`: the flow on the
edge from driver `i` to request `j`. -/
def flowOn (p : RideShareAssignment) (g : Graph) (i j : Nat) : Int :=
  wsum (pt (1 + i)) (adjOf g (1 + p.num_drivers + j))

/-- The capacity stored at driver `i` towards the source: the flow that
enters driver `i`. -/
def flowIn (g : Graph) (i : Nat) : Int := wsum (pt 0) (adjOf g (1 + i))

/-- A graph that `max_flow(source, sink)` can leave behind on the network of
the instance, `x` being the total amount pushed. -/
def NetFlows (p : RideShareAssignment) (x : Int) (g : Graph) : Prop :=
  Flows 0 (1 + p.num_drivers + p.num_requests) (netGraph p) x g

/-- The pairs `(i, j)` with `i < m`, `j < n` and `c i j`, in increasing order. -/
def pairList (m n : Nat) (c : Nat → Nat → Bool) : List (Nat × Nat) :=
  (List.range m).flatMap (fun i => (List.range n).flatMap (fun j =>
    if c i j then [(i, j)] else []))

/-- The test of the extraction loops of `solve` on the pair `(i, j)`. -/
def selected (p : RideShareAssignment) (mf : MaxFlow) (i j : Nat) : Bool :=
  p.feasible i j && decide (mf.get_flow (p.driver_offset + i) (p.request_offset + j) > 0)

/-- A set of feasible pairs in which every driver `i` occurs in at most
`driver_capacities[i]` pairs and every request in at most one pair. -/
structure ValidAssignment (p : RideShareAssignment) (S : Finset (Nat × Nat)) : Prop where
  feasible : ∀ pr ∈ S, pr.1 < p.num_drivers ∧ pr.2 < p.num_requests ∧ p.feasible pr.1 pr.2 = true
  supply : ∀ i, i < p.num_drivers → ((S.filter (fun pr => pr.1 = i)).card : Int) ≤ p.capacity i
  demand : ∀ j, j < p.num_requests → (S.filter (fun pr => pr.2 = j)).card ≤ 1

/-- The sum of `ψ c * f` over the calls `c` and the amounts `f` given to them. -/
def wflow (ψ : Call → Int) : List Call → List Int → Int
  | c :: cs, f :: fs => ψ c * f + wflow ψ cs fs
  | _, _ => 0

/-- The amount that enters node `w` when the edge of the `k`-th call carries
`fl[k]`. -/
def inflow (w : Nat) (calls : List Call) (fl : List Int) : Int :=
  wflow (fun c => if c.to_ = w then 1 else 0) calls fl

/-- The amount that leaves node `w`. -/
def outflow (w : Nat) (calls : List Call) (fl : List Int) : Int :=
  wflow (fun c => if c.from_ = w then 1 else 0) calls fl

/-- A flow from `s` to `t` on the inserted edges: every edge carries an
amount between `0` and its inserted capacity, and every node other than `s`
and `t` passes on what it receives. -/
structure FeasibleFlow (calls : List Call) (s t : Nat) (fl : List Int) : Prop where
  bounds : List.Forall₂ (fun c f => 0 ≤ f ∧ f ≤ c.cap) calls fl
  conserve : ∀ w, w ≠ s → w ≠ t → inflow w calls fl = outflow w calls fl

/-- The value of a flow: what leaves `s` minus what enters it. -/
def flowValue (s : Nat) (calls : List Call) (fl : List Int) : Int :=
  outflow s calls fl - inflow s calls fl

/-- The amounts that the graph `gf` records on the edges of the calls made
on `g`: the current capacity of each reverse edge. -/
def edgeFlows (gf : Graph) : Graph → List Call → List Int
  | _, [] => []
  | g, c :: cs => capAt gf c.to_ (revPos g c) :: edgeFlows gf (addEdgeG g c.from_ c.to_ c.cap) cs

/-- Every pair of edges of the calls made on `g` adds up in `gf` to the
inserted capacity. -/
def SlotsOk (gf : Graph) : Graph → List Call → Prop
  | _, [] => True
  | g, c :: cs =>
    (capAt gf c.from_ (fwdPos g c) + capAt gf c.to_ (revPos g c) = c.cap) ∧
      SlotsOk gf (addEdgeG g c.from_ c.to_ c.cap) cs

/-- The sum of `κ` over the positions in `graph[w]` of the edges of the
calls made on `g`. -/
def slotSum (κ : Nat → Int) (w : Nat) : Graph → List Call → Int
  | _, [] => 0
  | g, c :: cs =>
    (if c.from_ = w then κ (fwdPos g c) else 0) + (if c.to_ = w then κ (revPos g c) else 0)
      + slotSum κ w (addEdgeG g c.from_ c.to_ c.cap) cs

/-- The largest value of an `int`. -/
def INT_MAX : Int := 2147483647

/-- The value that a 32-bit `int` holds after a result `x` was stored in it:
`x` reduced to the range `[-2^31, 2^31)`. -/
def wrapInt (x : Int) : Int := (x + 2147483648) % 4294967296 - 2147483648

/-- The loop `while ((f = dfs(s, t, INF)) > 0) flow += f;` of `max_flow` with
the accumulator `int flow` of the source: `flow += f` wraps when the sum
leaves the range of `int`. -/
def MaxFlow.augment_int : Nat → MaxFlow → Nat → Nat → Int → Option (Int × MaxFlow)
  | 0, _, _, _, _ => none
  | fuel + 1, mf, s, t, flow =>
    match MaxFlow.dfs fuel mf s t INF with
    | none => none
    | some (f, mf1) =>
      if f > 0 then MaxFlow.augment_int fuel mf1 s t (wrapInt (flow + f)) else some (flow, mf1)

/-- The loop `while (true)` of `max_flow`, with the accumulator `int flow`. -/
def MaxFlow.phases_int : Nat → MaxFlow → Nat → Nat → Int → Option (Int × MaxFlow)
  | 0, _, _, _, _ => none
  | fuel + 1, mf, s, t, flow =>
    match MaxFlow.bfs fuel mf s with
    | none => none
    | some mf1 =>
      if levelOf mf1.level t < 0 then some (flow, mf1)
      else
        match MaxFlow.augment_int fuel { mf1 with iter := List.replicate mf1.iter.length 0 }
            s t flow with
        | none => none
        | some (flow1, mf2) => MaxFlow.phases_int fuel mf2 s t flow1

/-- The method `MaxFlow::max_flow` with its return value as the `int` that
the source computes: the run of `MaxFlow.max_flow`, whose accumulator is
exact, with every `flow += f` reduced to 32 bits. -/
def MaxFlow.max_flow_int (fuel : Nat) (mf : MaxFlow) (s t : Nat) : Option (Int × MaxFlow) :=
  MaxFlow.phases_int fuel mf s t 0

/-- Three parallel edges of capacity `1000000000` from node `0` to node `1`. -/
def threeBigEdges : List Call :=
  [⟨0, 1, 1000000000⟩, ⟨0, 1, 1000000000⟩, ⟨0, 1, 1000000000⟩]

/-- One driver of capacity 1, one request, and the pair `(0, 0)` feasible. -/
def oneRide : RideShareAssignment :=
  (RideShareAssignment.new 1 1).add_feasible_assignment 0 0

/-- The object of `demo_example`: 3 drivers, 4 requests, the three calls of
`set_driver_capacity(i, 1)` and the six calls of `add_feasible_assignment`. -/
def demoExample : RideShareAssignment :=
  (((((((((RideShareAssignment.new 3 4).set_driver_capacity 0 1).set_driver_capacity 1 1
    ).set_driver_capacity 2 1).add_feasible_assignment 0 0).add_feasible_assignment 0 1
    ).add_feasible_assignment 1 1).add_feasible_assignment 1 2).add_feasible_assignment 2 2
    ).add_feasible_assignment 2 3

/-- The total supply capacity: the sum of `driver_capacities[i]` over the
drivers. -/
def totalCapacity (p : RideShareAssignment) : Int :=
  ((List.range p.num_drivers).map p.capacity).sum

/-- One driver of capacity 1 and two requests, both pairs feasible. -/
def oneDriverTwoRequests : RideShareAssignment :=
  ((RideShareAssignment.new 1 2).add_feasible_assignment 0 0).add_feasible_assignment 0 1

/-- An edge of positive capacity of the network that `build_flow_network`
constructs. -/
def NetEdge (p : RideShareAssignment) (u w : Nat) : Prop :=
  ∃ c ∈ netCalls p, c.from_ = u ∧ c.to_ = w ∧ 0 < c.cap

/-- The sink can be reached from a node along edges of the network without
entering a node of `C`. -/
inductive NetPath (p : RideShareAssignment) (C : Finset Nat) : Nat → Prop
  | sink : NetPath p C p.sink
  | step {u w : Nat} : NetEdge p u w → w ∉ C → NetPath p C w → NetPath p C u

/-- A vertex cut: a set of supply and demand nodes whose removal leaves no
path from the source to the sink. -/
structure VertexCut (p : RideShareAssignment) (C : Finset Nat) : Prop where
  nodes : ∀ w ∈ C, p.driver_offset ≤ w ∧ w < p.sink
  cut : ¬ NetPath p C p.source

/-- The nodes that a cut `X` of the network selects: the drivers with
capacity outside `X`, the requests inside `X`, and the requests outside `X`
that are feasible for a driver inside `X`. -/
def cutNodes (p : RideShareAssignment) (X : Nat → Bool) : Finset Nat :=
  ((Finset.range p.num_drivers).filter
      (fun i => X (1 + i) = false ∧ 0 < p.capacity i)).image (fun i => 1 + i) ∪
    ((Finset.range p.num_requests).filter
      (fun j => X (1 + p.num_drivers + j) = true ∨
        ∃ i, i < p.num_drivers ∧ X (1 + i) = true ∧ p.feasible i j = true)).image
      (fun j => 1 + p.num_drivers + j)

/-- One driver of capacity 2 and two requests, both pairs feasible. -/
def twoSeatDriver : RideShareAssignment :=
  (((RideShareAssignment.new 1 2).set_driver_capacity 0 2).add_feasible_assignment 0 0
    ).add_feasible_assignment 0 1

/-- A path in the level graph from a node to `t`, as the list of its edge
positions `(v, i)`: every edge goes up exactly one level. -/
inductive LevelPath (g : Graph) (level : List Int) (t : Nat) : Nat → List (Nat × Nat) → Prop
  | nil : LevelPath g level t t []
  | cons {v i : Nat} {e : Edge} {rest : List (Nat × Nat)} :
      edgeAt g v i = some e → levelOf level e.to_ = levelOf level v + 1 →
      LevelPath g level t e.to_ rest → LevelPath g level t v ((v, i) :: rest)

/-- The states of one phase in which the loop of `max_flow` calls
`dfs(s, t, INF)`: the state after `bfs` with the cursors reset (`mf1` is the
state that `bfs` returned), and the state after each call that pushed flow. -/
inductive InPhase (s t : Nat) (mf1 : MaxFlow) : MaxFlow → Prop
  | start : InPhase s t mf1 { mf1 with iter := List.replicate mf1.iter.length 0 }
  | again {mf mf2 : MaxFlow} {fuel : Nat} {d : Int} :
      InPhase s t mf1 mf → mf.dfs fuel s t INF = some (d, mf2) → 0 < d → InPhase s t mf1 mf2

/-- A path of `k` edges of positive capacity from `s` to a node. -/
inductive PosPath (g : Graph) (s : Nat) : Nat → Nat → Prop
  | nil : PosPath g s s 0
  | snoc {v i k : Nat} {e : Edge} : PosPath g s v k → edgeAt g v i = some e → 0 < e.cap →
      PosPath g s e.to_ (k + 1)

/-- The part of the invariant of the loop of `bfs` that makes the labels
distances: the queue is sorted by level, no label exceeds the level of the
head of the queue by more than one, and an edge of positive capacity that
leaves a node which has left the queue goes up by at most one level. -/
structure BfsDist (g : Graph) (level : List Int) (q : List Nat) : Prop where
  floor : ∀ w, levelOf level w = -1 ∨ 0 ≤ levelOf level w
  sorted : q.Pairwise (fun a b => levelOf level a ≤ levelOf level b)
  span : ∀ u, q.head? = some u → ∀ w, 0 ≤ levelOf level w → levelOf level w ≤ levelOf level u + 1
  relax : ∀ u, 0 ≤ levelOf level u →
    u ∈ q ∨ ∀ i e, edgeAt g u i = some e → 0 < e.cap → levelOf level e.to_ ≤ levelOf level u + 1

/-- The search that the description of the blocking flow names: `dfs` with
the test `e.cap > 0 && level[e.to] == level[v] + 1` in place of
`e.cap > 0 && level[v] < level[e.to]`. -/
def MaxFlow.dfsExact : Nat → MaxFlow → Nat → Nat → Int → Option (Int × MaxFlow)
  | 0, _, _, _, _ => none
  | fuel + 1, mf, v, t, f =>
    if v = t then some (f, mf)
    else
      let i := mf.iter[v]?.getD 0
      match edgeAt mf.graph v i with
      | none => some (0, mf)
      | some e =>
        if e.cap > 0 ∧ levelOf mf.level e.to_ = levelOf mf.level v + 1 then
          match MaxFlow.dfsExact fuel mf e.to_ t (min f e.cap) with
          | none => none
          | some (d, mf1) =>
            if d > 0 then some (d, { mf1 with graph := pushEdge mf1.graph v i d })
            else MaxFlow.dfsExact fuel (mf1.advance v) v t f
        else MaxFlow.dfsExact fuel (mf.advance v) v t f

/-- An edge of positive capacity that leaves a labelled node goes up by at
most one level. -/
def LevelOk (g : Graph) (level : List Int) : Prop :=
  ∀ v i e, 0 ≤ levelOf level v → edgeAt g v i = some e → 0 < e.cap →
    levelOf level e.to_ ≤ levelOf level v + 1

/-- The statement `s.insert(x)` on a `std::set<int>`, kept as the increasing
list of its elements. -/
def setInsert (x : Int) : List Int → List Int
  | [] => [x]
  | y :: l => if x < y then x :: y :: l else if x = y then y :: l else y :: setInsert x l

/-- The set that holds the elements of a list (an initializer list, or the
range of an `insert(first, last)`), added to the set `acc`. -/
def setInsertAll (acc : List Int) (l : List Int) : List Int :=
  l.foldl (fun s x => setInsert x s) acc

/-- The class `BusStopPlacement`: the data members that the set-cover methods
read (the positions, of type `double`, are used by the instance generator
and the export only). -/
structure BusStopPlacement where
  num_students : Nat
  num_candidates : Nat
  coverage : List (List Int)
deriving DecidableEq, Repr

/-- The constructor `BusStopPlacement(int n_students, int n_candidates)`. -/
def BusStopPlacement.new (n_students n_candidates : Nat) : BusStopPlacement :=
  { num_students := n_students, num_candidates := n_candidates,
    coverage := List.replicate n_candidates [] }

/-- The method `set_coverage`. -/
def BusStopPlacement.set_coverage (p : BusStopPlacement) (stop_id : Nat)
    (covered_students : List Int) : BusStopPlacement :=
  { p with coverage := p.coverage.set stop_id covered_students }

/-- The method `verify_solution`: the union of the coverage sets of the
selected stops has `num_students` elements. -/
def BusStopPlacement.verify_solution (p : BusStopPlacement) (selected_stops : List Nat) : Bool :=
  let covered := selected_stops.foldl
    (fun cov stop_id => setInsertAll cov (p.coverage[stop_id]?.getD [])) []
  covered.length == p.num_students

/-- The object of `demo_example`: 6 students, 4 candidate stops and the four
calls of `set_coverage`. -/
def busDemo : BusStopPlacement :=
  ((((BusStopPlacement.new 6 4).set_coverage 0 (setInsertAll [] [0, 1, 2])).set_coverage 1
    (setInsertAll [] [1, 3, 4])).set_coverage 2 (setInsertAll [] [2, 4, 5])).set_coverage 3
    (setInsertAll [] [3, 5])

/-- The flow on the edges of the calls made on `g`, read from the graph `gf`:
the inserted capacity minus the residual capacity of each forward edge. -/
def usedCap (gf : Graph) : Graph → List Call → List Int
  | _, [] => []
  | g, c :: cs =>
    (c.cap - capAt gf c.from_ (fwdPos g c)) :: usedCap gf (addEdgeG g c.from_ c.to_ c.cap) cs

/-- The call `std::set_intersection` on two sets: the elements of the first
that belong to the second, in increasing order. -/
def setInter (a b : List Int) : List Int := a.filter (fun x => decide (x ∈ b))

/-- The statement `s.erase(x)` on a `std::set<int>`. -/
def setErase (x : Int) (s : List Int) : List Int := s.filter (fun y => decide (y ≠ x))

/-- The loop `for (int j = 0; j < num_candidates; j++)` of `greedy_set_cover`
that looks for the stop with the most uncovered students: the pair
`(best_stop, best_coverage)` after the loop (`best_stop` is `-1` when no stop
was chosen). -/
def BusStopPlacement.bestStop (p : BusStopPlacement) (uncovered_students : List Int) :
    Int × List Int :=
  (List.range p.num_candidates).foldl
    (fun (best : Int × List Int) (j : Nat) =>
      let new_coverage := setInsertAll [] (setInter (p.coverage[j]?.getD []) uncovered_students)
      if new_coverage.length > best.2.length then ((j : Int), new_coverage) else best)
    (-1, [])

/-- The loop `while (!uncovered_students.empty())` of `greedy_set_cover`, on
the pair `(selected_stops, uncovered_students)`; the chosen stop is a loop
index `j ≥ 0` and is kept as a natural number. -/
def BusStopPlacement.greedyLoop (p : BusStopPlacement) :
    Nat → List Nat → List Int → Option (List Nat)
  | _, selected_stops, [] => some selected_stops
  | 0, _, _ :: _ => none
  | fuel + 1, selected_stops, u :: us =>
    let best := p.bestStop (u :: us)
    if best.1 = -1 ∨ best.2 = [] then some []
    else
      p.greedyLoop fuel (selected_stops ++ [best.1.toNat])
        (best.2.foldl (fun uncovered student => setErase student uncovered) (u :: us))

/-- The method `greedy_set_cover`. -/
def BusStopPlacement.greedy_set_cover (fuel : Nat) (p : BusStopPlacement) : Option (List Nat) :=
  p.greedyLoop fuel []
    (setInsertAll [] ((List.range p.num_students).map (fun (i : Nat) => (i : Int))))

/-- The uncovered students that stop `j` would cover. -/
def newCoverage (p : BusStopPlacement) (uncovered_students : List Int) (j : Nat) : List Int :=
  setInsertAll [] (setInter (p.coverage[j]?.getD []) uncovered_students)

/-- The invariant of the loop `while (!uncovered_students.empty())`. -/
structure GreedyInv (p : BusStopPlacement) (selected : List Nat) (u : List Int) : Prop where
  students : ∀ x ∈ u, ∃ k : Nat, k < p.num_students ∧ x = (k : Int)
  covered : ∀ k : Nat, k < p.num_students →
    (k : Int) ∈ u ∨ ∃ j ∈ selected, (k : Int) ∈ p.coverage[j]?.getD []
  done : ∀ j ∈ selected, j < p.num_candidates ∧ ∀ x ∈ p.coverage[j]?.getD [], x ∉ u
  nodup : selected.Nodup

/-- The hypotheses on an instance: `coverage` has one entry per candidate
stop, the coverage sets hold student ids only, and every student belongs to
a coverage set. -/
structure Coverable (p : BusStopPlacement) : Prop where
  size : p.coverage.length = p.num_candidates
  ids : ∀ c ∈ p.coverage, ∀ x ∈ c, 0 ≤ x ∧ x < (p.num_students : Int)
  all : ∀ k : Nat, k < p.num_students → ∃ c ∈ p.coverage, (k : Int) ∈ c

/-! ## Reading and updating the adjacency structure -/

theorem adjOf_of_le (g : Graph) (v : Nat) (h : g.length ≤ v) : adjOf g v = [] := by
  unfold adjOf
  rw [List.getElem?_eq_none h]
  rfl

theorem adjOf_set (g : Graph) (v w : Nat) (l : List Edge) :
    adjOf (g.set v l) w = if w = v ∧ v < g.length then l else adjOf g w := by
  unfold adjOf
  rw [List.getElem?_set]
  by_cases h : v = w
  · subst h
    by_cases h2 : v < g.length
    · simp [h2]
    · simp [h2, List.getElem?_eq_none (not_lt.mp h2)]
  · have h3 : ¬ w = v := fun h4 => h h4.symm
    simp [h, h3]

theorem edgeAt_lt {g : Graph} {v i : Nat} {e : Edge} (h : edgeAt g v i = some e) :
    v < g.length ∧ i < (adjOf g v).length := by
  unfold edgeAt at h
  have hi : i < (adjOf g v).length := (List.getElem?_eq_some.mp h).1
  refine ⟨?_, hi⟩
  by_contra hv
  rw [adjOf_of_le g v (not_lt.mp hv)] at hi
  simp at hi

theorem edgeAt_isSome {g : Graph} {v i : Nat} (h : i < (adjOf g v).length) :
    ∃ e, edgeAt g v i = some e := by
  unfold edgeAt
  exact ⟨_, List.getElem?_eq_getElem h⟩

theorem edgeAt_mem {g : Graph} {v i : Nat} {e : Edge} (h : edgeAt g v i = some e) :
    e ∈ adjOf g v := by
  unfold edgeAt at h
  obtain ⟨hi, he⟩ := List.getElem?_eq_some.mp h
  exact he ▸ List.getElem_mem hi

theorem mem_adjOf {g : Graph} {v : Nat} {e : Edge} (h : e ∈ adjOf g v) :
    ∃ i, edgeAt g v i = some e := by
  unfold edgeAt
  obtain ⟨i, hi, he⟩ := List.getElem_of_mem h
  exact ⟨i, by rw [List.getElem?_eq_getElem hi, he]⟩

theorem bumpAt_length (l : List Edge) (i : Nat) (d : Int) : (bumpAt l i d).length = l.length := by
  induction l generalizing i with
  | nil => rfl
  | cons e l ih =>
    cases i with
    | zero => rfl
    | succ i => simp [bumpAt, ih]

theorem bumpAt_getElem? (l : List Edge) (i j : Nat) (d : Int) :
    (bumpAt l i d)[j]? =
      if j = i then (l[i]?).map (fun e => { e with cap := e.cap + d }) else l[j]? := by
  induction l generalizing i j with
  | nil => simp [bumpAt]
  | cons e l ih =>
    cases i with
    | zero =>
      cases j with
      | zero => simp [bumpAt]
      | succ j => simp [bumpAt]
    | succ i =>
      cases j with
      | zero => simp [bumpAt]
      | succ j => simp [bumpAt, ih]

theorem bumpAt_of_le (l : List Edge) (i : Nat) (d : Int) (h : l.length ≤ i) : bumpAt l i d = l := by
  induction l generalizing i with
  | nil => rfl
  | cons e l ih =>
    cases i with
    | zero => simp at h
    | succ i => simp [bumpAt, ih i (by simpa using h)]

theorem bumpAt_shape (l : List Edge) (i : Nat) (d : Int) :
    (bumpAt l i d).map (fun e => (e.to_, e.rev)) = l.map (fun e => (e.to_, e.rev)) := by
  induction l generalizing i with
  | nil => rfl
  | cons e l ih =>
    cases i with
    | zero => simp [bumpAt]
    | succ i => simp [bumpAt, ih]

theorem bumpAt_sum (l : List Edge) (i : Nat) (d : Int) :
    ((bumpAt l i d).map Edge.cap).sum = (l.map Edge.cap).sum + (if i < l.length then d else 0) := by
  induction l generalizing i with
  | nil => simp [bumpAt]
  | cons e l ih =>
    cases i with
    | zero => simp [bumpAt]; ring
    | succ i => simp [bumpAt, ih]; ring

theorem wsum_nil (φ : Nat → Int) : wsum φ [] = 0 := rfl

theorem wsum_cons (φ : Nat → Int) (e : Edge) (l : List Edge) :
    wsum φ (e :: l) = φ e.to_ * e.cap + wsum φ l := by
  simp [wsum]

theorem wsum_append (φ : Nat → Int) (l1 l2 : List Edge) :
    wsum φ (l1 ++ l2) = wsum φ l1 + wsum φ l2 := by
  simp [wsum]

theorem bumpAt_wsum (φ : Nat → Int) (l : List Edge) (i : Nat) (d : Int) (e : Edge)
    (h : l[i]? = some e) : wsum φ (bumpAt l i d) = wsum φ l + φ e.to_ * d := by
  induction l generalizing i with
  | nil => simp at h
  | cons a l ih =>
    cases i with
    | zero =>
      simp at h
      subst h
      simp [bumpAt, wsum_cons]; ring
    | succ i =>
      simp at h
      simp [bumpAt, wsum_cons, ih i h]; ring

theorem addCap_length (g : Graph) (v i : Nat) (d : Int) : (addCap g v i d).length = g.length := by
  simp [addCap]

theorem adjOf_addCap (g : Graph) (v i w : Nat) (d : Int) :
    adjOf (addCap g v i d) w = if w = v then bumpAt (adjOf g v) i d else adjOf g w := by
  unfold addCap
  rw [adjOf_set]
  by_cases h : w = v
  · subst h
    by_cases h2 : w < g.length
    · simp [h2]
    · simp [h2, adjOf_of_le g w (not_lt.mp h2), bumpAt]
  · simp [h]

theorem edgeAt_addCap (g : Graph) (v i w j : Nat) (d : Int) :
    edgeAt (addCap g v i d) w j =
      if w = v ∧ j = i then (edgeAt g v i).map (fun e => { e with cap := e.cap + d })
      else edgeAt g w j := by
  unfold edgeAt
  rw [adjOf_addCap]
  by_cases h : w = v
  · subst h
    simp only [if_true, true_and, bumpAt_getElem?]
  · simp [h]

theorem adjOf_addCap_length (g : Graph) (v i w : Nat) (d : Int) :
    (adjOf (addCap g v i d) w).length = (adjOf g w).length := by
  rw [adjOf_addCap]
  split
  · next h => subst h; exact bumpAt_length _ _ _
  · rfl

theorem adjOf_pushEdge_length (g : Graph) (v i w : Nat) (d : Int) :
    (adjOf (pushEdge g v i d) w).length = (adjOf g w).length := by
  unfold pushEdge
  split
  · rfl
  · simp [adjOf_addCap_length]

theorem pushEdge_length (g : Graph) (v i : Nat) (d : Int) : (pushEdge g v i d).length = g.length := by
  unfold pushEdge
  split
  · rfl
  · simp [addCap_length]

theorem outCap_addCap (g : Graph) (v i w : Nat) (d : Int) :
    outCap (addCap g v i d) w =
      outCap g w + (if w = v ∧ i < (adjOf g v).length then d else 0) := by
  unfold outCap
  rw [adjOf_addCap]
  by_cases h : w = v
  · subst h
    simp [bumpAt_sum]
  · simp [h]

/-! ## What one call of `dfs` does to the graph -/

theorem pushPath_cons (g : Graph) (v i : Nat) (rest : List (Nat × Nat)) (d : Int) :
    pushPath g ((v, i) :: rest) d = pushEdge (pushPath g rest d) v i d := rfl

theorem advance_graph (mf : MaxFlow) (v : Nat) : (mf.advance v).graph = mf.graph := rfl

theorem advance_level (mf : MaxFlow) (v : Nat) : (mf.advance v).level = mf.level := rfl

theorem advance_n (mf : MaxFlow) (v : Nat) : (mf.advance v).n = mf.n := rfl

theorem dfs_spec : ∀ (fuel : Nat) (mf : MaxFlow) (v t : Nat) (f d : Int) (mf' : MaxFlow),
    MaxFlow.dfs fuel mf v t f = some (d, mf') →
    mf'.level = mf.level ∧ mf'.n = mf.n ∧ (d ≤ 0 → mf'.graph = mf.graph) ∧
    (0 < d → d ≤ f ∧ ∃ path, AugPath mf.graph mf.level t d v path ∧
      mf'.graph = pushPath mf.graph path d) := by
  intro fuel
  induction fuel with
  | zero => intro mf v t f d mf' h; simp [MaxFlow.dfs] at h
  | succ fuel ih =>
    intro mf v t f d mf' h
    simp only [MaxFlow.dfs] at h
    split at h
    · next hvt =>
      simp only [Option.some.injEq, Prod.mk.injEq] at h
      obtain ⟨h1, h2⟩ := h
      subst h1 h2 hvt
      exact ⟨rfl, rfl, fun _ => rfl, fun _ => ⟨le_refl _, [], AugPath.nil, rfl⟩⟩
    · next hvt =>
      split at h
      · simp only [Option.some.injEq, Prod.mk.injEq] at h
        obtain ⟨h1, h2⟩ := h
        subst h1 h2
        exact ⟨rfl, rfl, fun _ => rfl, fun hd => absurd hd (lt_irrefl _)⟩
      · next e he =>
        split at h
        · next hc =>
          split at h
          · simp at h
          · next d1 mf1 hrec =>
            obtain ⟨hl1, hn1, hz1, hp1⟩ := ih mf e.to_ t (min f e.cap) d1 mf1 hrec
            split at h
            · next hd1 =>
              simp only [Option.some.injEq, Prod.mk.injEq] at h
              obtain ⟨h1, h2⟩ := h
              subst h1 h2
              obtain ⟨hle, path, hpath, hg⟩ := hp1 hd1
              refine ⟨hl1, hn1, fun hd => absurd hd1 (not_lt.mpr hd), fun _ => ?_⟩
              refine ⟨le_trans hle (min_le_left _ _), (v, mf.iter[v]?.getD 0) :: path, ?_, ?_⟩
              · exact AugPath.cons hvt he (le_trans hle (min_le_right _ _)) hc.2 hpath
              · rw [pushPath_cons, ← hg]
            · next hd1 =>
              obtain ⟨hl2, hn2, hz2, hp2⟩ := ih (mf1.advance v) v t f d mf' h
              rw [advance_graph, advance_level, hz1 (not_lt.mp hd1), hl1] at *
              rw [advance_n, hn1] at hn2
              exact ⟨hl2, hn2, hz2, hp2⟩
        · exact ih (mf.advance v) v t f d mf' h

/-! ## Invariants of the graph under the updates of `dfs` -/

theorem backPtr_inRange {g : Graph} (h : BackPtr g) : InRange g := by
  intro v i e he
  obtain ⟨r, hr, _⟩ := h v i e he
  exact ⟨r, hr⟩

theorem sameShape_refl (g : Graph) : SameShape g g := ⟨rfl, fun _ _ => rfl⟩

theorem sameShape_trans {g g1 g2 : Graph} (h1 : SameShape g g1) (h2 : SameShape g1 g2) :
    SameShape g g2 :=
  ⟨h2.1.trans h1.1, fun v i => (h2.2 v i).trans (h1.2 v i)⟩

theorem sameShape_symm {g g1 : Graph} (h : SameShape g g1) : SameShape g1 g :=
  ⟨h.1.symm, fun v i => (h.2 v i).symm⟩

theorem sameShape_edge {g g1 : Graph} (h : SameShape g g1) {v i : Nat} {e : Edge}
    (he : edgeAt g v i = some e) :
    ∃ e1, edgeAt g1 v i = some e1 ∧ e1.to_ = e.to_ ∧ e1.rev = e.rev := by
  have h2 := h.2 v i
  rw [he] at h2
  cases h1 : edgeAt g1 v i with
  | none => rw [h1] at h2; simp at h2
  | some e1 =>
    rw [h1] at h2
    simp only [Option.map_some', Option.some.injEq, Prod.mk.injEq] at h2
    exact ⟨e1, rfl, h2.1, h2.2⟩

theorem sameShape_adj_length {g g1 : Graph} (h : SameShape g g1) (v : Nat) :
    (adjOf g1 v).length = (adjOf g v).length := by
  apply le_antisymm
  · by_contra hlt
    obtain ⟨e, he⟩ := edgeAt_isSome (g := g1) (v := v) (i := (adjOf g v).length) (not_le.mp hlt)
    obtain ⟨e1, he1, _⟩ := sameShape_edge (sameShape_symm h) he
    exact absurd (edgeAt_lt he1).2 (lt_irrefl _)
  · by_contra hlt
    obtain ⟨e, he⟩ := edgeAt_isSome (g := g) (v := v) (i := (adjOf g1 v).length) (not_le.mp hlt)
    obtain ⟨e1, he1, _⟩ := sameShape_edge h he
    exact absurd (edgeAt_lt he1).2 (lt_irrefl _)

theorem sameShape_inRange {g g1 : Graph} (h : SameShape g g1) (hr : InRange g) : InRange g1 := by
  intro v i e1 he1
  obtain ⟨e, he, hto, hrev⟩ := sameShape_edge (sameShape_symm h) he1
  obtain ⟨r, hr1⟩ := hr v i e he
  obtain ⟨r1, hr2, _⟩ := sameShape_edge h hr1
  exact ⟨r1, by rw [← hto, ← hrev]; exact hr2⟩

theorem sameShape_backPtr {g g1 : Graph} (h : SameShape g g1) (hr : BackPtr g) : BackPtr g1 := by
  intro v i e1 he1
  obtain ⟨e, he, hto, hrev⟩ := sameShape_edge (sameShape_symm h) he1
  obtain ⟨r, hr1, hrv⟩ := hr v i e he
  obtain ⟨r1, hr2, hto1, _⟩ := sameShape_edge h hr1
  exact ⟨r1, by rw [← hto, ← hrev]; exact hr2, hto1.trans hrv⟩

theorem sameShape_addCap (g : Graph) (v i : Nat) (d : Int) : SameShape g (addCap g v i d) := by
  refine ⟨addCap_length g v i d, fun w j => ?_⟩
  rw [edgeAt_addCap]
  split
  · next h =>
    obtain ⟨h1, h2⟩ := h
    subst h1 h2
    cases edgeAt g w j <;> rfl
  · rfl

theorem sameShape_pushEdge (g : Graph) (v i : Nat) (d : Int) : SameShape g (pushEdge g v i d) := by
  unfold pushEdge
  split
  · exact sameShape_refl g
  · exact sameShape_trans (sameShape_addCap g v i (-d)) (sameShape_addCap _ _ _ d)

theorem sameShape_pushPath (g : Graph) (path : List (Nat × Nat)) (d : Int) :
    SameShape g (pushPath g path d) := by
  induction path with
  | nil => exact sameShape_refl g
  | cons p rest ih => exact sameShape_trans ih (sameShape_pushEdge _ p.1 p.2 d)

theorem edgeAt_pushEdge {g : Graph} {v i : Nat} {e : Edge} (d : Int)
    (he : edgeAt g v i = some e) (hne : e.to_ ≠ v) (w j : Nat) :
    edgeAt (pushEdge g v i d) w j =
      if w = v ∧ j = i then some { e with cap := e.cap - d }
      else if w = e.to_ ∧ j = e.rev then
        (edgeAt g e.to_ e.rev).map (fun r => { r with cap := r.cap + d })
      else edgeAt g w j := by
  unfold pushEdge
  rw [he]
  simp only
  rw [edgeAt_addCap]
  by_cases h1 : w = e.to_ ∧ j = e.rev
  · have h2 : ¬ (w = v ∧ j = i) := fun h => hne (h1.1.symm.trans h.1)
    rw [if_pos h1, if_neg h2, if_pos h1, edgeAt_addCap]
    have h3 : ¬ (e.to_ = v ∧ e.rev = i) := fun h => hne h.1
    rw [if_neg h3]
  · rw [if_neg h1, edgeAt_addCap]
    by_cases h2 : w = v ∧ j = i
    · rw [if_pos h2, if_pos h2, he]
      simp [sub_eq_add_neg]
    · rw [if_neg h2, if_neg h2, if_neg h1]

theorem adjOf_pushEdge_of_ne {g : Graph} {v i : Nat} {e : Edge} (d : Int)
    (he : edgeAt g v i = some e) (w : Nat) (h1 : w ≠ v) (h2 : w ≠ e.to_) :
    adjOf (pushEdge g v i d) w = adjOf g w := by
  unfold pushEdge
  rw [he]
  simp only
  rw [adjOf_addCap, if_neg h2, adjOf_addCap, if_neg h1]

theorem outCap_pushEdge {g : Graph} {v i : Nat} {e : Edge} (d : Int)
    (he : edgeAt g v i = some e) (hne : e.to_ ≠ v) (hr : e.rev < (adjOf g e.to_).length)
    (w : Nat) :
    outCap (pushEdge g v i d) w =
      outCap g w - (if w = v then d else 0) + (if w = e.to_ then d else 0) := by
  unfold pushEdge
  rw [he]
  simp only
  rw [outCap_addCap, outCap_addCap, adjOf_addCap, if_neg hne]
  have hi := (edgeAt_lt he).2
  by_cases h1 : w = v
  · have h2 : ¬ w = e.to_ := fun h => hne (h.symm.trans h1)
    subst h1
    rw [if_pos ⟨rfl, hi⟩, if_neg (fun h => h2 h.1), if_pos rfl, if_neg h2]
    ring
  · by_cases h2 : w = e.to_
    · subst h2
      rw [if_neg (fun h => h1 h.1), if_pos ⟨rfl, hr⟩, if_neg h1, if_pos rfl]
      ring
    · rw [if_neg (fun h => h1 h.1), if_neg (fun h => h2 h.1), if_neg h1, if_neg h2]
      ring

/-! ### Along an augmenting path -/

theorem augPath_frame {g : Graph} {level : List Int} {t v : Nat} {d : Int}
    {path : List (Nat × Nat)} (h : AugPath g level t d v path) :
    ∀ w, levelOf level w ≤ levelOf level v → w ≠ v ∨ path = [] →
      adjOf (pushPath g path d) w = adjOf g w := by
  induction h with
  | nil => intro w _ _; rfl
  | @cons v i e rest hvt he hcap hlev _ ih =>
    intro w hw hor
    have hwv : w ≠ v := by
      rcases hor with h1 | h1
      · exact h1
      · simp at h1
    have hev : edgeAt (pushPath g rest d) v i = some e := by
      unfold edgeAt
      rw [ih v (le_of_lt hlev) (Or.inl (fun h => by rw [h] at hlev; exact lt_irrefl _ hlev))]
      exact he
    rw [pushPath_cons, adjOf_pushEdge_of_ne d hev w hwv
      (fun h => by rw [h] at hw; exact absurd hlev (not_lt.mpr hw))]
    exact ih w (le_trans hw (le_of_lt hlev))
      (Or.inl (fun h => by rw [h] at hw; exact absurd hlev (not_lt.mpr hw)))

theorem augPath_edge {g : Graph} {level : List Int} {t v i : Nat} {d : Int} {e : Edge}
    {rest : List (Nat × Nat)} (he : edgeAt g v i = some e)
    (hlev : levelOf level v < levelOf level e.to_)
    (h : AugPath g level t d e.to_ rest) :
    edgeAt (pushPath g rest d) v i = some e := by
  unfold edgeAt
  rw [augPath_frame h v (le_of_lt hlev)
    (Or.inl (fun h => by rw [h] at hlev; exact lt_irrefl _ hlev))]
  exact he

theorem augPath_nonNeg {g : Graph} {level : List Int} {t v : Nat} {d : Int}
    {path : List (Nat × Nat)} (h : AugPath g level t d v path) (hd : 0 ≤ d) (hg : NonNeg g) :
    NonNeg (pushPath g path d) := by
  induction h with
  | nil => exact hg
  | @cons v i e rest hvt he hcap hlev hrest ih =>
    have hev := augPath_edge he hlev hrest
    have hne : e.to_ ≠ v := fun h => by rw [h] at hlev; exact lt_irrefl _ hlev
    intro w j x hx
    rw [pushPath_cons, edgeAt_pushEdge d hev hne] at hx
    split at hx
    · simp only [Option.some.injEq] at hx
      subst hx
      simp only
      linarith
    · split at hx
      · cases hr : edgeAt (pushPath g rest d) e.to_ e.rev with
        | none => rw [hr] at hx; simp at hx
        | some r =>
          rw [hr] at hx
          simp only [Option.map_some', Option.some.injEq] at hx
          subst hx
          have := ih e.to_ e.rev r hr
          simp only
          linarith
      · exact ih w j x hx

theorem augPath_outCap {g : Graph} {level : List Int} {t v : Nat} {d : Int}
    {path : List (Nat × Nat)} (h : AugPath g level t d v path) (hg : InRange g) (w : Nat) :
    outCap (pushPath g path d) w =
      outCap g w - (if w = v then d else 0) + (if w = t then d else 0) := by
  induction h with
  | nil => simp [pushPath]
  | @cons v i e rest hvt he hcap hlev hrest ih =>
    have hev := augPath_edge he hlev hrest
    have hne : e.to_ ≠ v := fun h => by rw [h] at hlev; exact lt_irrefl _ hlev
    obtain ⟨r, hr⟩ := sameShape_inRange (sameShape_pushPath g rest d) hg v i e hev
    rw [pushPath_cons, outCap_pushEdge d hev hne (edgeAt_lt hr).2, ih]
    ring

/-! ## Graphs built by `add_edge` -/

theorem addEdges_graph (mf : MaxFlow) (calls : List Call) :
    (mf.addEdges calls).graph = buildG mf.graph calls := by
  induction calls generalizing mf with
  | nil => rfl
  | cons c cs ih =>
    simp only [MaxFlow.addEdges, buildG, List.foldl_cons]
    exact ih (mf.add_edge c.from_ c.to_ c.cap)

theorem addEdges_fields (mf : MaxFlow) (calls : List Call) :
    (mf.addEdges calls).level = mf.level ∧ (mf.addEdges calls).iter = mf.iter ∧
    (mf.addEdges calls).n = mf.n := by
  induction calls generalizing mf with
  | nil => exact ⟨rfl, rfl, rfl⟩
  | cons c cs ih =>
    simp only [MaxFlow.addEdges, List.foldl_cons]
    exact ih (mf.add_edge c.from_ c.to_ c.cap)

theorem addEdgeG_length (g : Graph) (a b : Nat) (c : Int) :
    (addEdgeG g a b c).length = g.length := by
  simp [addEdgeG]

theorem adjOf_addEdgeG (g : Graph) (a b : Nat) (c : Int) (ha : a < g.length) (hb : b < g.length)
    (w : Nat) :
    adjOf (addEdgeG g a b c) w =
      adjOf g w ++ (if w = a then [{ to_ := b, rev := (adjOf g b).length, cap := c }] else [])
        ++ (if w = b then [{ to_ := a, rev := (adjOf g a).length, cap := 0 }] else []) := by
  unfold addEdgeG
  simp only
  rw [adjOf_set, adjOf_set, adjOf_set, adjOf_set]
  simp only [List.length_set, ha, hb, and_true, if_true]
  by_cases h1 : w = a
  · by_cases h2 : w = b
    · subst h1
      subst h2
      simp
    · subst h1
      have h3 : ¬ b = w := fun h => h2 h.symm
      simp [h2, h3]
  · by_cases h2 : w = b
    · subst h2
      have h3 : ¬ a = w := fun h => h1 h.symm
      simp [h1, h3]
    · simp [h1, h2]

theorem buildG_length (g : Graph) (calls : List Call) : (buildG g calls).length = g.length := by
  induction calls generalizing g with
  | nil => rfl
  | cons c cs ih =>
    simp only [buildG, List.foldl_cons]
    exact (ih _).trans (addEdgeG_length g _ _ _)

theorem buildG_cons (g : Graph) (c : Call) (cs : List Call) :
    buildG g (c :: cs) = buildG (addEdgeG g c.from_ c.to_ c.cap) cs := rfl

theorem buildG_append (g : Graph) (cs1 cs2 : List Call) :
    buildG g (cs1 ++ cs2) = buildG (buildG g cs1) cs2 := by
  simp [buildG, List.foldl_append]

theorem edgeAt_addEdgeG_old {g : Graph} {a b : Nat} (c : Int) (ha : a < g.length)
    (hb : b < g.length) {w j : Nat} (hj : j < (adjOf g w).length) :
    edgeAt (addEdgeG g a b c) w j = edgeAt g w j := by
  unfold edgeAt
  rw [adjOf_addEdgeG g a b c ha hb, List.append_assoc, List.getElem?_append_left hj]

theorem adjOf_addEdgeG_length_le (g : Graph) (a b : Nat) (c : Int) (ha : a < g.length)
    (hb : b < g.length) (w : Nat) :
    (adjOf g w).length ≤ (adjOf (addEdgeG g a b c) w).length := by
  rw [adjOf_addEdgeG g a b c ha hb]
  simp only [List.length_append]
  omega

theorem nonNeg_addEdgeG {g : Graph} {a b : Nat} {c : Int} (ha : a < g.length)
    (hb : b < g.length) (hc : 0 ≤ c) (hg : NonNeg g) : NonNeg (addEdgeG g a b c) := by
  intro w j e he
  have hmem := edgeAt_mem he
  rw [adjOf_addEdgeG g a b c ha hb] at hmem
  simp only [List.mem_append] at hmem
  rcases hmem with (h | h) | h
  · obtain ⟨i, hi⟩ := mem_adjOf h
    exact hg w i e hi
  · split at h
    · simp only [List.mem_singleton] at h
      subst h
      exact hc
    · simp at h
  · split at h
    · simp only [List.mem_singleton] at h
      subst h
      exact le_refl _
    · simp at h

/-- The description of the edge stored at a position after `add_edge`. -/
theorem edgeAt_addEdgeG {g : Graph} {a b : Nat} (c : Int) (ha : a < g.length)
    (hb : b < g.length) (w j : Nat) :
    edgeAt (addEdgeG g a b c) w j =
      if j < (adjOf g w).length then edgeAt g w j
      else if w = a ∧ j = (adjOf g a).length then
        some { to_ := b, rev := (adjOf g b).length, cap := c }
      else if w = b ∧ j = (adjOf g b).length + (if a = b then 1 else 0) then
        some { to_ := a, rev := (adjOf g a).length, cap := 0 }
      else none := by
  by_cases hj : j < (adjOf g w).length
  · rw [if_pos hj, edgeAt_addEdgeG_old c ha hb hj]
  · rw [if_neg hj]
    unfold edgeAt
    rw [adjOf_addEdgeG g a b c ha hb, List.append_assoc,
      List.getElem?_append_right (not_lt.mp hj)]
    have hk : (adjOf g w).length ≤ j := not_lt.mp hj
    obtain ⟨k, hk2⟩ : ∃ k, j = (adjOf g w).length + k := ⟨j - (adjOf g w).length, by omega⟩
    subst hk2
    simp only [Nat.add_sub_cancel_left]
    by_cases h1 : w = a
    · by_cases h2 : w = b
      · subst h1
        subst h2
        rcases k with _ | _ | k
        · simp
        · simp
        · simp
      · subst h1
        have h3 : ¬ b = w := fun h => h2 h.symm
        rcases k with _ | k
        · simp [h2]
        · simp [h2]
    · by_cases h2 : w = b
      · subst h2
        have h3 : ¬ a = w := fun h => h1 h.symm
        rcases k with _ | k
        · simp [h1, h3]
        · simp [h1, h3]
      · simp [h1, h2]

theorem backPtr_addEdgeG {g : Graph} {a b : Nat} (c : Int) (ha : a < g.length)
    (hb : b < g.length) (hg : BackPtr g) : BackPtr (addEdgeG g a b c) := by
  intro w j e he
  rw [edgeAt_addEdgeG c ha hb] at he
  by_cases hj : j < (adjOf g w).length
  · rw [if_pos hj] at he
    obtain ⟨r, hr, hrw⟩ := hg w j e he
    exact ⟨r, by rw [edgeAt_addEdgeG_old c ha hb (edgeAt_lt hr).2]; exact hr, hrw⟩
  · rw [if_neg hj] at he
    by_cases h1 : w = a ∧ j = (adjOf g a).length
    · rw [if_pos h1] at he
      obtain ⟨h1, h2⟩ := h1
      simp only [Option.some.injEq] at he
      subst he
      simp only
      rw [edgeAt_addEdgeG c ha hb, if_neg (lt_irrefl _)]
      by_cases hab : a = b
      · rw [if_pos ⟨hab.symm, by rw [hab]⟩]
        exact ⟨_, rfl, hab.symm.trans h1.symm⟩
      · have hba : ¬ b = a := fun h => hab h.symm
        rw [if_neg (fun h => hba h.1), if_pos ⟨rfl, by simp [hab]⟩]
        exact ⟨_, rfl, h1.symm⟩
    · rw [if_neg h1] at he
      by_cases h3 : w = b ∧ j = (adjOf g b).length + (if a = b then 1 else 0)
      · rw [if_pos h3] at he
        obtain ⟨h3, h4⟩ := h3
        simp only [Option.some.injEq] at he
        subst he
        simp only
        rw [edgeAt_addEdgeG c ha hb, if_neg (lt_irrefl _), if_pos ⟨rfl, rfl⟩]
        exact ⟨_, rfl, h3.symm⟩
      · rw [if_neg h3] at he
        simp at he

theorem outCap_addEdgeG (g : Graph) (a b : Nat) (c : Int) (ha : a < g.length)
    (hb : b < g.length) (w : Nat) :
    outCap (addEdgeG g a b c) w = outCap g w + (if w = a then c else 0) := by
  unfold outCap
  rw [adjOf_addEdgeG g a b c ha hb]
  by_cases h1 : w = a
  · by_cases h2 : w = b
    · rw [if_pos h1, if_pos h2, if_pos h1]; simp
    · rw [if_pos h1, if_neg h2, if_pos h1]; simp
  · by_cases h2 : w = b
    · rw [if_neg h1, if_pos h2, if_neg h1]; simp
    · rw [if_neg h1, if_neg h2, if_neg h1]; simp

theorem wsum_addEdgeG (φ : Nat → Int) (g : Graph) (a b : Nat) (c : Int) (ha : a < g.length)
    (hb : b < g.length) (w : Nat) :
    wsum φ (adjOf (addEdgeG g a b c) w) =
      wsum φ (adjOf g w) + (if w = a then φ b * c else 0) := by
  rw [adjOf_addEdgeG g a b c ha hb, wsum_append, wsum_append]
  by_cases h1 : w = a
  · by_cases h2 : w = b
    · rw [if_pos h1, if_pos h2, if_pos h1]; simp [wsum]
    · rw [if_pos h1, if_neg h2, if_pos h1]; simp [wsum]
  · by_cases h2 : w = b
    · rw [if_neg h1, if_pos h2, if_neg h1]; simp [wsum]
    · rw [if_neg h1, if_neg h2, if_neg h1]; simp [wsum]

theorem validCalls_cons {n : Nat} {c : Call} {cs : List Call} (h : ValidCalls n (c :: cs)) :
    (c.from_ < n ∧ c.to_ < n ∧ 0 ≤ c.cap) ∧ ValidCalls n cs :=
  ⟨h c (List.mem_cons_self _ _), fun x hx => h x (List.mem_cons_of_mem _ hx)⟩

theorem buildG_invariants {n : Nat} (calls : List Call) (hv : ValidCalls n calls) :
    ∀ g : Graph, g.length = n → BackPtr g → NonNeg g →
      BackPtr (buildG g calls) ∧ NonNeg (buildG g calls) := by
  induction calls with
  | nil => intro g _ h1 h2; exact ⟨h1, h2⟩
  | cons c cs ih =>
    intro g hn h1 h2
    obtain ⟨⟨ha, hb, hc⟩, hcs⟩ := validCalls_cons hv
    rw [buildG_cons]
    rw [← hn] at ha hb
    exact ih hcs _ ((addEdgeG_length g _ _ _).trans hn) (backPtr_addEdgeG c.cap ha hb h1)
      (nonNeg_addEdgeG ha hb hc h2)

theorem edgeAt_replicate_nil (n v i : Nat) : edgeAt (List.replicate n []) v i = none := by
  unfold edgeAt adjOf
  rw [List.getElem?_replicate]
  split <;> simp

theorem backPtr_empty (n : Nat) : BackPtr (List.replicate n []) := by
  intro v i e he
  rw [edgeAt_replicate_nil] at he
  simp at he

theorem nonNeg_empty (n : Nat) : NonNeg (List.replicate n []) := by
  intro v i e he
  rw [edgeAt_replicate_nil] at he
  simp at he

theorem build_invariants {n : Nat} {calls : List Call} (hv : ValidCalls n calls) :
    (buildG (List.replicate n []) calls).length = n ∧
      BackPtr (buildG (List.replicate n []) calls) ∧
      NonNeg (buildG (List.replicate n []) calls) := by
  refine ⟨by rw [buildG_length]; simp, ?_⟩
  exact buildG_invariants calls hv _ (by simp) (backPtr_empty n) (nonNeg_empty n)

/-! ## Every call of `dfs` returns -/

theorem cursor_advance (mf : MaxFlow) (v w : Nat) :
    cursor (mf.advance v) w = if w = v ∧ v < mf.iter.length then cursor mf v + 1 else cursor mf w := by
  unfold cursor MaxFlow.advance
  simp only
  rw [List.getElem?_set]
  by_cases h : v = w
  · subst h
    by_cases h2 : v < mf.iter.length
    · simp [h2]
    · simp [h2, List.getElem?_eq_none (not_lt.mp h2)]
  · have h3 : ¬ w = v := fun h4 => h h4.symm
    simp [h, h3]

theorem advance_iter_length (mf : MaxFlow) (v : Nat) :
    (mf.advance v).iter.length = mf.iter.length := by
  simp [MaxFlow.advance]

theorem cursor_le_advance (mf : MaxFlow) (v w : Nat) : cursor mf w ≤ cursor (mf.advance v) w := by
  rw [cursor_advance]
  split
  · next h => rw [h.1]; exact Nat.le_succ _
  · exact le_refl _

theorem dfs_iter : ∀ (fuel : Nat) (mf : MaxFlow) (v t : Nat) (f d : Int) (mf1 : MaxFlow),
    MaxFlow.dfs fuel mf v t f = some (d, mf1) →
    mf1.iter.length = mf.iter.length ∧ ∀ w, cursor mf w ≤ cursor mf1 w := by
  intro fuel
  induction fuel with
  | zero => intro mf v t f d mf1 h; simp [MaxFlow.dfs] at h
  | succ fuel ih =>
    intro mf v t f d mf1 h
    simp only [MaxFlow.dfs] at h
    split at h
    · simp only [Option.some.injEq, Prod.mk.injEq] at h
      obtain ⟨_, h2⟩ := h
      subst h2
      exact ⟨rfl, fun _ => le_refl _⟩
    · split at h
      · simp only [Option.some.injEq, Prod.mk.injEq] at h
        obtain ⟨_, h2⟩ := h
        subst h2
        exact ⟨rfl, fun _ => le_refl _⟩
      · next e he =>
        split at h
        · split at h
          · simp at h
          · next d1 mf2 hrec =>
            obtain ⟨hl, hc⟩ := ih mf e.to_ t _ d1 mf2 hrec
            split at h
            · simp only [Option.some.injEq, Prod.mk.injEq] at h
              obtain ⟨_, h2⟩ := h
              subst h2
              exact ⟨hl, hc⟩
            · obtain ⟨hl2, hc2⟩ := ih (mf2.advance v) v t f d mf1 h
              exact ⟨hl2.trans ((advance_iter_length mf2 v).trans hl),
                fun w => le_trans (hc w) (le_trans (cursor_le_advance mf2 v w) (hc2 w))⟩
        · obtain ⟨hl2, hc2⟩ := ih (mf.advance v) v t f d mf1 h
          exact ⟨hl2.trans (advance_iter_length mf v),
            fun w => le_trans (cursor_le_advance mf v w) (hc2 w)⟩

theorem slack_lt (mf mf2 : MaxFlow) (v : Nat) (hg : mf2.graph = mf.graph)
    (hv : v < mf.graph.length) (hi : cursor mf v < (adjOf mf.graph v).length)
    (hc : ∀ w, cursor mf w ≤ cursor mf2 w) (hlt : cursor mf v < cursor mf2 v) :
    slack mf2 < slack mf := by
  unfold slack
  rw [hg]
  apply Finset.sum_lt_sum
  · intro w _
    have := hc w
    omega
  · exact ⟨v, Finset.mem_range.mpr hv, by omega⟩

theorem dfs_terminates (B : Int) (t : Nat) : ∀ (fuel : Nat) (mf : MaxFlow) (v : Nat) (f : Int),
    InRange mf.graph → mf.iter.length = mf.graph.length → v < mf.graph.length →
    (∀ w, levelOf mf.level w ≤ B) →
    slack mf + (B - levelOf mf.level v).toNat + 1 ≤ fuel →
    ∃ r, MaxFlow.dfs fuel mf v t f = some r := by
  intro fuel
  induction fuel with
  | zero => intro mf v f _ _ _ _ h; omega
  | succ fuel ih =>
    intro mf v f hr hil hv hB hfuel
    simp only [MaxFlow.dfs]
    split
    · exact ⟨_, rfl⟩
    · split
      · exact ⟨_, rfl⟩
      · next e he =>
        have hi : cursor mf v < (adjOf mf.graph v).length := (edgeAt_lt he).2
        have hadv : ∃ r, MaxFlow.dfs fuel (mf.advance v) v t f = some r := by
          apply ih (mf.advance v) v f hr ((advance_iter_length mf v).trans hil) hv hB
          have hlt : slack (mf.advance v) < slack mf := by
            apply slack_lt mf (mf.advance v) v rfl hv hi (cursor_le_advance mf v)
            rw [cursor_advance, if_pos ⟨rfl, by rw [hil]; exact hv⟩]
            exact Nat.lt_succ_self _
          rw [advance_level]
          omega
        split
        · next hc =>
          obtain ⟨r, hr1⟩ := hr v _ e he
          have hto : e.to_ < mf.graph.length := (edgeAt_lt hr1).1
          have hlev : (B - levelOf mf.level e.to_).toNat < (B - levelOf mf.level v).toNat := by
            have h1 := hB e.to_
            have h2 := hc.2
            omega
          obtain ⟨⟨d1, mf1⟩, hrec⟩ := ih mf e.to_ (min f e.cap) hr hil hto hB (by omega)
          rw [hrec]
          simp only
          split
          · exact ⟨_, rfl⟩
          · next hd1 =>
            obtain ⟨hl1, _, hz1, _⟩ := dfs_spec fuel mf e.to_ t _ d1 mf1 hrec
            obtain ⟨hil1, hc1⟩ := dfs_iter fuel mf e.to_ t _ d1 mf1 hrec
            have hg1 := hz1 (not_lt.mp hd1)
            apply ih (mf1.advance v) v f
            · rw [advance_graph, hg1]; exact hr
            · rw [advance_graph, hg1, advance_iter_length, hil1]; exact hil
            · rw [advance_graph, hg1]; exact hv
            · rw [advance_level, hl1]; exact hB
            · have hlt : slack (mf1.advance v) < slack mf := by
                apply slack_lt mf (mf1.advance v) v (by rw [advance_graph, hg1]) hv hi
                  (fun w => le_trans (hc1 w) (cursor_le_advance mf1 v w))
                rw [cursor_advance, if_pos ⟨rfl, by rw [hil1, hil]; exact hv⟩]
                exact Nat.lt_succ_of_le (hc1 v)
              rw [advance_level, hl1]
              omega
        · exact hadv

/-! ## The level labelling computed by `bfs` -/

theorem levelOf_set (level : List Int) (i w : Nat) (x : Int) :
    levelOf (level.set i x) w = if w = i ∧ i < level.length then x else levelOf level w := by
  unfold levelOf
  rw [List.getElem?_set]
  by_cases h : i = w
  · subst h
    by_cases h2 : i < level.length
    · simp [h2]
    · simp [h2, List.getElem?_eq_none (not_lt.mp h2)]
  · have h3 : ¬ w = i := fun h4 => h h4.symm
    simp [h, h3]

theorem levelOf_of_le (level : List Int) (w : Nat) (h : level.length ≤ w) : levelOf level w = -1 := by
  unfold levelOf
  rw [List.getElem?_eq_none h]
  rfl

theorem levelOf_lt_length {level : List Int} {w : Nat} (h : 0 ≤ levelOf level w) :
    w < level.length := by
  by_contra hw
  rw [levelOf_of_le level w (not_lt.mp hw)] at h
  omega

theorem bfsVisit_stable (v : Nat) (level : List Int) (q : List Nat) (e : Edge) (w : Nat)
    (hw : 0 ≤ levelOf level w) : levelOf (bfsVisit v (level, q) e).1 w = levelOf level w := by
  unfold bfsVisit
  split
  · next h =>
    simp only
    rw [levelOf_set]
    split
    · next h2 =>
      rw [h2.1] at hw
      have := h.2
      simp only at this
      omega
    · rfl
  · rfl

theorem bfsVisit_step {g : Graph} {s v : Nat} {level : List Int} {q : List Nat} {e : Edge}
    (hg : InRange g) (hinv : BfsInv g s level (v :: q)) (he : e ∈ adjOf g v) :
    BfsInv g s (bfsVisit v (level, q) e).1 (v :: (bfsVisit v (level, q) e).2) ∧
    (0 < e.cap → 0 ≤ levelOf (bfsVisit v (level, q) e).1 e.to_) := by
  have hv : 0 ≤ levelOf level v := hinv.queued v (List.mem_cons_self _ _)
  obtain ⟨i, hi⟩ := mem_adjOf he
  obtain ⟨r, hr⟩ := hg v i e hi
  have hto : e.to_ < level.length := by rw [hinv.len]; exact (edgeAt_lt hr).1
  have hst := bfsVisit_stable v level q e
  by_cases hc : e.cap > 0 ∧ levelOf level e.to_ < 0
  · have hdef : bfsVisit v (level, q) e = (level.set e.to_ (levelOf level v + 1), q ++ [e.to_]) := by
      unfold bfsVisit
      rw [if_pos hc]
    rw [hdef] at hst ⊢
    simp only at hst ⊢
    have hnew : levelOf (level.set e.to_ (levelOf level v + 1)) e.to_ = levelOf level v + 1 := by
      rw [levelOf_set, if_pos ⟨rfl, hto⟩]
    refine ⟨⟨?_, ?_, ?_, ?_, ?_⟩, fun _ => by rw [hnew]; omega⟩
    · rw [List.length_set]; exact hinv.len
    · rw [hst s (by rw [hinv.src])]; exact hinv.src
    · intro w hw
      by_cases hwe : w = e.to_
      · subst hwe
        right
        exact ⟨v, i, e, hi, rfl, hc.1, by rw [hst v hv]; exact hv, by rw [hnew, hst v hv]⟩
      · have hw2 : levelOf (level.set e.to_ (levelOf level v + 1)) w = levelOf level w := by
          rw [levelOf_set, if_neg (fun h => hwe h.1)]
        rw [hw2] at hw ⊢
        rcases hinv.parent w hw with h1 | ⟨u, j, x, hx, hxw, hxc, hu, hlw⟩
        · exact Or.inl h1
        · exact Or.inr ⟨u, j, x, hx, hxw, hxc, by rw [hst u hu]; exact hu, by rw [hst u hu]; exact hlw⟩
    · intro u hu
      by_cases hue : u = e.to_
      · left
        rw [hue]
        simp
      · have hu2 : levelOf (level.set e.to_ (levelOf level v + 1)) u = levelOf level u := by
          rw [levelOf_set, if_neg (fun h => hue h.1)]
        rw [hu2] at hu
        rcases hinv.closed u hu with h1 | h1
        · left
          rw [← List.cons_append]
          exact List.mem_append_left _ h1
        · right
          intro j x hx hxc
          rw [hst x.to_ (h1 j x hx hxc)]
          exact h1 j x hx hxc
    · intro w hw
      rw [← List.cons_append, List.mem_append] at hw
      rcases hw with h1 | h1
      · rw [hst w (hinv.queued w h1)]
        exact hinv.queued w h1
      · simp only [List.mem_singleton] at h1
        rw [h1, hnew]
        omega
  · have hdef : bfsVisit v (level, q) e = (level, q) := by
      unfold bfsVisit
      rw [if_neg hc]
    rw [hdef]
    refine ⟨hinv, fun hcap => ?_⟩
    by_contra hneg
    exact hc ⟨hcap, not_le.mp hneg⟩

theorem bfs_fold {g : Graph} {s v : Nat} (hg : InRange g) :
    ∀ (es : List Edge) (level : List Int) (q : List Nat),
    (∀ e ∈ es, e ∈ adjOf g v) → BfsInv g s level (v :: q) →
    BfsInv g s (es.foldl (bfsVisit v) (level, q)).1 (v :: (es.foldl (bfsVisit v) (level, q)).2) ∧
    (∀ e ∈ es, 0 < e.cap → 0 ≤ levelOf (es.foldl (bfsVisit v) (level, q)).1 e.to_) ∧
    (∀ w, 0 ≤ levelOf level w → levelOf (es.foldl (bfsVisit v) (level, q)).1 w = levelOf level w) := by
  intro es
  induction es with
  | nil => intro level q _ hinv; exact ⟨hinv, fun e he => by simp at he, fun _ _ => rfl⟩
  | cons e es ih =>
    intro level q hes hinv
    obtain ⟨h1, h2⟩ := bfsVisit_step hg hinv (hes e (List.mem_cons_self _ _))
    obtain ⟨k1, k2, k3⟩ := ih (bfsVisit v (level, q) e).1 (bfsVisit v (level, q) e).2
      (fun x hx => hes x (List.mem_cons_of_mem _ hx)) h1
    simp only [List.foldl_cons]
    refine ⟨k1, ?_, ?_⟩
    · intro x hx hxc
      rcases List.mem_cons.mp hx with h3 | h3
      · subst h3
        rw [k3 x.to_ (h2 hxc)]
        exact h2 hxc
      · exact k2 x h3 hxc
    · intro w hw
      rw [k3 w (by rw [bfsVisit_stable v level q e w hw]; exact hw)]
      exact bfsVisit_stable v level q e w hw

theorem bfsLoop_spec {g : Graph} {s : Nat} (hg : InRange g) :
    ∀ (fuel : Nat) (level : List Int) (q : List Nat) (out : List Int),
    BfsInv g s level q → bfsLoop g fuel level q = some out → BfsInv g s out [] := by
  intro fuel
  induction fuel with
  | zero =>
    intro level q out hinv h
    cases q with
    | nil =>
      simp only [bfsLoop, Option.some.injEq] at h
      subst h
      exact hinv
    | cons v q => simp [bfsLoop] at h
  | succ fuel ih =>
    intro level q out hinv h
    cases q with
    | nil =>
      simp only [bfsLoop, Option.some.injEq] at h
      subst h
      exact hinv
    | cons v q =>
      simp only [bfsLoop] at h
      obtain ⟨k1, k2, k3⟩ := bfs_fold hg (adjOf g v) level q (fun _ h => h) hinv
      refine ih _ _ out ⟨k1.len, k1.src, k1.parent, ?_, ?_⟩ h
      · intro u hu
        rcases k1.closed u hu with h1 | h1
        · rcases List.mem_cons.mp h1 with h2 | h2
          · right
            intro i e he hc
            rw [h2] at he
            exact k2 e (edgeAt_mem he) hc
          · exact Or.inl h2
        · exact Or.inr h1
      · intro w hw
        exact k1.queued w (List.mem_cons_of_mem _ hw)

/-! ### `bfs` returns -/

theorem unlabelled_set (level : List Int) (i : Nat) (x : Int) (hi : i < level.length)
    (hold : levelOf level i < 0) (hx : 0 ≤ x) :
    unlabelled (level.set i x) + 1 = unlabelled level := by
  induction level generalizing i with
  | nil => simp at hi
  | cons a l ih =>
    cases i with
    | zero =>
      simp only [levelOf, List.getElem?_cons_zero, Option.getD_some] at hold
      simp only [unlabelled, List.set_cons_zero, List.countP_cons, decide_eq_true_eq]
      rw [if_neg (not_lt.mpr hx), if_pos hold]
    | succ i =>
      simp only [levelOf, List.getElem?_cons_succ] at hold
      simp only [List.length_cons, Nat.add_lt_add_iff_right] at hi
      have := ih i hi hold
      simp only [unlabelled, List.set_cons_succ, List.countP_cons] at this ⊢
      omega

theorem bfsVisit_measure {g : Graph} {v : Nat} {level : List Int} {q : List Nat} {e : Edge}
    (hg : InRange g) (hlen : level.length = g.length) (he : e ∈ adjOf g v)
    (hv : 0 ≤ levelOf level v) :
    (bfsVisit v (level, q) e).1.length = g.length ∧
    0 ≤ levelOf (bfsVisit v (level, q) e).1 v ∧
    (bfsVisit v (level, q) e).2.length + unlabelled (bfsVisit v (level, q) e).1 =
      q.length + unlabelled level := by
  obtain ⟨i, hi⟩ := mem_adjOf he
  obtain ⟨r, hr⟩ := hg v i e hi
  have hto : e.to_ < level.length := by rw [hlen]; exact (edgeAt_lt hr).1
  refine ⟨?_, by rw [bfsVisit_stable v level q e v hv]; exact hv, ?_⟩
  · unfold bfsVisit
    split
    · simp only [List.length_set]; exact hlen
    · exact hlen
  · unfold bfsVisit
    split
    · next hc =>
      simp only [List.length_append, List.length_singleton]
      have := unlabelled_set level e.to_ (levelOf level v + 1) hto hc.2 (by omega)
      omega
    · rfl

theorem bfs_fold_measure {g : Graph} {v : Nat} (hg : InRange g) :
    ∀ (es : List Edge) (level : List Int) (q : List Nat),
    (∀ e ∈ es, e ∈ adjOf g v) → level.length = g.length → 0 ≤ levelOf level v →
    (es.foldl (bfsVisit v) (level, q)).1.length = g.length ∧
    (es.foldl (bfsVisit v) (level, q)).2.length + unlabelled (es.foldl (bfsVisit v) (level, q)).1 =
      q.length + unlabelled level := by
  intro es
  induction es with
  | nil => intro level q _ hlen _; exact ⟨hlen, rfl⟩
  | cons e es ih =>
    intro level q hes hlen hv
    obtain ⟨h1, h2, h3⟩ := bfsVisit_measure (q := q) hg hlen (hes e (List.mem_cons_self _ _)) hv
    obtain ⟨k1, k2⟩ := ih (bfsVisit v (level, q) e).1 (bfsVisit v (level, q) e).2
      (fun x hx => hes x (List.mem_cons_of_mem _ hx)) h1 h2
    simp only [List.foldl_cons]
    exact ⟨k1, k2.trans h3⟩

theorem bfsInv_pop {g : Graph} {s v : Nat} {level : List Int} {q : List Nat} (hg : InRange g)
    (hinv : BfsInv g s level (v :: q)) :
    BfsInv g s ((adjOf g v).foldl (bfsVisit v) (level, q)).1
      ((adjOf g v).foldl (bfsVisit v) (level, q)).2 := by
  obtain ⟨k1, k2, _⟩ := bfs_fold hg (adjOf g v) level q (fun _ h => h) hinv
  refine ⟨k1.len, k1.src, k1.parent, ?_, ?_⟩
  · intro u hu
    rcases k1.closed u hu with h1 | h1
    · rcases List.mem_cons.mp h1 with h2 | h2
      · right
        intro i e he hc
        rw [h2] at he
        exact k2 e (edgeAt_mem he) hc
      · exact Or.inl h2
    · exact Or.inr h1
  · intro w hw
    exact k1.queued w (List.mem_cons_of_mem _ hw)

theorem bfsLoop_terminates {g : Graph} {s : Nat} (hg : InRange g) :
    ∀ (fuel : Nat) (level : List Int) (q : List Nat),
    BfsInv g s level q →
    q.length + unlabelled level ≤ fuel → ∃ out, bfsLoop g fuel level q = some out := by
  intro fuel
  induction fuel with
  | zero =>
    intro level q _ h
    cases q with
    | nil => exact ⟨level, rfl⟩
    | cons v q => simp at h
  | succ fuel ih =>
    intro level q hinv h
    cases q with
    | nil => exact ⟨level, rfl⟩
    | cons v q =>
      simp only [bfsLoop]
      have hv := hinv.queued v (List.mem_cons_self _ _)
      obtain ⟨_, k2⟩ := bfs_fold_measure hg (adjOf g v) level q (fun _ h => h) hinv.len hv
      apply ih _ _ (bfsInv_pop hg hinv)
      simp only [List.length_cons] at h
      omega

theorem bfsLoop_mono (g : Graph) : ∀ (fuel : Nat) (level : List Int) (q : List Nat) (out : List Int),
    bfsLoop g fuel level q = some out → ∀ k, bfsLoop g (fuel + k) level q = some out := by
  intro fuel
  induction fuel with
  | zero =>
    intro level q out h k
    cases q with
    | nil =>
      simp only [bfsLoop] at h ⊢
      cases k <;> simpa [bfsLoop] using h
    | cons v q => simp [bfsLoop] at h
  | succ fuel ih =>
    intro level q out h k
    cases q with
    | nil =>
      simp only [bfsLoop] at h
      rw [Nat.add_right_comm]
      simpa [bfsLoop] using h
    | cons v q =>
      simp only [bfsLoop] at h
      rw [Nat.add_right_comm]
      simp only [bfsLoop]
      exact ih _ _ out h k

theorem unlabelled_le_length (level : List Int) : unlabelled level ≤ level.length :=
  List.countP_le_length _

theorem bfsInv_init {g : Graph} {s n : Nat} (hn : n = g.length) (hs : s < n) :
    BfsInv g s ((List.replicate n (-1)).set s 0) [s] := by
  have hlev : ∀ w, levelOf ((List.replicate n (-1 : Int)).set s 0) w = if w = s then 0 else -1 := by
    intro w
    rw [levelOf_set]
    simp only [List.length_replicate, hs, and_true]
    split
    · rfl
    · unfold levelOf
      rw [List.getElem?_replicate]
      split <;> rfl
  refine ⟨by simp [hn], by rw [hlev]; simp, ?_, ?_, ?_⟩
  · intro w hw
    rw [hlev] at hw
    left
    by_contra h
    rw [if_neg h] at hw
    omega
  · intro u hu
    rw [hlev] at hu
    left
    by_contra h
    rw [if_neg (by simpa using h)] at hu
    omega
  · intro w hw
    simp only [List.mem_singleton] at hw
    rw [hlev, if_pos hw]

/-- The facts about the labelling that the rest of the development uses. -/
theorem bfs_spec {mf mf1 : MaxFlow} {s fuel : Nat} (hg : InRange mf.graph)
    (hlen : mf.level.length = mf.graph.length) (hs : s < mf.graph.length)
    (h : mf.bfs fuel s = some mf1) :
    mf1.graph = mf.graph ∧ mf1.iter = mf.iter ∧ mf1.n = mf.n ∧ BfsInv mf.graph s mf1.level [] := by
  unfold MaxFlow.bfs at h
  split at h
  · simp at h
  · next out hout =>
    simp only [Option.some.injEq] at h
    subst h
    refine ⟨rfl, rfl, rfl, ?_⟩
    exact bfsLoop_spec hg fuel _ _ out (bfsInv_init hlen (by rw [hlen]; exact hs)) hout

theorem bfs_terminates {mf : MaxFlow} {s : Nat} (hg : InRange mf.graph)
    (hlen : mf.level.length = mf.graph.length) (hs : s < mf.graph.length) :
    ∃ mf1, ∀ fuel, mf.graph.length + 1 ≤ fuel → mf.bfs fuel s = some mf1 := by
  have hinv := bfsInv_init (g := mf.graph) (s := s) hlen (by rw [hlen]; exact hs)
  obtain ⟨out, hout⟩ := bfsLoop_terminates hg (mf.graph.length + 1) _ _ hinv (by
    have := unlabelled_le_length ((List.replicate mf.level.length (-1 : Int)).set s 0)
    simp only [List.length_set, List.length_replicate] at this
    simp only [List.length_singleton]
    omega)
  refine ⟨{ mf with level := out }, fun fuel hf => ?_⟩
  obtain ⟨k, hk⟩ : ∃ k, fuel = mf.graph.length + 1 + k := ⟨fuel - (mf.graph.length + 1), by omega⟩
  unfold MaxFlow.bfs
  rw [hk, bfsLoop_mono _ _ _ _ out hout k]

/-! ## A failed `dfs` proves that the sink is out of reach -/

theorem dfs_iter_frame : ∀ (fuel : Nat) (mf : MaxFlow) (v t : Nat) (f d : Int) (mf1 : MaxFlow),
    MaxFlow.dfs fuel mf v t f = some (d, mf1) →
    ∀ w, levelOf mf.level w < levelOf mf.level v → cursor mf1 w = cursor mf w := by
  intro fuel
  induction fuel with
  | zero => intro mf v t f d mf1 h; simp [MaxFlow.dfs] at h
  | succ fuel ih =>
    intro mf v t f d mf1 h w hw
    have hwv : ¬ w = v := fun h => by rw [h] at hw; exact lt_irrefl _ hw
    simp only [MaxFlow.dfs] at h
    split at h
    · simp only [Option.some.injEq, Prod.mk.injEq] at h
      rw [← h.2]
    · split at h
      · simp only [Option.some.injEq, Prod.mk.injEq] at h
        rw [← h.2]
      · next e he =>
        split at h
        · next hc =>
          split at h
          · simp at h
          · next d1 mf2 hrec =>
            have h2 := ih mf e.to_ t _ d1 mf2 hrec w (lt_trans hw hc.2)
            obtain ⟨hl2, _, _, _⟩ := dfs_spec fuel mf e.to_ t _ d1 mf2 hrec
            split at h
            · simp only [Option.some.injEq, Prod.mk.injEq] at h
              rw [← h.2]
              exact h2
            · have h3 := ih (mf2.advance v) v t f d mf1 h w (by rw [advance_level, hl2]; exact hw)
              rw [h3, cursor_advance, if_neg (fun h => hwv h.1), h2]
        · have h3 := ih (mf.advance v) v t f d mf1 h w (by rw [advance_level]; exact hw)
          rw [h3, cursor_advance, if_neg (fun h => hwv h.1)]

theorem blocked_advance {mf : MaxFlow} {t v : Nat} (hb : Blocked mf t)
    (hv : ∀ e, edgeAt mf.graph v (cursor mf v) = some e → 0 < e.cap →
      levelOf mf.level v < levelOf mf.level e.to_ → ¬ CanReach mf.graph mf.level t e.to_) :
    Blocked (mf.advance v) t := by
  intro w j e hj he hc hl
  rw [advance_graph] at he
  rw [advance_level] at hl
  rw [advance_graph, advance_level]
  rw [cursor_advance] at hj
  split at hj
  · next h =>
    rw [h.1] at he hl
    by_cases hjv : j < cursor mf v
    · exact hb v j e hjv he hc hl
    · have hj2 : j = cursor mf v := by omega
      rw [hj2] at he
      exact hv e he hc hl
  · exact hb w j e hj he hc hl

theorem dfs_blocked : ∀ (fuel : Nat) (mf : MaxFlow) (v t : Nat) (f d : Int) (mf1 : MaxFlow),
    MaxFlow.dfs fuel mf v t f = some (d, mf1) → 0 < f → Blocked mf t → d ≤ 0 →
    Blocked mf1 t ∧ ¬ CanReach mf.graph mf.level t v := by
  intro fuel
  induction fuel with
  | zero => intro mf v t f d mf1 h; simp [MaxFlow.dfs] at h
  | succ fuel ih =>
    intro mf v t f d mf1 h hf hb hd
    simp only [MaxFlow.dfs] at h
    split at h
    · simp only [Option.some.injEq, Prod.mk.injEq] at h
      omega
    · next hvt =>
      split at h
      · next hnone =>
        simp only [Option.some.injEq, Prod.mk.injEq] at h
        rw [← h.2]
        refine ⟨hb, fun hcr => ?_⟩
        cases hcr with
        | here => exact hvt rfl
        | @step _ i e he hc hl hcr1 =>
          have hi : i < cursor mf v := by
            by_contra hlt
            have h1 : cursor mf v < (adjOf mf.graph v).length :=
              lt_of_le_of_lt (not_lt.mp hlt) (edgeAt_lt he).2
            obtain ⟨x, hx⟩ := edgeAt_isSome h1
            unfold cursor at hx
            rw [hx] at hnone
            simp at hnone
          exact hb v i e hi he hc hl hcr1
      · next e he =>
        split at h
        · next hc =>
          split at h
          · simp at h
          · next d1 mf2 hrec =>
            obtain ⟨hl2, _, hz2, _⟩ := dfs_spec fuel mf e.to_ t _ d1 mf2 hrec
            split at h
            · next hd1 =>
              simp only [Option.some.injEq, Prod.mk.injEq] at h
              omega
            · next hd1 =>
              have hg2 := hz2 (not_lt.mp hd1)
              obtain ⟨hb2, hnr⟩ := ih mf e.to_ t _ d1 mf2 hrec (lt_min hf hc.1) hb (not_lt.mp hd1)
              have hcur : cursor mf2 v = cursor mf v :=
                dfs_iter_frame fuel mf e.to_ t _ d1 mf2 hrec v hc.2
              have hb3 : Blocked (mf2.advance v) t := by
                apply blocked_advance hb2
                intro x hx _ _
                rw [hg2, hcur] at hx
                unfold cursor at hx
                rw [he] at hx
                simp only [Option.some.injEq] at hx
                rw [hg2, hl2, ← hx]
                exact hnr
              obtain ⟨hb4, hnr4⟩ := ih (mf2.advance v) v t f d mf1 h hf hb3 hd
              rw [advance_graph, advance_level, hg2, hl2] at hnr4
              exact ⟨hb4, hnr4⟩
        · next hc =>
          have hb3 : Blocked (mf.advance v) t := by
            apply blocked_advance hb
            intro x hx hxc hxl
            unfold cursor at hx
            rw [he] at hx
            simp only [Option.some.injEq] at hx
            rw [← hx] at hxc hxl
            exact absurd ⟨hxc, hxl⟩ hc
          exact ih (mf.advance v) v t f d mf1 h hf hb3 hd

theorem blocked_fresh (mf : MaxFlow) (t : Nat) :
    Blocked { mf with iter := List.replicate mf.iter.length 0 } t := by
  intro w j e hj
  unfold cursor at hj
  simp only [List.getElem?_replicate] at hj
  split at hj <;> simp at hj

theorem bfs_canReach {g : Graph} {s t : Nat} {level : List Int} (hinv : BfsInv g s level []) :
    ∀ (k : Nat) (w : Nat), 0 ≤ levelOf level w → (levelOf level w).toNat = k →
      CanReach g level t w → CanReach g level t s := by
  intro k
  induction k with
  | zero =>
    intro w hw hk hcr
    rcases hinv.parent w hw with h1 | ⟨u, i, e, _, _, _, hu, hlw⟩
    · rw [← h1]; exact hcr
    · omega
  | succ k ih =>
    intro w hw hk hcr
    rcases hinv.parent w hw with h1 | ⟨u, i, e, he, hew, hc, hu, hlw⟩
    · rw [← h1]; exact hcr
    · apply ih u hu (by omega)
      refine CanReach.step he hc ?_ (by rw [hew]; exact hcr)
      rw [hew]
      omega

theorem dfs_mono : ∀ (fuel : Nat) (mf : MaxFlow) (v t : Nat) (f : Int) (r : Int × MaxFlow),
    MaxFlow.dfs fuel mf v t f = some r → ∀ k, MaxFlow.dfs (fuel + k) mf v t f = some r := by
  intro fuel
  induction fuel with
  | zero => intro mf v t f r h; simp [MaxFlow.dfs] at h
  | succ fuel ih =>
    intro mf v t f r h k
    rw [Nat.add_right_comm]
    simp only [MaxFlow.dfs] at h ⊢
    split
    · next hvt => rw [if_pos hvt] at h; exact h
    · next hvt =>
      rw [if_neg hvt] at h
      split
      · next hnone => rw [hnone] at h; exact h
      · next e he =>
        rw [he] at h
        simp only at h
        split
        · next hc =>
          rw [if_pos hc] at h
          cases hrec : MaxFlow.dfs fuel mf e.to_ t (min f e.cap) with
          | none => rw [hrec] at h; simp at h
          | some r1 =>
            rw [hrec] at h
            rw [ih mf e.to_ t _ r1 hrec k]
            simp only at h ⊢
            split
            · next hd => rw [if_pos hd] at h; exact h
            · next hd =>
              rw [if_neg hd] at h
              exact ih _ v t f r h k
        · next hc =>
          rw [if_neg hc] at h
          exact ih _ v t f r h k

/-! ## The graph after a run of `max_flow` -/

theorem flows_sameShape {s t : Nat} {g g1 : Graph} {x : Int} (h : Flows s t g x g1) :
    SameShape g g1 := by
  induction h with
  | refl => exact sameShape_refl _
  | step _ _ _ ih => exact sameShape_trans ih (sameShape_pushPath _ _ _)

theorem flows_nonNeg {s t : Nat} {g g1 : Graph} {x : Int} (h : Flows s t g x g1)
    (hg : NonNeg g) : NonNeg g1 := by
  induction h with
  | refl => exact hg
  | step _ hd hp ih => exact augPath_nonNeg hp (le_of_lt hd) ih

theorem flows_value_nonneg {s t : Nat} {g g1 : Graph} {x : Int} (h : Flows s t g x g1) :
    0 ≤ x := by
  induction h with
  | refl => exact le_refl _
  | step _ hd _ ih => omega

theorem flows_outCap {s t : Nat} {g g1 : Graph} {x : Int} (h : Flows s t g x g1)
    (hg : InRange g) (w : Nat) :
    outCap g1 w = outCap g w - (if w = s then x else 0) + (if w = t then x else 0) := by
  induction h with
  | refl => simp
  | step hf _ hp ih =>
    rw [augPath_outCap hp (sameShape_inRange (flows_sameShape hf) hg) w, ih]
    split <;> split <;> ring

theorem dfs_wf {fuel : Nat} {mf mf1 : MaxFlow} {v t : Nat} {f d : Int} (hwf : mf.WF)
    (h : MaxFlow.dfs fuel mf v t f = some (d, mf1)) : mf1.WF := by
  obtain ⟨hl, _, hz, hp⟩ := dfs_spec fuel mf v t f d mf1 h
  obtain ⟨hil, _⟩ := dfs_iter fuel mf v t f d mf1 h
  by_cases hd : 0 < d
  · obtain ⟨_, path, hpath, hg⟩ := hp hd
    have hsh : SameShape mf.graph mf1.graph := by rw [hg]; exact sameShape_pushPath _ _ _
    refine ⟨by rw [hl, hsh.1]; exact hwf.level_len, by rw [hil, hsh.1]; exact hwf.iter_len,
      sameShape_inRange hsh hwf.inRange, ?_⟩
    rw [hg]
    exact augPath_nonNeg hpath (le_of_lt hd) hwf.nonNeg
  · have hg := hz (not_lt.mp hd)
    exact ⟨by rw [hl, hg]; exact hwf.level_len, by rw [hil, hg]; exact hwf.iter_len,
      by rw [hg]; exact hwf.inRange, by rw [hg]; exact hwf.nonNeg⟩

theorem augment_spec {s t : Nat} : ∀ (fuel : Nat) (mf : MaxFlow) (flow flow1 : Int) (mf1 : MaxFlow),
    MaxFlow.augment fuel mf s t flow = some (flow1, mf1) → mf.WF →
    (mf1.WF ∧ mf1.level = mf.level ∧ mf1.n = mf.n) ∧
    ∀ (g0 : Graph) (x : Int), Flows s t g0 x mf.graph → Flows s t g0 (x + (flow1 - flow)) mf1.graph := by
  intro fuel
  induction fuel with
  | zero => intro mf flow flow1 mf1 h; simp [MaxFlow.augment] at h
  | succ fuel ih =>
    intro mf flow flow1 mf1 h hwf
    simp only [MaxFlow.augment] at h
    split at h
    · simp at h
    · next f mf2 hdfs =>
      obtain ⟨hl, hn, hz, hp⟩ := dfs_spec fuel mf s t INF f mf2 hdfs
      have hwf2 := dfs_wf hwf hdfs
      split at h
      · next hf =>
        obtain ⟨⟨k1, k2, k3⟩, k4⟩ := ih mf2 (flow + f) flow1 mf1 h hwf2
        refine ⟨⟨k1, k2.trans hl, k3.trans hn⟩, fun g0 x hx => ?_⟩
        obtain ⟨_, path, hpath, hg⟩ := hp hf
        have h1 : Flows s t g0 (x + f) mf2.graph := by
          rw [hg]
          exact Flows.step hx hf hpath
        have h2 := k4 g0 (x + f) h1
        have h3 : x + f + (flow1 - (flow + f)) = x + (flow1 - flow) := by ring
        rw [h3] at h2
        exact h2
      · next hf =>
        simp only [Option.some.injEq, Prod.mk.injEq] at h
        obtain ⟨h1, h2⟩ := h
        subst h1 h2
        refine ⟨⟨hwf2, hl, hn⟩, fun g0 x hx => ?_⟩
        rw [hz (not_lt.mp hf)]
        simpa using hx

theorem phases_spec {s t : Nat} : ∀ (fuel : Nat) (mf : MaxFlow) (flow flow1 : Int) (mf1 : MaxFlow),
    MaxFlow.phases fuel mf s t flow = some (flow1, mf1) → mf.WF → s < mf.graph.length →
    (Final s t mf1 ∧ mf1.n = mf.n) ∧
    ∀ (g0 : Graph) (x : Int), Flows s t g0 x mf.graph → Flows s t g0 (x + (flow1 - flow)) mf1.graph := by
  intro fuel
  induction fuel with
  | zero => intro mf flow flow1 mf1 h; simp [MaxFlow.phases] at h
  | succ fuel ih =>
    intro mf flow flow1 mf1 h hwf hs
    simp only [MaxFlow.phases] at h
    split at h
    · simp at h
    · next mf2 hbfs =>
      obtain ⟨hg2, hi2, hn2, hinv⟩ := bfs_spec hwf.inRange hwf.level_len hs hbfs
      have hwf2 : mf2.WF := ⟨by rw [hg2, hinv.len], by rw [hg2, hi2]; exact hwf.iter_len,
        by rw [hg2]; exact hwf.inRange, by rw [hg2]; exact hwf.nonNeg⟩
      split at h
      · next ht =>
        simp only [Option.some.injEq, Prod.mk.injEq] at h
        obtain ⟨h1, h2⟩ := h
        subst h1 h2
        refine ⟨⟨⟨hwf2, by rw [hg2]; exact hinv, ht⟩, hn2⟩, fun g0 x hx => ?_⟩
        rw [hg2]
        simpa using hx
      · split at h
        · simp at h
        · next flow2 mf3 haug =>
          have hwf2r : MaxFlow.WF { mf2 with iter := List.replicate mf2.iter.length 0 } :=
            ⟨hwf2.level_len, by simp [hwf2.iter_len], hwf2.inRange, hwf2.nonNeg⟩
          obtain ⟨⟨k1, _, k3⟩, k4⟩ := augment_spec fuel _ flow flow2 mf3 haug hwf2r
          have hsh : SameShape mf.graph mf3.graph := by
            have := flows_sameShape (k4 mf.graph 0 (by rw [← hg2]; exact Flows.refl _))
            exact this
          obtain ⟨⟨j1, j2⟩, j3⟩ := ih mf3 flow2 flow1 mf1 h k1 (by rw [hsh.1]; exact hs)
          refine ⟨⟨j1, j2.trans (k3.trans hn2)⟩, fun g0 x hx => ?_⟩
          have h1 := k4 g0 x (by rw [← hg2] at hx; exact hx)
          have h2 := j3 g0 _ h1
          have h3 : x + (flow2 - flow) + (flow1 - flow2) = x + (flow1 - flow) := by ring
          rw [h3] at h2
          exact h2

theorem max_flow_spec {s t fuel : Nat} {mf mf1 : MaxFlow} {flow : Int} (hwf : mf.WF)
    (hs : s < mf.graph.length) (h : mf.max_flow fuel s t = some (flow, mf1)) :
    Final s t mf1 ∧ mf1.n = mf.n ∧ Flows s t mf.graph flow mf1.graph := by
  obtain ⟨⟨h1, h2⟩, h3⟩ := phases_spec fuel mf 0 flow mf1 h hwf hs
  refine ⟨h1, h2, ?_⟩
  have := h3 mf.graph 0 (Flows.refl _)
  simpa using this

/-! ## `max_flow` returns -/

theorem levelOf_bounded (level : List Int) : ∃ B : Int, ∀ w, levelOf level w ≤ B := by
  induction level with
  | nil => exact ⟨-1, fun w => by simp [levelOf]⟩
  | cons a l ih =>
    obtain ⟨B, hB⟩ := ih
    refine ⟨max a B, fun w => ?_⟩
    cases w with
    | zero => simp [levelOf]
    | succ w =>
      have := hB w
      simp only [levelOf, List.getElem?_cons_succ] at this ⊢
      exact le_trans this (le_max_right _ _)

theorem outCap_nonneg {g : Graph} (hg : NonNeg g) (w : Nat) : 0 ≤ outCap g w := by
  unfold outCap
  apply List.sum_nonneg
  intro x hx
  obtain ⟨e, he, hex⟩ := List.mem_map.mp hx
  obtain ⟨i, hi⟩ := mem_adjOf he
  rw [← hex]
  exact hg w i e hi

theorem dfs_halts {mf : MaxFlow} (hwf : mf.WF) (v t : Nat) (f : Int) (hv : v < mf.graph.length) :
    ∃ N r, ∀ fuel, N ≤ fuel → MaxFlow.dfs fuel mf v t f = some r := by
  obtain ⟨B, hB⟩ := levelOf_bounded mf.level
  obtain ⟨r, hr⟩ := dfs_terminates B t _ mf v f hwf.inRange hwf.iter_len hv hB (le_refl _)
  refine ⟨slack mf + (B - levelOf mf.level v).toNat + 1, r, fun fuel hf => ?_⟩
  obtain ⟨k, hk⟩ := Nat.exists_eq_add_of_le hf
  rw [hk]
  exact dfs_mono _ mf v t f r hr k

theorem augment_halts {s t : Nat} (hst : s ≠ t) : ∀ (m : Nat) (mf : MaxFlow) (flow : Int),
    mf.WF → s < mf.graph.length → (outCap mf.graph s).toNat ≤ m →
    ∃ N r, ∀ fuel, N ≤ fuel → MaxFlow.augment fuel mf s t flow = some r := by
  intro m
  induction m with
  | zero =>
    intro mf flow hwf hs hm
    obtain ⟨N, ⟨d, mf1⟩, hN⟩ := dfs_halts hwf s t INF hs
    have hdfs := hN N (le_refl _)
    obtain ⟨_, _, _, hp⟩ := dfs_spec N mf s t INF d mf1 hdfs
    have hd : ¬ 0 < d := by
      intro hd
      obtain ⟨_, path, hpath, hg⟩ := hp hd
      have h1 := augPath_outCap hpath hwf.inRange s
      rw [← hg, if_pos rfl, if_neg hst] at h1
      have h2 := outCap_nonneg (dfs_wf hwf hdfs).nonNeg s
      omega
    refine ⟨N + 1, (flow, mf1), fun fuel hf => ?_⟩
    obtain ⟨k, hk⟩ := Nat.exists_eq_add_of_le hf
    rw [hk, Nat.add_right_comm]
    simp only [MaxFlow.augment]
    rw [hN (N + k) (Nat.le_add_right _ _)]
    simp only
    rw [if_neg (by simpa using hd)]
  | succ m ih =>
    intro mf flow hwf hs hm
    obtain ⟨N, ⟨d, mf1⟩, hN⟩ := dfs_halts hwf s t INF hs
    have hdfs := hN N (le_refl _)
    obtain ⟨_, _, _, hp⟩ := dfs_spec N mf s t INF d mf1 hdfs
    have hwf1 := dfs_wf hwf hdfs
    by_cases hd : 0 < d
    · obtain ⟨_, path, hpath, hg⟩ := hp hd
      have h1 := augPath_outCap hpath hwf.inRange s
      rw [← hg, if_pos rfl, if_neg hst] at h1
      have h2 := outCap_nonneg hwf1.nonNeg s
      have hsh : SameShape mf.graph mf1.graph := by rw [hg]; exact sameShape_pushPath _ _ _
      obtain ⟨N2, r2, hN2⟩ := ih mf1 (flow + d) hwf1 (by rw [hsh.1]; exact hs) (by omega)
      refine ⟨max N N2 + 1, r2, fun fuel hf => ?_⟩
      obtain ⟨k, hk⟩ := Nat.exists_eq_add_of_le hf
      rw [hk, Nat.add_right_comm]
      simp only [MaxFlow.augment]
      rw [hN (max N N2 + k) (le_trans (le_max_left _ _) (Nat.le_add_right _ _))]
      simp only
      rw [if_pos (by simpa using hd)]
      exact hN2 _ (le_trans (le_max_right _ _) (Nat.le_add_right _ _))
    · refine ⟨N + 1, (flow, mf1), fun fuel hf => ?_⟩
      obtain ⟨k, hk⟩ := Nat.exists_eq_add_of_le hf
      rw [hk, Nat.add_right_comm]
      simp only [MaxFlow.augment]
      rw [hN (N + k) (Nat.le_add_right _ _)]
      simp only
      rw [if_neg (by simpa using hd)]

theorem INF_pos : 0 < INF := by decide

theorem augment_progress {s t fuel : Nat} {mf mf1 : MaxFlow} {flow flow1 : Int} (hwf : mf.WF)
    (hb : Blocked mf t) (hcr : CanReach mf.graph mf.level t s)
    (h : MaxFlow.augment fuel mf s t flow = some (flow1, mf1)) : flow < flow1 := by
  cases fuel with
  | zero => simp [MaxFlow.augment] at h
  | succ fuel =>
    simp only [MaxFlow.augment] at h
    split at h
    · simp at h
    · next f mf2 hdfs =>
      have hf : 0 < f := by
        by_contra hf
        exact (dfs_blocked fuel mf s t INF f mf2 hdfs INF_pos hb (not_lt.mp hf)).2 hcr
      rw [if_pos (by simpa using hf)] at h
      obtain ⟨_, k4⟩ := augment_spec fuel mf2 (flow + f) flow1 mf1 h (dfs_wf hwf hdfs)
      have := flows_value_nonneg (k4 mf2.graph 0 (Flows.refl _))
      omega

theorem phases_halts {s t : Nat} (hst : s ≠ t) : ∀ (m : Nat) (mf : MaxFlow) (flow : Int),
    mf.WF → s < mf.graph.length → (outCap mf.graph s).toNat ≤ m →
    ∃ N r, ∀ fuel, N ≤ fuel → MaxFlow.phases fuel mf s t flow = some r := by
  intro m
  induction m using Nat.strong_induction_on with
  | _ m ih =>
    intro mf flow hwf hs hm
    obtain ⟨mf1, hbfs⟩ := bfs_terminates hwf.inRange hwf.level_len hs
    have hbfs0 := hbfs _ (le_refl _)
    obtain ⟨hg1, hi1, _, hinv⟩ := bfs_spec hwf.inRange hwf.level_len hs hbfs0
    by_cases ht : levelOf mf1.level t < 0
    · refine ⟨mf.graph.length + 2, (flow, mf1), fun fuel hf => ?_⟩
      obtain ⟨k, hk⟩ : ∃ k, fuel = k + 1 := ⟨fuel - 1, by omega⟩
      rw [hk]
      simp only [MaxFlow.phases]
      rw [hbfs k (by omega)]
      simp only
      rw [if_pos ht]
    · have hwf1r : MaxFlow.WF { mf1 with iter := List.replicate mf1.iter.length 0 } :=
        ⟨by rw [hg1]; exact hinv.len, by simp [hi1, hg1, hwf.iter_len],
          by rw [hg1]; exact hwf.inRange, by rw [hg1]; exact hwf.nonNeg⟩
      obtain ⟨N1, ⟨flow2, mf3⟩, hN1⟩ := augment_halts hst m
        { mf1 with iter := List.replicate mf1.iter.length 0 } flow hwf1r
        (by rw [hg1]; exact hs) (by rw [hg1]; exact hm)
      have haug := hN1 N1 (le_refl _)
      obtain ⟨⟨hwf3, _, _⟩, k4⟩ := augment_spec N1 _ flow flow2 mf3 haug hwf1r
      have hflows := k4 mf.graph 0 (by rw [← hg1]; exact Flows.refl _)
      have hcr : CanReach mf1.graph mf1.level t s := by
        rw [hg1]
        exact bfs_canReach hinv _ t (not_lt.mp ht) rfl CanReach.here
      have hprog := augment_progress hwf1r (blocked_fresh mf1 t) hcr haug
      have hout := flows_outCap hflows hwf.inRange s
      rw [if_pos rfl, if_neg hst] at hout
      have hnn := outCap_nonneg hwf3.nonNeg s
      obtain ⟨N2, r2, hN2⟩ := ih (outCap mf3.graph s).toNat (by omega) mf3 flow2 hwf3
        (by rw [(flows_sameShape hflows).1]; exact hs) (le_refl _)
      refine ⟨max (mf.graph.length + 1) (max N1 N2) + 1, r2, fun fuel hf => ?_⟩
      obtain ⟨k, hk⟩ : ∃ k, fuel = k + 1 := ⟨fuel - 1, by omega⟩
      rw [hk] at hf ⊢
      have hk1 : mf.graph.length + 1 ≤ k := by
        have := le_max_left (mf.graph.length + 1) (max N1 N2)
        omega
      have hk2 : N1 ≤ k := by
        have h1 := le_max_right (mf.graph.length + 1) (max N1 N2)
        have h2 := le_max_left N1 N2
        omega
      have hk3 : N2 ≤ k := by
        have h1 := le_max_right (mf.graph.length + 1) (max N1 N2)
        have h2 := le_max_right N1 N2
        omega
      simp only [MaxFlow.phases]
      rw [hbfs k hk1]
      simp only
      rw [if_neg ht, hN1 k hk2]
      simp only
      exact hN2 k hk3

theorem max_flow_halts {mf : MaxFlow} {s t : Nat} (hwf : mf.WF) (hs : s < mf.graph.length)
    (hst : s ≠ t) : ∃ N r, ∀ fuel, N ≤ fuel → mf.max_flow fuel s t = some r :=
  phases_halts hst _ mf 0 hwf hs (le_refl _)

/-! ## The value of the flow across a set of nodes -/

theorem sum_range_single (n a : Nat) (ha : a < n) (x : Int) (φ : Nat → Int) :
    ∑ w in Finset.range n, φ w * (if w = a then x else 0) = φ a * x := by
  have : ∀ w, φ w * (if w = a then x else 0) = if w = a then φ w * x else 0 := by
    intro w; split <;> simp
  simp only [this]
  rw [Finset.sum_ite_eq']
  simp [ha]

theorem wsum_pushEdge (φ : Nat → Int) {g : Graph} {v i : Nat} {e r : Edge} (d : Int)
    (he : edgeAt g v i = some e) (hne : e.to_ ≠ v) (hr : edgeAt g e.to_ e.rev = some r)
    (w : Nat) :
    wsum φ (adjOf (pushEdge g v i d) w) =
      wsum φ (adjOf g w) - (if w = v then φ e.to_ * d else 0)
        + (if w = e.to_ then φ r.to_ * d else 0) := by
  unfold pushEdge
  rw [he]
  simp only
  rw [adjOf_addCap]
  by_cases h2 : w = e.to_
  · have h1 : ¬ w = v := fun h => hne (h2.symm.trans h)
    rw [if_pos h2, if_neg h1, if_pos h2, adjOf_addCap, if_neg hne]
    unfold edgeAt at hr
    rw [bumpAt_wsum φ _ _ d r hr, h2]
    ring
  · rw [if_neg h2, if_neg h2, adjOf_addCap]
    by_cases h1 : w = v
    · rw [if_pos h1, if_pos h1]
      unfold edgeAt at he
      rw [bumpAt_wsum φ _ _ (-d) e he, h1]
      ring
    · rw [if_neg h1, if_neg h1]
      ring

theorem bil_pushEdge (φ ψ : Nat → Int) {g : Graph} {v i : Nat} {e : Edge} (d : Int)
    (hg : BackPtr g) (he : edgeAt g v i = some e) (hne : e.to_ ≠ v) :
    bil φ ψ (pushEdge g v i d) = bil φ ψ g - φ v * ψ e.to_ * d + φ e.to_ * ψ v * d := by
  obtain ⟨r, hr, hrv⟩ := hg v i e he
  unfold bil
  rw [pushEdge_length]
  simp only [wsum_pushEdge ψ d he hne hr, mul_add, mul_sub, Finset.sum_add_distrib,
    Finset.sum_sub_distrib]
  rw [sum_range_single _ v (edgeAt_lt he).1, sum_range_single _ e.to_ (edgeAt_lt hr).1, hrv]
  ring

theorem bil_symm_pushEdge (φ ψ : Nat → Int) {g : Graph} {v i : Nat} {e : Edge} (d : Int)
    (hg : BackPtr g) (he : edgeAt g v i = some e) (hne : e.to_ ≠ v) :
    bil φ ψ (pushEdge g v i d) + bil ψ φ (pushEdge g v i d) = bil φ ψ g + bil ψ φ g := by
  rw [bil_pushEdge φ ψ d hg he hne, bil_pushEdge ψ φ d hg he hne]
  ring

theorem augPath_bil (φ ψ : Nat → Int) {g : Graph} {level : List Int} {t v : Nat} {d : Int}
    {path : List (Nat × Nat)} (h : AugPath g level t d v path) (hg : BackPtr g) :
    bil φ ψ (pushPath g path d) + bil ψ φ (pushPath g path d) = bil φ ψ g + bil ψ φ g := by
  induction h with
  | nil => rfl
  | @cons v i e rest hvt he hcap hlev hrest ih =>
    have hev := augPath_edge he hlev hrest
    have hne : e.to_ ≠ v := fun h => by rw [h] at hlev; exact lt_irrefl _ hlev
    rw [pushPath_cons,
      bil_symm_pushEdge φ ψ d (sameShape_backPtr (sameShape_pushPath g rest d) hg) hev hne, ih]

theorem flows_bil {s t : Nat} {g g1 : Graph} {x : Int} (h : Flows s t g x g1)
    (hg : BackPtr g) (φ ψ : Nat → Int) :
    bil φ ψ g1 + bil ψ φ g1 = bil φ ψ g + bil ψ φ g := by
  induction h with
  | refl => rfl
  | step hf _ hp ih => rw [augPath_bil φ ψ hp (sameShape_backPtr (flows_sameShape hf) hg), ih]

theorem flows_storedCap {s t : Nat} {g g1 : Graph} {x : Int} (h : Flows s t g x g1)
    (hg : InRange g) (hs : s < g.length) (ht : t < g.length) (φ : Nat → Int) :
    storedCap φ g1 = storedCap φ g - φ s * x + φ t * x := by
  unfold storedCap
  rw [(flows_sameShape h).1]
  simp only [flows_outCap h hg, mul_add, mul_sub, Finset.sum_add_distrib, Finset.sum_sub_distrib]
  rw [sum_range_single _ s hs, sum_range_single _ t ht]

theorem callSum_cons (ψ : Call → Int) (c : Call) (cs : List Call) :
    callSum ψ (c :: cs) = ψ c * c.cap + callSum ψ cs := by
  simp [callSum]

theorem storedCap_buildG (φ : Nat → Int) {n : Nat} (calls : List Call) (hv : ValidCalls n calls) :
    ∀ g : Graph, g.length = n →
      storedCap φ (buildG g calls) = storedCap φ g + callSum (fun c => φ c.from_) calls := by
  induction calls with
  | nil => intro g _; simp [buildG, callSum]
  | cons c cs ih =>
    intro g hn
    obtain ⟨⟨ha, hb, _⟩, hcs⟩ := validCalls_cons hv
    rw [← hn] at ha hb
    rw [buildG_cons, ih hcs _ ((addEdgeG_length g _ _ _).trans hn), callSum_cons]
    unfold storedCap
    rw [addEdgeG_length]
    simp only [outCap_addEdgeG g _ _ _ ha hb, mul_add, Finset.sum_add_distrib]
    rw [sum_range_single _ c.from_ ha]
    ring

theorem bil_buildG (φ ψ : Nat → Int) {n : Nat} (calls : List Call) (hv : ValidCalls n calls) :
    ∀ g : Graph, g.length = n →
      bil φ ψ (buildG g calls) = bil φ ψ g + callSum (fun c => φ c.from_ * ψ c.to_) calls := by
  induction calls with
  | nil => intro g _; simp [buildG, callSum]
  | cons c cs ih =>
    intro g hn
    obtain ⟨⟨ha, hb, _⟩, hcs⟩ := validCalls_cons hv
    rw [← hn] at ha hb
    rw [buildG_cons, ih hcs _ ((addEdgeG_length g _ _ _).trans hn), callSum_cons]
    unfold bil
    rw [addEdgeG_length]
    simp only [wsum_addEdgeG ψ g _ _ _ ha hb, mul_add, Finset.sum_add_distrib]
    rw [sum_range_single _ c.from_ ha]
    ring

theorem storedCap_empty (φ : Nat → Int) (n : Nat) : storedCap φ (List.replicate n []) = 0 := by
  unfold storedCap
  apply Finset.sum_eq_zero
  intro w _
  have : adjOf (List.replicate n ([] : List Edge)) w = [] := by
    unfold adjOf
    rw [List.getElem?_replicate]
    split <;> rfl
  simp [outCap, this]

theorem bil_empty (φ ψ : Nat → Int) (n : Nat) : bil φ ψ (List.replicate n []) = 0 := by
  unfold bil
  apply Finset.sum_eq_zero
  intro w _
  have : adjOf (List.replicate n ([] : List Edge)) w = [] := by
    unfold adjOf
    rw [List.getElem?_replicate]
    split <;> rfl
  simp [wsum, this]

theorem bil_built (φ ψ : Nat → Int) {n : Nat} {calls : List Call} (hv : ValidCalls n calls) :
    bil φ ψ (buildG (List.replicate n []) calls) = callSum (fun c => φ c.from_ * ψ c.to_) calls := by
  rw [bil_buildG φ ψ calls hv _ (by simp), bil_empty]
  ring

theorem wsum_one (l : List Edge) : wsum (fun _ => 1) l = (l.map Edge.cap).sum := by
  simp [wsum]

theorem storedCap_eq_bil (φ : Nat → Int) (g : Graph) : storedCap φ g = bil φ (fun _ => 1) g := by
  unfold storedCap bil outCap
  simp only [wsum_one]

/-- The flow pushed from `s` to `t`, counted across an arbitrary set of
nodes given by its indicator `φ`. -/
theorem flow_across {n s t : Nat} {calls : List Call} {g1 : Graph} {x : Int}
    (hv : ValidCalls n calls) (hs : s < n) (ht : t < n)
    (h : Flows s t (buildG (List.replicate n []) calls) x g1) (φ : Nat → Int) :
    φ s * x - φ t * x =
      callSum (fun c => φ c.from_) calls - storedCap φ g1 := by
  obtain ⟨hlen, hbp, _⟩ := build_invariants hv
  have h1 := flows_storedCap h (backPtr_inRange hbp) (by rw [hlen]; exact hs) (by rw [hlen]; exact ht) φ
  rw [storedCap_buildG φ calls hv _ (by simp), storedCap_empty] at h1
  rw [h1]
  ring

/-! ## The returned value is the capacity of a cut -/

theorem cutCap_eq (X : Nat → Bool) (calls : List Call) :
    cutCap X calls =
      callSum (fun c => ind X c.from_) calls - callSum (fun c => ind X c.from_ * ind X c.to_) calls := by
  induction calls with
  | nil => simp [cutCap, callSum]
  | cons c cs ih =>
    rw [callSum_cons, callSum_cons]
    unfold cutCap at ih ⊢
    rw [List.filter_cons]
    cases h1 : X c.from_ <;> cases h2 : X c.to_ <;> simp [ind, h1, h2, ih] <;> ring

theorem wsum_le_sum (X : Nat → Bool) (l : List Edge) (h : ∀ e ∈ l, 0 ≤ e.cap) :
    wsum (ind X) l ≤ (l.map Edge.cap).sum := by
  induction l with
  | nil => simp [wsum]
  | cons e l ih =>
    rw [wsum_cons, List.map_cons, List.sum_cons]
    have h1 := h e (List.mem_cons_self _ _)
    have h2 := ih (fun x hx => h x (List.mem_cons_of_mem _ hx))
    have h3 : ind X e.to_ * e.cap ≤ e.cap := by
      unfold ind
      split <;> simp [h1]
    omega

theorem wsum_eq_sum (X : Nat → Bool) (l : List Edge) (h : ∀ e ∈ l, X e.to_ = false → e.cap = 0) :
    wsum (ind X) l = (l.map Edge.cap).sum := by
  induction l with
  | nil => simp [wsum]
  | cons e l ih =>
    rw [wsum_cons, List.map_cons, List.sum_cons, ih (fun x hx => h x (List.mem_cons_of_mem _ hx))]
    have h1 := h e (List.mem_cons_self _ _)
    have h3 : ind X e.to_ * e.cap = e.cap := by
      unfold ind
      cases hx : X e.to_
      · simp [h1 hx]
      · simp
    rw [h3]

theorem insideCap_le_storedCap (X : Nat → Bool) {g : Graph} (hg : NonNeg g) :
    bil (ind X) (ind X) g ≤ storedCap (ind X) g := by
  unfold bil storedCap
  apply Finset.sum_le_sum
  intro w _
  have h1 : wsum (ind X) (adjOf g w) ≤ outCap g w :=
    wsum_le_sum X _ (fun e he => by
      obtain ⟨i, hi⟩ := mem_adjOf he
      exact hg w i e hi)
  have h2 : 0 ≤ ind X w := by unfold ind; split <;> simp
  exact mul_le_mul_of_nonneg_left h1 h2

theorem insideCap_eq_storedCap (X : Nat → Bool) {g : Graph}
    (hc : ∀ v i e, edgeAt g v i = some e → X v = true → X e.to_ = false → e.cap = 0) :
    bil (ind X) (ind X) g = storedCap (ind X) g := by
  unfold bil storedCap
  apply Finset.sum_congr rfl
  intro w _
  cases hw : X w
  · simp [ind, hw]
  · have h1 : wsum (ind X) (adjOf g w) = outCap g w :=
      wsum_eq_sum X _ (fun e he hx => by
        obtain ⟨i, hi⟩ := mem_adjOf he
        exact hc w i e hi hw hx)
    rw [h1]

theorem flows_cut_formula {n s t : Nat} {calls : List Call} {g1 : Graph} {x : Int}
    (hv : ValidCalls n calls) (hs : s < n) (ht : t < n)
    (h : Flows s t (buildG (List.replicate n []) calls) x g1) (X : Nat → Bool)
    (hXs : X s = true) (hXt : X t = false) :
    x = cutCap X calls - (storedCap (ind X) g1 - bil (ind X) (ind X) g1) := by
  obtain ⟨_, hbp, _⟩ := build_invariants hv
  have h1 := flow_across hv hs ht h (ind X)
  have h2 := flows_bil h hbp (ind X) (ind X)
  rw [bil_built (ind X) (ind X) hv] at h2
  have h2b : bil (ind X) (ind X) g1 = callSum (fun c => ind X c.from_ * ind X c.to_) calls := by
    omega
  rw [cutCap_eq, h2b]
  simp only [ind, hXs, hXt] at h1
  simp only [ind]
  simp only [if_true, one_mul, Bool.false_eq_true, if_false, zero_mul, sub_zero] at h1
  rw [h1]
  ring

theorem flows_le_cut {n s t : Nat} {calls : List Call} {g1 : Graph} {x : Int}
    (hv : ValidCalls n calls) (hs : s < n) (ht : t < n)
    (h : Flows s t (buildG (List.replicate n []) calls) x g1) (X : Nat → Bool)
    (hXs : X s = true) (hXt : X t = false) : x ≤ cutCap X calls := by
  obtain ⟨_, _, hnn⟩ := build_invariants hv
  have h1 := flows_cut_formula hv hs ht h X hXs hXt
  have h2 := insideCap_le_storedCap X (flows_nonNeg h hnn)
  omega

theorem flows_eq_cut {n s t : Nat} {calls : List Call} {g1 : Graph} {x : Int}
    (hv : ValidCalls n calls) (hs : s < n) (ht : t < n)
    (h : Flows s t (buildG (List.replicate n []) calls) x g1) (X : Nat → Bool)
    (hXs : X s = true) (hXt : X t = false)
    (hc : ∀ v i e, edgeAt g1 v i = some e → X v = true → X e.to_ = false → e.cap = 0) :
    x = cutCap X calls := by
  have h1 := flows_cut_formula hv hs ht h X hXs hXt
  have h2 := insideCap_eq_storedCap X hc
  omega

theorem built_graph (n : Nat) (calls : List Call) :
    (MaxFlow.built n calls).graph = buildG (List.replicate n []) calls := by
  unfold MaxFlow.built
  rw [addEdges_graph]
  rfl

theorem built_wf {n : Nat} {calls : List Call} (hv : ValidCalls n calls) :
    (MaxFlow.built n calls).WF ∧ (MaxFlow.built n calls).graph.length = n := by
  obtain ⟨hlen, hbp, hnn⟩ := build_invariants hv
  obtain ⟨h1, h2, _⟩ := addEdges_fields (MaxFlow.new n) calls
  have hg := built_graph n calls
  unfold MaxFlow.built at hg ⊢
  refine ⟨⟨?_, ?_, ?_, ?_⟩, by rw [hg]; exact hlen⟩
  · rw [h1, hg, hlen]; simp [MaxFlow.new]
  · rw [h2, hg, hlen]; simp [MaxFlow.new]
  · rw [hg]; exact backPtr_inRange hbp
  · rw [hg]; exact hnn

theorem final_cut {s t : Nat} {mf : MaxFlow} (h : Final s t mf) :
    labelled mf.level s = true ∧ labelled mf.level t = false ∧
    ∀ v i e, edgeAt mf.graph v i = some e → labelled mf.level v = true →
      labelled mf.level e.to_ = false → e.cap = 0 := by
  obtain ⟨hwf, hinv, ht⟩ := h
  refine ⟨by simp [labelled, hinv.src], by simpa [labelled] using ht, ?_⟩
  intro v i e he hv hto
  simp only [labelled, decide_eq_true_eq, decide_eq_false_iff_not, not_le] at hv hto
  rcases hinv.closed v hv with h1 | h1
  · simp at h1
  · have h2 := hwf.nonNeg v i e he
    by_contra hne
    have h3 : 0 < e.cap := lt_of_le_of_ne h2 (fun h => hne h.symm)
    have := h1 i e he h3
    omega

/-! ## The states that a run of `max_flow` passes through -/

theorem bfs_graph {mf mf1 : MaxFlow} {fuel s : Nat} (h : mf.bfs fuel s = some mf1) :
    mf1.graph = mf.graph := by
  unfold MaxFlow.bfs at h
  split at h
  · simp at h
  · simp only [Option.some.injEq] at h
    rw [← h]

theorem reached_graph {mf0 mf : MaxFlow} {s t : Nat} (P : Graph → Prop) (h0 : P mf0.graph)
    (hstep : ∀ (g : Graph) (level : List Int) (t : Nat) (d : Int) (v : Nat) (path : List (Nat × Nat)),
      P g → 0 < d → AugPath g level t d v path → P (pushPath g path d))
    (h : Reached mf0 s t mf) : P mf.graph := by
  induction h with
  | init => exact h0
  | bfs _ hb ih => rw [bfs_graph hb]; exact ih
  | reset _ ih => exact ih
  | @dfs mf mf1 fuel v f d _ hd ih =>
    obtain ⟨_, _, hz, hp⟩ := dfs_spec fuel mf v t f d mf1 hd
    by_cases hpos : 0 < d
    · obtain ⟨_, path, hpath, hg⟩ := hp hpos
      rw [hg]
      exact hstep _ _ _ _ _ _ ih hpos hpath
    · rw [hz (not_lt.mp hpos)]
      exact ih

theorem augment_reached {mf0 : MaxFlow} {s t : Nat} :
    ∀ (fuel : Nat) (mf : MaxFlow) (flow : Int) (r : Int × MaxFlow),
    Reached mf0 s t mf → MaxFlow.augment fuel mf s t flow = some r → Reached mf0 s t r.2 := by
  intro fuel
  induction fuel with
  | zero => intro mf flow r _ h; simp [MaxFlow.augment] at h
  | succ fuel ih =>
    intro mf flow r hr h
    simp only [MaxFlow.augment] at h
    split at h
    · simp at h
    · next f mf2 hdfs =>
      have h2 : Reached mf0 s t mf2 := Reached.dfs hr hdfs
      split at h
      · exact ih mf2 _ r h2 h
      · simp only [Option.some.injEq] at h
        rw [← h]
        exact h2

theorem phases_reached {mf0 : MaxFlow} {s t : Nat} :
    ∀ (fuel : Nat) (mf : MaxFlow) (flow : Int) (r : Int × MaxFlow),
    Reached mf0 s t mf → MaxFlow.phases fuel mf s t flow = some r → Reached mf0 s t r.2 := by
  intro fuel
  induction fuel with
  | zero => intro mf flow r _ h; simp [MaxFlow.phases] at h
  | succ fuel ih =>
    intro mf flow r hr h
    simp only [MaxFlow.phases] at h
    split at h
    · simp at h
    · next mf2 hbfs =>
      have h2 : Reached mf0 s t mf2 := Reached.bfs hr hbfs
      split at h
      · simp only [Option.some.injEq] at h
        rw [← h]
        exact h2
      · split at h
        · simp at h
        · next flow2 mf3 haug =>
          exact ih mf3 flow2 r (augment_reached fuel _ flow (flow2, mf3) (Reached.reset h2) haug) h

theorem max_flow_reached {mf0 mf1 : MaxFlow} {s t fuel : Nat} {flow : Int}
    (h : mf0.max_flow fuel s t = some (flow, mf1)) : Reached mf0 s t mf1 :=
  phases_reached fuel mf0 0 (flow, mf1) Reached.init h

theorem reached_nonNeg {mf0 mf : MaxFlow} {s t : Nat} (h0 : NonNeg mf0.graph)
    (h : Reached mf0 s t mf) : NonNeg mf.graph :=
  reached_graph NonNeg h0 (fun _ _ _ _ _ _ hg hd hp => augPath_nonNeg hp (le_of_lt hd) hg) h

theorem reached_sameShape {mf0 mf : MaxFlow} {s t : Nat} (h : Reached mf0 s t mf) :
    SameShape mf0.graph mf.graph :=
  reached_graph (SameShape mf0.graph) (sameShape_refl _)
    (fun _ _ _ _ _ _ hg _ _ => sameShape_trans hg (sameShape_pushPath _ _ _)) h

/-! ## The two edges of one `add_edge` call -/

theorem sameShape_paired {g g1 : Graph} (h : SameShape g g1) (hp : Paired g) : Paired g1 := by
  intro v i e1 he1 hne
  obtain ⟨e, he, hto, hrev⟩ := sameShape_edge (sameShape_symm h) he1
  obtain ⟨r, hr1, hrv, hri⟩ := hp v i e he (by rw [hto]; exact hne)
  obtain ⟨r1, hr2, hto1, hrev1⟩ := sameShape_edge h hr1
  exact ⟨r1, by rw [← hto, ← hrev]; exact hr2, hto1.trans hrv, hrev1.trans hri⟩

theorem slot_fwd {g : Graph} {a b : Nat} (c : Int) (ha : a < g.length) (hb : b < g.length) :
    edgeAt (addEdgeG g a b c) a (adjOf g a).length =
      some { to_ := b, rev := (adjOf g b).length, cap := c } := by
  rw [edgeAt_addEdgeG c ha hb, if_neg (lt_irrefl _), if_pos ⟨rfl, rfl⟩]

theorem slot_rev {g : Graph} {a b : Nat} (c : Int) (ha : a < g.length) (hb : b < g.length) :
    edgeAt (addEdgeG g a b c) b ((adjOf g b).length + (if a = b then 1 else 0)) =
      some { to_ := a, rev := (adjOf g a).length, cap := 0 } := by
  rw [edgeAt_addEdgeG c ha hb]
  by_cases hab : a = b
  · subst hab
    rw [if_neg (by simp), if_neg (by simp), if_pos ⟨rfl, rfl⟩]
  · have hba : ¬ b = a := fun h => hab h.symm
    rw [if_neg (by simp [hab]), if_neg (fun h => hba h.1), if_pos ⟨rfl, rfl⟩]

theorem paired_addEdgeG {g : Graph} {a b : Nat} (c : Int) (ha : a < g.length)
    (hb : b < g.length) (hg : Paired g) : Paired (addEdgeG g a b c) := by
  intro w j e he hne
  have he0 := he
  rw [edgeAt_addEdgeG c ha hb] at he
  by_cases hj : j < (adjOf g w).length
  · rw [if_pos hj] at he
    obtain ⟨r, hr, hrw, hri⟩ := hg w j e he hne
    exact ⟨r, by rw [edgeAt_addEdgeG_old c ha hb (edgeAt_lt hr).2]; exact hr, hrw, hri⟩
  · rw [if_neg hj] at he
    by_cases h1 : w = a ∧ j = (adjOf g a).length
    · rw [if_pos h1] at he
      obtain ⟨h1, h2⟩ := h1
      simp only [Option.some.injEq] at he
      subst he
      simp only at hne ⊢
      have hab : ¬ a = b := fun h => hne (h.symm.trans h1.symm)
      have h3 := slot_rev c ha hb
      rw [if_neg hab, Nat.add_zero] at h3
      exact ⟨_, h3, h1.symm, h2.symm⟩
    · rw [if_neg h1] at he
      by_cases h3 : w = b ∧ j = (adjOf g b).length + (if a = b then 1 else 0)
      · rw [if_pos h3] at he
        obtain ⟨h3, h4⟩ := h3
        simp only [Option.some.injEq] at he
        subst he
        simp only at hne ⊢
        have hab : ¬ a = b := fun h => hne (h.trans h3.symm)
        rw [if_neg hab, Nat.add_zero] at h4
        exact ⟨_, slot_fwd c ha hb, h3.symm, h4.symm⟩
      · rw [if_neg h3] at he
        simp at he

theorem paired_buildG {n : Nat} (calls : List Call) (hv : ValidCalls n calls) :
    ∀ g : Graph, g.length = n → Paired g → Paired (buildG g calls) := by
  induction calls with
  | nil => intro g _ h; exact h
  | cons c cs ih =>
    intro g hn h
    obtain ⟨⟨ha, hb, _⟩, hcs⟩ := validCalls_cons hv
    rw [← hn] at ha hb
    rw [buildG_cons]
    exact ih hcs _ ((addEdgeG_length g _ _ _).trans hn) (paired_addEdgeG c.cap ha hb h)

theorem paired_empty (n : Nat) : Paired (List.replicate n []) := by
  intro v i e he
  rw [edgeAt_replicate_nil] at he
  simp at he

theorem edgeAt_buildG_old {n : Nat} (calls : List Call) (hv : ValidCalls n calls) :
    ∀ (g : Graph) (w j : Nat), g.length = n → j < (adjOf g w).length →
      edgeAt (buildG g calls) w j = edgeAt g w j := by
  induction calls with
  | nil => intro g w j _ _; rfl
  | cons c cs ih =>
    intro g w j hn hj
    obtain ⟨⟨ha, hb, _⟩, hcs⟩ := validCalls_cons hv
    rw [← hn] at ha hb
    rw [buildG_cons, ih hcs _ w j ((addEdgeG_length g _ _ _).trans hn)
      (lt_of_lt_of_le hj (adjOf_addEdgeG_length_le g _ _ _ ha hb w)),
      edgeAt_addEdgeG_old c.cap ha hb hj]

theorem sameShape_slot {g g1 gp : Graph} {c : Call} (h : SameShape g g1) (hs : Slot g gp c) :
    Slot g1 gp c := by
  obtain ⟨⟨F, hF, h1, h2⟩, ⟨R, hR, h3, h4⟩⟩ := hs
  obtain ⟨F1, hF1, k1, k2⟩ := sameShape_edge h hF
  obtain ⟨R1, hR1, k3, k4⟩ := sameShape_edge h hR
  exact ⟨⟨F1, hF1, k1.trans h1, k2.trans h2⟩, ⟨R1, hR1, k3.trans h3, k4.trans h4⟩⟩

theorem slot_built {n : Nat} {pre post : List Call} {c : Call}
    (hv : ValidCalls n (pre ++ c :: post)) :
    Slot (buildG (List.replicate n []) (pre ++ c :: post)) (buildG (List.replicate n []) pre) c ∧
    capAt (buildG (List.replicate n []) (pre ++ c :: post)) c.from_
        (fwdPos (buildG (List.replicate n []) pre) c) +
      capAt (buildG (List.replicate n []) (pre ++ c :: post)) c.to_
        (revPos (buildG (List.replicate n []) pre) c) = c.cap := by
  have hvpre : ValidCalls n pre := fun x hx => hv x (List.mem_append_left _ hx)
  have hvc : ValidCalls n (c :: post) := fun x hx => hv x (List.mem_append_right _ hx)
  obtain ⟨⟨ha, hb, _⟩, hvpost⟩ := validCalls_cons hvc
  have hlen : (buildG (List.replicate n []) pre).length = n := by rw [buildG_length]; simp
  rw [← hlen] at ha hb
  have hF := slot_fwd c.cap ha hb
  have hR := slot_rev c.cap ha hb
  have hlen2 := (addEdgeG_length (buildG (List.replicate n []) pre) c.from_ c.to_ c.cap).trans hlen
  have hF2 := edgeAt_buildG_old post hvpost _ _ _ hlen2 (edgeAt_lt hF).2
  have hR2 := edgeAt_buildG_old post hvpost _ _ _ hlen2 (edgeAt_lt hR).2
  rw [hF] at hF2
  rw [hR] at hR2
  rw [buildG_append, buildG_cons]
  refine ⟨⟨⟨_, hF2, rfl, rfl⟩, ⟨_, hR2, rfl, rfl⟩⟩, ?_⟩
  unfold capAt fwdPos revPos
  rw [hF2, hR2]
  simp

theorem capAt_pushEdge {g : Graph} {v i : Nat} {e r : Edge} (d : Int)
    (he : edgeAt g v i = some e) (hne : e.to_ ≠ v) (hr : edgeAt g e.to_ e.rev = some r)
    (w j : Nat) :
    capAt (pushEdge g v i d) w j =
      capAt g w j - (if w = v ∧ j = i then d else 0)
        + (if w = e.to_ ∧ j = e.rev then d else 0) := by
  unfold capAt
  rw [edgeAt_pushEdge d he hne]
  by_cases h1 : w = v ∧ j = i
  · have h2 : ¬ (w = e.to_ ∧ j = e.rev) := fun h => hne (h.1.symm.trans h1.1)
    rw [if_pos h1, if_pos h1, if_neg h2, h1.1, h1.2, he]
    simp
  · rw [if_neg h1, if_neg h1]
    by_cases h2 : w = e.to_ ∧ j = e.rev
    · rw [if_pos h2, if_pos h2, h2.1, h2.2, hr]
      simp
    · rw [if_neg h2, if_neg h2]
      simp

theorem pairSum_pushEdge {g gp : Graph} {c : Call} {v i : Nat} {e : Edge} (d : Int)
    (hp : Paired g) (hs : Slot g gp c) (he : edgeAt g v i = some e) (hne : e.to_ ≠ v) :
    capAt (pushEdge g v i d) c.from_ (fwdPos gp c) + capAt (pushEdge g v i d) c.to_ (revPos gp c) =
      capAt g c.from_ (fwdPos gp c) + capAt g c.to_ (revPos gp c) := by
  obtain ⟨r, hr, hrv, hri⟩ := hp v i e he hne
  obtain ⟨⟨F, hF, hFt, hFr⟩, ⟨R, hR, hRt, hRr⟩⟩ := hs
  rw [capAt_pushEdge d he hne hr, capAt_pushEdge d he hne hr]
  have hrev : c.from_ ≠ c.to_ → revPos gp c = (adjOf gp c.to_).length := by
    intro h
    unfold revPos
    rw [if_neg h, Nat.add_zero]
  have k1 : (c.from_ = v ∧ fwdPos gp c = i) ↔ (c.to_ = e.to_ ∧ revPos gp c = e.rev) := by
    constructor
    · rintro ⟨h1, h2⟩
      rw [h1, h2, he] at hF
      simp only [Option.some.injEq] at hF
      subst hF
      have hft : c.from_ ≠ c.to_ := by rw [h1, ← hFt]; exact fun h => hne h.symm
      exact ⟨hFt.symm, by rw [hrev hft, hFr]⟩
    · rintro ⟨h1, h2⟩
      rw [h1, h2, hr] at hR
      simp only [Option.some.injEq] at hR
      subst hR
      exact ⟨hRt.symm.trans hrv, hRr.symm.trans hri⟩
  have k2 : (c.to_ = v ∧ revPos gp c = i) ↔ (c.from_ = e.to_ ∧ fwdPos gp c = e.rev) := by
    constructor
    · rintro ⟨h1, h2⟩
      rw [h1, h2, he] at hR
      simp only [Option.some.injEq] at hR
      subst hR
      exact ⟨hRt.symm, hRr.symm⟩
    · rintro ⟨h1, h2⟩
      rw [h1, h2, hr] at hF
      simp only [Option.some.injEq] at hF
      subst hF
      have hft : c.from_ ≠ c.to_ := by rw [h1, ← hFt, hrv]; exact hne
      exact ⟨hFt.symm.trans hrv, by rw [hrev hft, ← hFr, hri]⟩
  by_cases a1 : c.from_ = v ∧ fwdPos gp c = i
  · have a2 := k1.mp a1
    have a3 : ¬ (c.to_ = v ∧ revPos gp c = i) := fun h => hne (a2.1.symm.trans h.1)
    have a4 : ¬ (c.from_ = e.to_ ∧ fwdPos gp c = e.rev) := fun h => a3 (k2.mpr h)
    rw [if_pos a1, if_pos a2, if_neg a3, if_neg a4]
    ring
  · have a2 : ¬ (c.to_ = e.to_ ∧ revPos gp c = e.rev) := fun h => a1 (k1.mpr h)
    rw [if_neg a1, if_neg a2]
    by_cases a3 : c.to_ = v ∧ revPos gp c = i
    · rw [if_pos a3, if_pos (k2.mp a3)]
      ring
    · rw [if_neg a3, if_neg (fun h => a3 (k2.mpr h))]
      ring

theorem augPath_pairSum {g gp : Graph} {c : Call} {level : List Int} {t v : Nat} {d : Int}
    {path : List (Nat × Nat)} (h : AugPath g level t d v path) (hp : Paired g)
    (hs : Slot g gp c) :
    capAt (pushPath g path d) c.from_ (fwdPos gp c) + capAt (pushPath g path d) c.to_ (revPos gp c) =
      capAt g c.from_ (fwdPos gp c) + capAt g c.to_ (revPos gp c) := by
  induction h with
  | nil => rfl
  | @cons v i e rest hvt he hcap hlev hrest ih =>
    have hev := augPath_edge he hlev hrest
    have hne : e.to_ ≠ v := fun h => by rw [h] at hlev; exact lt_irrefl _ hlev
    have hsh := sameShape_pushPath g rest d
    rw [pushPath_cons, pairSum_pushEdge d (sameShape_paired hsh hp) (sameShape_slot hsh hs) hev hne, ih]

/-! ## The flow engine: the claims about `MaxFlow` -/

theorem reached_wf {mf0 mf : MaxFlow} {s t : Nat} (h0 : mf0.WF) (hs : s < mf0.graph.length)
    (h : Reached mf0 s t mf) : mf.WF := by
  induction h with
  | init => exact h0
  | @bfs mf mf1 fuel hr hb ih =>
    have hsh := reached_sameShape hr
    obtain ⟨hg, hi, _, hinv⟩ := bfs_spec ih.inRange ih.level_len (by rw [hsh.1]; exact hs) hb
    exact ⟨by rw [hg, hinv.len], by rw [hg, hi]; exact ih.iter_len, by rw [hg]; exact ih.inRange,
      by rw [hg]; exact ih.nonNeg⟩
  | reset _ ih => exact ⟨ih.level_len, by simp [ih.iter_len], ih.inRange, ih.nonNeg⟩
  | dfs _ hd ih => exact dfs_wf ih hd

theorem reached_pairInv {n : Nat} {pre post : List Call} {c : Call} {s t : Nat} {mf : MaxFlow}
    (hv : ValidCalls n (pre ++ c :: post))
    (h : Reached (MaxFlow.built n (pre ++ c :: post)) s t mf) :
    PairInv mf.graph (MaxFlow.built n pre).graph c := by
  have hp : Paired (MaxFlow.built n (pre ++ c :: post)).graph := by
    rw [built_graph]
    exact paired_buildG _ hv _ (by simp) (paired_empty n)
  have h0 : PairInv (MaxFlow.built n (pre ++ c :: post)).graph (MaxFlow.built n pre).graph c := by
    rw [built_graph, built_graph]
    exact slot_built hv
  have key := reached_graph
    (fun g => SameShape (MaxFlow.built n (pre ++ c :: post)).graph g ∧
      PairInv g (MaxFlow.built n pre).graph c)
    ⟨sameShape_refl _, h0⟩
    (fun g level t d v path hg _ hpath =>
      ⟨sameShape_trans hg.1 (sameShape_pushPath _ _ _),
        sameShape_slot (sameShape_pushPath _ _ _) hg.2.1,
        (augPath_pairSum hpath (sameShape_paired hg.1 hp) hg.2.1).trans hg.2.2⟩) h
  exact key.2

/-- C6.  For the forward and the reverse edge inserted by one call
`add_edge(from, to, cap)`, the two current capacities add up to `cap` in
every state that `max_flow` passes through (after every call of `dfs`, so
after every augmentation) and in the state in which `max_flow` returns. -/
theorem pair_capacity_sum (n : Nat) (pre post : List Call) (c : Call) (s t : Nat)
    (hv : ValidCalls n (pre ++ c :: post)) :
    (∀ mf, Reached (MaxFlow.built n (pre ++ c :: post)) s t mf →
      PairInv mf.graph (MaxFlow.built n pre).graph c) ∧
    (∀ fuel flow mf, (MaxFlow.built n (pre ++ c :: post)).max_flow fuel s t = some (flow, mf) →
      PairInv mf.graph (MaxFlow.built n pre).graph c) :=
  ⟨fun _ h => reached_pairInv hv h, fun _ _ _ h => reached_pairInv hv (max_flow_reached h)⟩

theorem pair_capacity_sum_witness :
    ValidCalls 3 ([⟨0, 1, 2⟩] ++ ⟨1, 2, 1⟩ :: []) ∧
    PairInv [[⟨1, 0, 1⟩], [⟨0, 0, 1⟩, ⟨2, 0, 0⟩], [⟨1, 1, 1⟩]] (MaxFlow.built 3 [⟨0, 1, 2⟩]).graph
      ⟨1, 2, 1⟩ :=
  ⟨by decide, (pair_capacity_sum 3 [⟨0, 1, 2⟩] [] ⟨1, 2, 1⟩ 0 2 (by decide)).2 10 1
    ⟨[[⟨1, 0, 1⟩], [⟨0, 0, 1⟩, ⟨2, 0, 0⟩], [⟨1, 1, 1⟩]], [0, 1, -1], [1, 2, 0], 3⟩ (by decide)⟩

/-- C7.  On a graph whose edges were all inserted by `add_edge` with
`cap ≥ 0`, every stored capacity is `≥ 0` in every state that `max_flow`
passes through and in the state in which it returns. -/
theorem capacities_nonneg (n : Nat) (calls : List Call) (s t : Nat) (hv : ValidCalls n calls) :
    (∀ mf, Reached (MaxFlow.built n calls) s t mf → NonNeg mf.graph) ∧
    (∀ fuel flow mf, (MaxFlow.built n calls).max_flow fuel s t = some (flow, mf) →
      NonNeg mf.graph) := by
  have h0 : NonNeg (MaxFlow.built n calls).graph := (built_wf hv).1.nonNeg
  exact ⟨fun _ h => reached_nonNeg h0 h, fun _ _ _ h => reached_nonNeg h0 (max_flow_reached h)⟩

theorem capacities_nonneg_witness :
    ValidCalls 3 [⟨0, 1, 2⟩, ⟨1, 2, 1⟩] ∧
    NonNeg [[⟨1, 0, 1⟩], [⟨0, 0, 1⟩, ⟨2, 0, 0⟩], [⟨1, 1, 1⟩]] :=
  ⟨by decide, (capacities_nonneg 3 [⟨0, 1, 2⟩, ⟨1, 2, 1⟩] 0 2 (by decide)).2 10 1
    ⟨[[⟨1, 0, 1⟩], [⟨0, 0, 1⟩, ⟨2, 0, 0⟩], [⟨1, 1, 1⟩]], [0, 1, -1], [1, 2, 0], 3⟩ (by decide)⟩

/-- C8.  On every graph with valid edges and non-negative capacities, for an
in-range source `s ≠ t`, `max_flow(s, t)` returns (with every sufficiently
large fuel, and the same result), and so does every call of `dfs` on a state
that `max_flow` passes through. -/
theorem max_flow_terminates (mf : MaxFlow) (s t : Nat) (hwf : mf.WF) (hs : s < mf.graph.length)
    (hst : s ≠ t) :
    (∃ N r, ∀ fuel, N ≤ fuel → mf.max_flow fuel s t = some r) ∧
    (∀ mf1, Reached mf s t mf1 → ∀ v f, v < mf.graph.length →
      ∃ N r, ∀ fuel, N ≤ fuel → mf1.dfs fuel v t f = some r) := by
  refine ⟨max_flow_halts hwf hs hst, fun mf1 h v f hv => ?_⟩
  exact dfs_halts (reached_wf hwf hs h) v t f (by rw [(reached_sameShape h).1]; exact hv)

theorem max_flow_terminates_witness :
    (MaxFlow.built 3 [⟨0, 1, 2⟩, ⟨1, 2, 1⟩]).WF ∧
    0 < (MaxFlow.built 3 [⟨0, 1, 2⟩, ⟨1, 2, 1⟩]).graph.length ∧ 0 ≠ 2 ∧
    ((∃ N r, ∀ fuel, N ≤ fuel → (MaxFlow.built 3 [⟨0, 1, 2⟩, ⟨1, 2, 1⟩]).max_flow fuel 0 2 = some r) ∧
    (∀ mf1, Reached (MaxFlow.built 3 [⟨0, 1, 2⟩, ⟨1, 2, 1⟩]) 0 2 mf1 → ∀ v f,
      v < (MaxFlow.built 3 [⟨0, 1, 2⟩, ⟨1, 2, 1⟩]).graph.length →
      ∃ N r, ∀ fuel, N ≤ fuel → mf1.dfs fuel v 2 f = some r)) :=
  ⟨(built_wf (by decide)).1, by decide, by decide,
    max_flow_terminates (MaxFlow.built 3 [⟨0, 1, 2⟩, ⟨1, 2, 1⟩]) 0 2 (built_wf (by decide)).1
      (by decide) (by decide)⟩

/-! ## `add_edge`, `get_flow` and a second `solve` -/

/-- What `add_edge(from, to, cap)` stores when `from ≠ to`: the forward edge
is appended to `graph[from]`, the reverse edge to `graph[to]`, each holds the
index of the other, and the edges stored before are unchanged. -/
theorem add_edge_of_ne (mf : MaxFlow) (a b : Nat) (c : Int) (ha : a < mf.graph.length)
    (hb : b < mf.graph.length) (hab : a ≠ b) :
    adjOf (mf.add_edge a b c).graph a =
      adjOf mf.graph a ++ [{ to_ := b, rev := (adjOf mf.graph b).length, cap := c }] ∧
    adjOf (mf.add_edge a b c).graph b =
      adjOf mf.graph b ++ [{ to_ := a, rev := (adjOf mf.graph a).length, cap := 0 }] ∧
    (∀ w, w ≠ a → w ≠ b → adjOf (mf.add_edge a b c).graph w = adjOf mf.graph w) ∧
    edgeAt (mf.add_edge a b c).graph b (adjOf mf.graph b).length =
      some { to_ := a, rev := (adjOf mf.graph a).length, cap := 0 } ∧
    edgeAt (mf.add_edge a b c).graph a (adjOf mf.graph a).length =
      some { to_ := b, rev := (adjOf mf.graph b).length, cap := c } := by
  have hba : ¬ b = a := fun h => hab h.symm
  have h1 := slot_rev c ha hb
  rw [if_neg hab, Nat.add_zero] at h1
  refine ⟨?_, ?_, ?_, h1, slot_fwd c ha hb⟩
  · show adjOf (addEdgeG mf.graph a b c) a = _
    rw [adjOf_addEdgeG _ a b c ha hb, if_pos rfl, if_neg hab]
    simp
  · show adjOf (addEdgeG mf.graph a b c) b = _
    rw [adjOf_addEdgeG _ a b c ha hb, if_neg hba, if_pos rfl]
    simp
  · intro w hwa hwb
    show adjOf (addEdgeG mf.graph a b c) w = _
    rw [adjOf_addEdgeG _ a b c ha hb, if_neg hwa, if_neg hwb]
    simp

/-- C10 (defect).  After `add_edge(0, 0, 5)` on a new `MaxFlow(1)` the
forward edge `F = graph[0][0]` and the reverse edge `R = graph[0][1]` are
both stored, `graph[0][R.rev]` is `F`, but `graph[0][F.rev]` is `F` itself
and not `R`. -/
theorem add_edge_self_loop :
    adjOf ((MaxFlow.new 1).add_edge 0 0 5).graph 0 = [⟨0, 0, 5⟩, ⟨0, 0, 0⟩] ∧
    edgeAt ((MaxFlow.new 1).add_edge 0 0 5).graph 0 (Edge.rev ⟨0, 0, 0⟩) = some ⟨0, 0, 5⟩ ∧
    edgeAt ((MaxFlow.new 1).add_edge 0 0 5).graph 0 (Edge.rev ⟨0, 0, 5⟩) = some ⟨0, 0, 5⟩ ∧
    edgeAt ((MaxFlow.new 1).add_edge 0 0 5).graph 0 (Edge.rev ⟨0, 0, 5⟩) ≠ some ⟨0, 0, 0⟩ := by
  decide

/-- C9 (defect).  After `add_edge(1, 0, 5)`, `add_edge(0, 1, 3)` and
`max_flow(0, 1)` on a new `MaxFlow(2)`, exactly one edge `0 → 1` was
inserted, its paired reverse edge `graph[1][1]` has capacity `3` (the flow
sent, also the returned value), and `get_flow(0, 1)` returns `5`. -/
theorem get_flow_antiparallel :
    (((MaxFlow.new 2).add_edge 1 0 5).add_edge 0 1 3).max_flow 10 0 1 =
      some (3, ⟨[[⟨1, 0, 0⟩, ⟨1, 1, 0⟩], [⟨0, 0, 5⟩, ⟨0, 1, 3⟩]], [0, -1], [2, 0], 2⟩) ∧
    edgeAt (((MaxFlow.new 2).add_edge 1 0 5).add_edge 0 1 3).graph 0 1 = some ⟨1, 1, 3⟩ ∧
    MaxFlow.get_flow ⟨[[⟨1, 0, 0⟩, ⟨1, 1, 0⟩], [⟨0, 0, 5⟩, ⟨0, 1, 3⟩]], [0, -1], [2, 0], 2⟩ 0 1 = 5 := by
  decide

/-- C4 (defect).  On the instance of `demo_example` the first `solve()`
returns the flow value `3` with three assignments; a second `solve()` on the
object left by the first one returns the same assignments with the flow
value `0`. -/
theorem solve_twice_demo :
    (demoInstance.solve 12).map (fun r => r.1) = some (3, [(0, 0), (1, 1), (2, 2)]) ∧
    ((demoInstance.solve 12).bind (fun r => r.2.solve 12)).map (fun r => r.1) =
      some (0, [(0, 0), (1, 1), (2, 2)]) := by
  decide

/-! ## The network of `build_flow_network` -/

theorem addEdges_append (mf : MaxFlow) (l1 l2 : List Call) :
    mf.addEdges (l1 ++ l2) = (mf.addEdges l1).addEdges l2 := by
  simp [MaxFlow.addEdges, List.foldl_append]

theorem foldl_addEdges_flatMap {α : Type} (F : α → List Call) (l : List α) :
    ∀ mf : MaxFlow, l.foldl (fun mf x => mf.addEdges (F x)) mf = mf.addEdges (l.flatMap F) := by
  induction l with
  | nil => intro mf; rfl
  | cons x l ih =>
    intro mf
    rw [List.foldl_cons, ih, List.flatMap_cons, addEdges_append]

theorem foldl_addEdges_map {α : Type} (f : α → Call) (l : List α) :
    ∀ mf : MaxFlow, l.foldl (fun mf x => mf.add_edge (f x).from_ (f x).to_ (f x).cap) mf =
      mf.addEdges (l.map f) := by
  induction l with
  | nil => intro mf; rfl
  | cons x l ih =>
    intro mf
    rw [List.foldl_cons, ih]
    rfl

theorem build_flow_network_eq (p : RideShareAssignment) :
    p.build_flow_network =
      { p with flow_graph := some (MaxFlow.built (p.num_drivers + p.num_requests + 2) (netCalls p)) } := by
  unfold RideShareAssignment.build_flow_network MaxFlow.built netCalls
  simp only
  rw [addEdges_append, addEdges_append]
  have h1 := foldl_addEdges_map
    (fun i => ({ from_ := p.source, to_ := p.driver_offset + i, cap := p.capacity i } : Call))
    (List.range p.num_drivers)
  have h3 := foldl_addEdges_map
    (fun j => ({ from_ := p.request_offset + j, to_ := p.sink, cap := 1 } : Call))
    (List.range p.num_requests)
  have h2in : ∀ (i : Nat) (mf : MaxFlow), (List.range p.num_requests).foldl
      (fun mf j =>
        if p.feasible i j then mf.add_edge (p.driver_offset + i) (p.request_offset + j) 1
        else mf) mf =
      mf.addEdges ((List.range p.num_requests).flatMap (fun j =>
        if p.feasible i j then
          [({ from_ := p.driver_offset + i, to_ := p.request_offset + j, cap := 1 } : Call)]
        else [])) := by
    intro i mf
    rw [← foldl_addEdges_flatMap]
    congr 1
    funext mf j
    split <;> rfl
  have h2 := foldl_addEdges_flatMap (fun i => (List.range p.num_requests).flatMap (fun j =>
        if p.feasible i j then
          [({ from_ := p.driver_offset + i, to_ := p.request_offset + j, cap := 1 } : Call)]
        else [])) (List.range p.num_drivers)
  simp only at h1 h3
  rw [h1, ← h2, ← h3]
  simp only [h2in]

theorem validCalls_net {p : RideShareAssignment} (hp : Configured p) :
    ValidCalls (p.num_drivers + p.num_requests + 2) (netCalls p) := by
  intro c hc
  unfold netCalls at hc
  rw [hp.source_eq, hp.driver_eq, hp.request_eq, hp.sink_eq] at hc
  simp only [List.mem_append, List.mem_map, List.mem_range, List.mem_flatMap] at hc
  rcases hc with (⟨i, hi, rfl⟩ | ⟨i, hi, j, hj, hc⟩) | ⟨j, hj, rfl⟩
  · exact ⟨by simp, by simp only; omega, hp.cap_nonneg i hi⟩
  · split at hc
    · simp only [List.mem_singleton] at hc
      subst hc
      exact ⟨by simp only; omega, by simp only; omega, by simp⟩
    · simp at hc
  · exact ⟨by simp only; omega, by simp only; omega, by simp⟩

theorem callSum_eq_callCount (ψ : Call → Int) (calls : List Call) :
    callSum ψ calls = callCount (fun c => ψ c * c.cap) calls := rfl

theorem callCount_append (ψ : Call → Int) (l1 l2 : List Call) :
    callCount ψ (l1 ++ l2) = callCount ψ l1 + callCount ψ l2 := by
  simp [callCount]

theorem sum_map_range (f : Nat → Int) (n : Nat) :
    ((List.range n).map f).sum = ∑ i in Finset.range n, f i := by
  induction n with
  | zero => simp
  | succ n ih => rw [List.range_succ, List.map_append, List.sum_append, ih, Finset.sum_range_succ]; simp

theorem callCount_map_range (ψ : Call → Int) (f : Nat → Call) (n : Nat) :
    callCount ψ ((List.range n).map f) = ∑ i in Finset.range n, ψ (f i) := by
  unfold callCount
  rw [List.map_map]
  exact sum_map_range _ n

theorem callCount_flatMap_range (ψ : Call → Int) (F : Nat → List Call) (n : Nat) :
    callCount ψ ((List.range n).flatMap F) = ∑ i in Finset.range n, callCount ψ (F i) := by
  induction n with
  | zero => simp [callCount]
  | succ n ih =>
    rw [List.range_succ, List.flatMap_append, callCount_append, ih, Finset.sum_range_succ]
    simp

theorem callCount_net (ψ : Call → Int) {p : RideShareAssignment} (hp : Configured p) :
    callCount ψ (netCalls p) =
      (∑ i in Finset.range p.num_drivers, ψ ⟨0, 1 + i, p.capacity i⟩)
      + (∑ i in Finset.range p.num_drivers, ∑ j in Finset.range p.num_requests,
          if p.feasible i j then ψ ⟨1 + i, 1 + p.num_drivers + j, 1⟩ else 0)
      + (∑ j in Finset.range p.num_requests,
          ψ ⟨1 + p.num_drivers + j, 1 + p.num_drivers + p.num_requests, 1⟩) := by
  unfold netCalls
  rw [hp.source_eq, hp.driver_eq, hp.request_eq, hp.sink_eq, callCount_append, callCount_append,
    callCount_map_range, callCount_map_range, callCount_flatMap_range]
  congr 1
  congr 1
  apply Finset.sum_congr rfl
  intro i _
  rw [callCount_flatMap_range]
  apply Finset.sum_congr rfl
  intro j _
  split <;> simp [callCount]

/-! ## Capacities stored towards a set of nodes -/

theorem pt_nonneg (a w : Nat) : 0 ≤ pt a w := by
  unfold pt
  split <;> simp

theorem bil_pt_left (a : Nat) (ψ : Nat → Int) (g : Graph) (ha : a < g.length) :
    bil (pt a) ψ g = wsum ψ (adjOf g a) := by
  unfold bil
  rw [Finset.sum_eq_single a]
  · simp [pt]
  · intro b _ hb
    simp [pt, hb]
  · intro h
    exact absurd (Finset.mem_range.mpr ha) h

theorem wsum_nonneg (ψ : Nat → Int) (l : List Edge) (hψ : ∀ w, 0 ≤ ψ w)
    (hl : ∀ e ∈ l, 0 ≤ e.cap) : 0 ≤ wsum ψ l := by
  induction l with
  | nil => simp [wsum]
  | cons e l ih =>
    rw [wsum_cons]
    have h1 := mul_nonneg (hψ e.to_) (hl e (List.mem_cons_self _ _))
    have h2 := ih (fun x hx => hl x (List.mem_cons_of_mem _ hx))
    omega

theorem wsum_adj_nonneg (ψ : Nat → Int) {g : Graph} (hg : NonNeg g) (hψ : ∀ w, 0 ≤ ψ w)
    (a : Nat) : 0 ≤ wsum ψ (adjOf g a) :=
  wsum_nonneg ψ _ hψ (fun e he => by
    obtain ⟨i, hi⟩ := mem_adjOf he
    exact hg a i e hi)

theorem bil_nonneg (φ ψ : Nat → Int) {g : Graph} (hg : NonNeg g) (hφ : ∀ w, 0 ≤ φ w)
    (hψ : ∀ w, 0 ≤ ψ w) : 0 ≤ bil φ ψ g := by
  unfold bil
  apply Finset.sum_nonneg
  intro w _
  exact mul_nonneg (hφ w) (wsum_adj_nonneg ψ hg hψ w)

theorem wsum_add (ψ1 ψ2 : Nat → Int) (l : List Edge) :
    wsum (fun w => ψ1 w + ψ2 w) l = wsum ψ1 l + wsum ψ2 l := by
  induction l with
  | nil => simp [wsum]
  | cons e l ih => rw [wsum_cons, wsum_cons, wsum_cons, ih]; ring

theorem wsum_sum (n : Nat) (ψ : Nat → Nat → Int) (l : List Edge) :
    wsum (fun w => ∑ j in Finset.range n, ψ j w) l = ∑ j in Finset.range n, wsum (ψ j) l := by
  induction l with
  | nil => simp [wsum]
  | cons e l ih =>
    rw [wsum_cons, ih]
    simp only [wsum_cons]
    rw [Finset.sum_add_distrib, Finset.sum_mul]

theorem wsum_congr (ψ1 ψ2 : Nat → Int) (l : List Edge) (h : ∀ w, ψ1 w = ψ2 w) :
    wsum ψ1 l = wsum ψ2 l := by
  have : ψ1 = ψ2 := funext h
  rw [this]

theorem wsum_mono (ψ1 ψ2 : Nat → Int) (l : List Edge) (h : ∀ w, ψ1 w ≤ ψ2 w)
    (hl : ∀ e ∈ l, 0 ≤ e.cap) : wsum ψ1 l ≤ wsum ψ2 l := by
  induction l with
  | nil => simp [wsum]
  | cons e l ih =>
    rw [wsum_cons, wsum_cons]
    have h1 := mul_le_mul_of_nonneg_right (h e.to_) (hl e (List.mem_cons_self _ _))
    have h2 := ih (fun x hx => hl x (List.mem_cons_of_mem _ hx))
    omega

theorem sum_pt_shift (n k a : Nat) (f : Nat → Int) :
    ∑ i in Finset.range n, (if k + i = a then f i else 0) =
      if k ≤ a ∧ a < k + n then f (a - k) else 0 := by
  by_cases h : k ≤ a ∧ a < k + n
  · rw [if_pos h, Finset.sum_eq_single (a - k)]
    · rw [if_pos (by omega)]
    · intro b _ hb
      rw [if_neg (by omega)]
    · intro h2
      exact absurd (Finset.mem_range.mpr (by omega)) h2
  · rw [if_neg h]
    apply Finset.sum_eq_zero
    intro i hi
    have := Finset.mem_range.mp hi
    rw [if_neg (by omega)]

/-- The symmetric part of the stored capacities between a node and a set is
fixed by the inserted edges. -/
theorem flows_wsum_symm {n s t : Nat} {calls : List Call} {g1 : Graph} {x : Int}
    (hv : ValidCalls n calls) (h : Flows s t (buildG (List.replicate n []) calls) x g1)
    (a : Nat) (ha : a < n) (ψ : Nat → Int) :
    wsum ψ (adjOf g1 a) + bil ψ (pt a) g1 =
      callSum (fun c => pt a c.from_ * ψ c.to_) calls
        + callSum (fun c => ψ c.from_ * pt a c.to_) calls := by
  obtain ⟨hlen, hbp, _⟩ := build_invariants hv
  have h1 := flows_bil h hbp (pt a) ψ
  rw [bil_built (pt a) ψ hv, bil_built ψ (pt a) hv,
    bil_pt_left a ψ g1 (by rw [(flows_sameShape h).1, hlen]; exact ha)] at h1
  exact h1

theorem flows_wsum_le {n s t : Nat} {calls : List Call} {g1 : Graph} {x : Int}
    (hv : ValidCalls n calls) (h : Flows s t (buildG (List.replicate n []) calls) x g1)
    (a : Nat) (ha : a < n) (ψ : Nat → Int) (hψ : ∀ w, 0 ≤ ψ w) :
    wsum ψ (adjOf g1 a) ≤
      callSum (fun c => pt a c.from_ * ψ c.to_) calls
        + callSum (fun c => ψ c.from_ * pt a c.to_) calls := by
  obtain ⟨_, _, hnn⟩ := build_invariants hv
  have h1 := flows_wsum_symm hv h a ha ψ
  have h2 := bil_nonneg ψ (pt a) (flows_nonNeg h hnn) hψ (pt_nonneg a)
  omega

theorem flows_wsum_pair {n s t : Nat} {calls : List Call} {g1 : Graph} {x : Int}
    (hv : ValidCalls n calls) (h : Flows s t (buildG (List.replicate n []) calls) x g1)
    (a b : Nat) (ha : a < n) (hb : b < n) :
    wsum (pt b) (adjOf g1 a) + wsum (pt a) (adjOf g1 b) =
      callSum (fun c => pt a c.from_ * pt b c.to_) calls
        + callSum (fun c => pt b c.from_ * pt a c.to_) calls := by
  obtain ⟨hlen, _, _⟩ := build_invariants hv
  have h1 := flows_wsum_symm hv h a ha (pt b)
  rw [bil_pt_left b (pt a) g1 (by rw [(flows_sameShape h).1, hlen]; exact hb)] at h1
  exact h1

theorem outCap_buildG {n : Nat} (calls : List Call) (hv : ValidCalls n calls) (w : Nat) :
    ∀ g : Graph, g.length = n →
      outCap (buildG g calls) w = outCap g w + callSum (fun c => pt w c.from_) calls := by
  induction calls with
  | nil => intro g _; simp [buildG, callSum]
  | cons c cs ih =>
    intro g hn
    obtain ⟨⟨ha, hb, _⟩, hcs⟩ := validCalls_cons hv
    rw [← hn] at ha hb
    rw [buildG_cons, ih hcs _ ((addEdgeG_length g _ _ _).trans hn), callSum_cons,
      outCap_addEdgeG g _ _ _ ha hb]
    unfold pt
    by_cases h : w = c.from_
    · rw [if_pos h, if_pos h.symm]; ring
    · rw [if_neg h, if_neg (fun h2 => h h2.symm)]; ring

theorem flows_outCap_built {n s t : Nat} {calls : List Call} {g1 : Graph} {x : Int}
    (hv : ValidCalls n calls) (h : Flows s t (buildG (List.replicate n []) calls) x g1)
    (w : Nat) :
    outCap g1 w = callSum (fun c => pt w c.from_) calls - (if w = s then x else 0)
      + (if w = t then x else 0) := by
  obtain ⟨_, hbp, _⟩ := build_invariants hv
  rw [flows_outCap h (backPtr_inRange hbp) w, outCap_buildG calls hv w _ (by simp)]
  have : outCap (List.replicate n ([] : List Edge)) w = 0 := by
    unfold outCap adjOf
    rw [List.getElem?_replicate]
    split <;> rfl
  rw [this]
  ring

/-! ## The inserted capacities of the ride-share network -/

theorem netSum (φ ψ : Nat → Int) {p : RideShareAssignment} (hp : Configured p) :
    callSum (fun c => φ c.from_ * ψ c.to_) (netCalls p) =
      (∑ i in Finset.range p.num_drivers, φ 0 * ψ (1 + i) * p.capacity i)
      + (∑ i in Finset.range p.num_drivers, ∑ j in Finset.range p.num_requests,
          if p.feasible i j then φ (1 + i) * ψ (1 + p.num_drivers + j) else 0)
      + (∑ j in Finset.range p.num_requests,
          φ (1 + p.num_drivers + j) * ψ (1 + p.num_drivers + p.num_requests)) := by
  rw [callSum_eq_callCount, callCount_net _ hp]
  simp

theorem netSum_from (φ : Nat → Int) {p : RideShareAssignment} (hp : Configured p) :
    callSum (fun c => φ c.from_) (netCalls p) =
      (∑ i in Finset.range p.num_drivers, φ 0 * p.capacity i)
      + (∑ i in Finset.range p.num_drivers, ∑ j in Finset.range p.num_requests,
          if p.feasible i j then φ (1 + i) else 0)
      + (∑ j in Finset.range p.num_requests, φ (1 + p.num_drivers + j)) := by
  rw [callSum_eq_callCount, callCount_net _ hp]
  simp

theorem sum2_single (m n i j : Nat) (hi : i < m) (hj : j < n) (f : Nat → Nat → Int)
    (h : ∀ a b, a < m → b < n → (a ≠ i ∨ b ≠ j) → f a b = 0) :
    ∑ a in Finset.range m, ∑ b in Finset.range n, f a b = f i j := by
  rw [Finset.sum_eq_single i]
  · rw [Finset.sum_eq_single j]
    · intro b hb hne
      exact h i b hi (Finset.mem_range.mp hb) (Or.inr hne)
    · intro h2
      exact absurd (Finset.mem_range.mpr hj) h2
  · intro a ha hne
    apply Finset.sum_eq_zero
    intro b hb
    exact h a b (Finset.mem_range.mp ha) (Finset.mem_range.mp hb) (Or.inl hne)
  · intro h2
    exact absurd (Finset.mem_range.mpr hi) h2

theorem sum1_single (m i : Nat) (hi : i < m) (f : Nat → Int)
    (h : ∀ a, a < m → a ≠ i → f a = 0) : ∑ a in Finset.range m, f a = f i := by
  rw [Finset.sum_eq_single i]
  · intro a ha hne
    exact h a (Finset.mem_range.mp ha) hne
  · intro h2
    exact absurd (Finset.mem_range.mpr hi) h2

theorem eval_pair_dr {p : RideShareAssignment} (hp : Configured p) {i j : Nat}
    (hi : i < p.num_drivers) (hj : j < p.num_requests) :
    callSum (fun c => pt (1 + i) c.from_ * pt (1 + p.num_drivers + j) c.to_) (netCalls p)
      + callSum (fun c => pt (1 + p.num_drivers + j) c.from_ * pt (1 + i) c.to_) (netCalls p) =
      if p.feasible i j then 1 else 0 := by
  rw [netSum _ _ hp, netSum _ _ hp]
  have a1 : ∀ k, ¬ 1 + p.num_drivers + k = 1 + i := by intro k; omega
  have a3 : ¬ 1 + p.num_drivers + p.num_requests = 1 + i := by omega
  have a4 : ¬ 0 = 1 + i := by omega
  have a5 : ¬ 0 = 1 + p.num_drivers + j := by omega
  simp only [pt, a1, a3, a4, a5, if_false, zero_mul, mul_zero, Finset.sum_const_zero,
    add_zero, zero_add, ite_self]
  rw [sum2_single _ _ i j hi hj]
  · simp
  · intro a b _ _ hne
    split_ifs <;> first | rfl | omega

theorem eval_pair_sd {p : RideShareAssignment} (hp : Configured p) {i : Nat}
    (hi : i < p.num_drivers) :
    callSum (fun c => pt 0 c.from_ * pt (1 + i) c.to_) (netCalls p)
      + callSum (fun c => pt (1 + i) c.from_ * pt 0 c.to_) (netCalls p) = p.capacity i := by
  rw [netSum _ _ hp, netSum _ _ hp]
  have a1 : ∀ k, ¬ 1 + p.num_drivers + k = 0 := by intro k; omega
  have a2 : ∀ k, ¬ 1 + k = 0 := by intro k; omega
  have a3 : ¬ 1 + p.num_drivers + p.num_requests = 0 := by omega
  have a4 : ¬ 0 = 1 + i := by omega
  have a5 : ∀ k, ¬ 1 + p.num_drivers + k = 1 + i := by intro k; omega
  simp only [pt, a1, a2, a3, a4, a5, if_false, if_true, zero_mul, mul_zero, one_mul,
    Finset.sum_const_zero, add_zero, zero_add, ite_self]
  rw [sum1_single _ i hi]
  · simp
  · intro a _ hne
    split_ifs <;> first | rfl | omega

theorem eval_out_d {p : RideShareAssignment} (hp : Configured p) {i : Nat}
    (hi : i < p.num_drivers) :
    callSum (fun c => pt (1 + i) c.from_) (netCalls p) = feasCount p i := by
  rw [netSum_from _ hp]
  have a1 : ∀ k, ¬ 1 + p.num_drivers + k = 1 + i := by intro k; omega
  have a4 : ¬ 0 = 1 + i := by omega
  simp only [pt, a1, a4, if_false, zero_mul, Finset.sum_const_zero, add_zero, zero_add]
  unfold feasCount
  rw [sum1_single _ i hi]
  · simp
  · intro a _ hne
    apply Finset.sum_eq_zero
    intro b _
    split_ifs <;> first | rfl | omega

theorem eval_out_r {p : RideShareAssignment} (hp : Configured p) {j : Nat}
    (hj : j < p.num_requests) :
    callSum (fun c => pt (1 + p.num_drivers + j) c.from_) (netCalls p) = 1 := by
  rw [netSum_from _ hp]
  have a4 : ¬ 0 = 1 + p.num_drivers + j := by omega
  have a2 : ∀ i ∈ Finset.range p.num_drivers, ∑ k in Finset.range p.num_requests,
      (if p.feasible i k then pt (1 + p.num_drivers + j) (1 + i) else 0) = 0 := by
    intro i hi
    have := Finset.mem_range.mp hi
    apply Finset.sum_eq_zero
    intro k _
    unfold pt
    split_ifs <;> first | rfl | omega
  rw [Finset.sum_congr rfl a2]
  simp only [pt, a4, if_false, zero_mul, Finset.sum_const_zero, add_zero, zero_add]
  rw [sum1_single _ j hj]
  · simp
  · intro a _ hne
    split_ifs <;> first | rfl | omega

theorem eval_out_s {p : RideShareAssignment} (hp : Configured p) :
    callSum (fun c => pt 0 c.from_) (netCalls p) =
      ∑ i in Finset.range p.num_drivers, p.capacity i := by
  rw [netSum_from _ hp]
  have a1 : ∀ k, ¬ 1 + p.num_drivers + k = 0 := by intro k; omega
  have a2 : ∀ k, ¬ 1 + k = 0 := by intro k; omega
  simp only [pt, a1, a2, if_false, if_true, one_mul, ite_self, Finset.sum_const_zero, add_zero]

theorem eval_rest_d {p : RideShareAssignment} (hp : Configured p) {i : Nat}
    (hi : i < p.num_drivers) :
    callSum (fun c => pt (1 + i) c.from_ * restD p c.to_) (netCalls p)
      + callSum (fun c => restD p c.from_ * pt (1 + i) c.to_) (netCalls p) = 0 := by
  rw [netSum _ _ hp, netSum _ _ hp]
  have a1 : ∀ k, ¬ 1 + p.num_drivers + k = 1 + i := by intro k; omega
  have a3 : ¬ 1 + p.num_drivers + p.num_requests = 1 + i := by omega
  have a4 : ¬ 0 = 1 + i := by omega
  have a5 : restD p 0 = 0 := by simp [restD]
  have a6 : ∀ k ∈ Finset.range p.num_requests, restD p (1 + p.num_drivers + k) = 0 := by
    intro k hk
    have := Finset.mem_range.mp hk
    unfold restD
    rw [if_pos (by omega)]
  have a7 : ∀ a ∈ Finset.range p.num_drivers, ∑ k in Finset.range p.num_requests,
      (if p.feasible a k then pt (1 + i) (1 + a) * restD p (1 + p.num_drivers + k) else 0) = 0 := by
    intro a _
    apply Finset.sum_eq_zero
    intro k hk
    rw [a6 k hk]
    simp
  rw [Finset.sum_congr rfl a7]
  simp only [pt, a1, a3, a4, a5, if_false, zero_mul, mul_zero, Finset.sum_const_zero,
    add_zero, ite_self]

theorem eval_rest_s {p : RideShareAssignment} (hp : Configured p) :
    callSum (fun c => pt 0 c.from_ * restS p c.to_) (netCalls p)
      + callSum (fun c => restS p c.from_ * pt 0 c.to_) (netCalls p) = 0 := by
  rw [netSum _ _ hp, netSum _ _ hp]
  have a1 : ∀ k, ¬ 1 + p.num_drivers + k = 0 := by intro k; omega
  have a2 : ∀ k, ¬ 1 + k = 0 := by intro k; omega
  have a3 : ¬ 1 + p.num_drivers + p.num_requests = 0 := by omega
  have a6 : ∀ k ∈ Finset.range p.num_drivers, pt 0 0 * restS p (1 + k) * p.capacity k = 0 := by
    intro k hk
    have := Finset.mem_range.mp hk
    unfold restS
    rw [if_pos (by omega)]
    simp
  rw [Finset.sum_congr rfl a6]
  simp only [pt, a1, a2, a3, if_false, zero_mul, mul_zero, Finset.sum_const_zero,
    add_zero, ite_self]

/-! ## What `get_flow` reads in the ride-share network -/

theorem cntW_append (ψ : Nat → Int) (l1 l2 : List Edge) :
    cntW ψ (l1 ++ l2) = cntW ψ l1 + cntW ψ l2 := by
  simp [cntW]

theorem cntW_addEdgeG (ψ : Nat → Int) (g : Graph) (a b : Nat) (c : Int) (ha : a < g.length)
    (hb : b < g.length) (w : Nat) :
    cntW ψ (adjOf (addEdgeG g a b c) w) =
      cntW ψ (adjOf g w) + ((if w = a then ψ b else 0) + (if w = b then ψ a else 0)) := by
  rw [adjOf_addEdgeG g a b c ha hb, cntW_append, cntW_append]
  by_cases h1 : w = a
  · by_cases h2 : w = b
    · rw [if_pos h1, if_pos h2, if_pos h1, if_pos h2]; simp [cntW]; ring
    · rw [if_pos h1, if_neg h2, if_pos h1, if_neg h2]; simp [cntW]
  · by_cases h2 : w = b
    · rw [if_neg h1, if_pos h2, if_neg h1, if_pos h2]; simp [cntW]
    · rw [if_neg h1, if_neg h2, if_neg h1, if_neg h2]; simp [cntW]

theorem cntW_buildG (ψ : Nat → Int) {n : Nat} (calls : List Call) (hv : ValidCalls n calls)
    (w : Nat) : ∀ g : Graph, g.length = n →
      cntW ψ (adjOf (buildG g calls) w) =
        cntW ψ (adjOf g w) + callCount (fun c => (if w = c.from_ then ψ c.to_ else 0) +
          (if w = c.to_ then ψ c.from_ else 0)) calls := by
  induction calls with
  | nil => intro g _; simp [buildG, callCount]
  | cons c cs ih =>
    intro g hn
    obtain ⟨⟨ha, hb, _⟩, hcs⟩ := validCalls_cons hv
    rw [← hn] at ha hb
    rw [buildG_cons, ih hcs _ ((addEdgeG_length g _ _ _).trans hn),
      cntW_addEdgeG ψ g _ _ _ ha hb]
    simp only [callCount, List.map_cons, List.sum_cons]
    ring

theorem map_to_sameShape {g g1 : Graph} (h : SameShape g g1) (w : Nat) :
    (adjOf g1 w).map Edge.to_ = (adjOf g w).map Edge.to_ := by
  apply List.ext_getElem?
  intro k
  have h2 := h.2 w k
  unfold edgeAt at h2
  rw [List.getElem?_map, List.getElem?_map]
  cases h3 : (adjOf g1 w)[k]? <;> cases h4 : (adjOf g w)[k]? <;> rw [h3, h4] at h2 <;>
    simp at h2 ⊢
  exact h2.1

theorem cntW_sameShape (ψ : Nat → Int) {g g1 : Graph} (h : SameShape g g1) (w : Nat) :
    cntW ψ (adjOf g1 w) = cntW ψ (adjOf g w) := by
  have h1 := map_to_sameShape h w
  have h2 : ∀ l : List Edge, cntW ψ l = ((l.map Edge.to_).map ψ).sum := by
    intro l
    simp [cntW, List.map_map, Function.comp_def]
  rw [h2, h2, h1]

theorem cntW_pt_nonneg (a : Nat) (l : List Edge) : 0 ≤ cntW (pt a) l := by
  induction l with
  | nil => simp [cntW]
  | cons e l ih =>
    have : cntW (pt a) (e :: l) = pt a e.to_ + cntW (pt a) l := by simp [cntW]
    rw [this]
    have := pt_nonneg a e.to_
    omega

theorem cntW_pt_zero (a : Nat) (l : List Edge) (h : cntW (pt a) l = 0) :
    wsum (pt a) l = 0 ∧ ∀ e ∈ l, e.to_ ≠ a := by
  induction l with
  | nil => simp [wsum]
  | cons e l ih =>
    have h1 : cntW (pt a) (e :: l) = pt a e.to_ + cntW (pt a) l := by simp [cntW]
    rw [h1] at h
    have h2 := pt_nonneg a e.to_
    have h3 := cntW_pt_nonneg a l
    have h4 : pt a e.to_ = 0 := by omega
    obtain ⟨k1, k2⟩ := ih (by omega)
    refine ⟨by rw [wsum_cons, h4, k1]; simp, ?_⟩
    intro x hx
    rcases List.mem_cons.mp hx with h5 | h5
    · rw [h5]
      intro h6
      unfold pt at h4
      rw [if_pos h6] at h4
      omega
    · exact k2 x h5

theorem find_of_cntW_one (a : Nat) (l : List Edge) (h : cntW (pt a) l = 1) :
    ∃ re, l.find? (fun e => decide (e.to_ = a)) = some re ∧ re.cap = wsum (pt a) l := by
  induction l with
  | nil => simp [cntW] at h
  | cons e l ih =>
    have h1 : cntW (pt a) (e :: l) = pt a e.to_ + cntW (pt a) l := by simp [cntW]
    rw [h1] at h
    by_cases he : e.to_ = a
    · have h2 : pt a e.to_ = 1 := by unfold pt; rw [if_pos he]
      obtain ⟨k1, _⟩ := cntW_pt_zero a l (by omega)
      refine ⟨e, by simp [List.find?, he], ?_⟩
      rw [wsum_cons, h2, k1]
      simp
    · have h2 : pt a e.to_ = 0 := by unfold pt; rw [if_neg he]
      obtain ⟨re, k1, k2⟩ := ih (by omega)
      refine ⟨re, by simp [List.find?, he, k1], ?_⟩
      rw [wsum_cons, h2, k2]
      simp

theorem exists_of_cntW_one (a : Nat) (l : List Edge) (h : cntW (pt a) l = 1) :
    ∃ e ∈ l, e.to_ = a := by
  by_contra hne
  have h2 : ∀ e ∈ l, pt a e.to_ = 0 := by
    intro e he
    unfold pt
    rw [if_neg (fun h3 => hne ⟨e, he, h3⟩)]
  have h3 : cntW (pt a) l = 0 := by
    unfold cntW
    apply List.sum_eq_zero
    intro x hx
    obtain ⟨e, he, hex⟩ := List.mem_map.mp hx
    rw [← hex]
    exact h2 e he
  omega

theorem getFlowLoop_eq (g : Graph) (a b : Nat) (re : Edge)
    (hf : (adjOf g b).find? (fun e => decide (e.to_ = a)) = some re) :
    ∀ es : List Edge, (∃ e ∈ es, e.to_ = b) → getFlowLoop g a b es = re.cap := by
  intro es
  induction es with
  | nil => intro h; obtain ⟨e, he, _⟩ := h; simp at he
  | cons e es ih =>
    intro h
    unfold getFlowLoop
    by_cases he : e.to_ = b
    · rw [if_pos he, hf]
    · rw [if_neg he]
      apply ih
      obtain ⟨x, hx, hxb⟩ := h
      rcases List.mem_cons.mp hx with h1 | h1
      · rw [h1] at hxb; exact absurd hxb he
      · exact ⟨x, h1, hxb⟩

theorem eval_cnt {p : RideShareAssignment} (hp : Configured p) {i j : Nat}
    (hi : i < p.num_drivers) (hj : j < p.num_requests) :
    callCount (fun c => (if 1 + p.num_drivers + j = c.from_ then pt (1 + i) c.to_ else 0) +
        (if 1 + p.num_drivers + j = c.to_ then pt (1 + i) c.from_ else 0)) (netCalls p) =
      (if p.feasible i j then 1 else 0) ∧
    callCount (fun c => (if 1 + i = c.from_ then pt (1 + p.num_drivers + j) c.to_ else 0) +
        (if 1 + i = c.to_ then pt (1 + p.num_drivers + j) c.from_ else 0)) (netCalls p) =
      (if p.feasible i j then 1 else 0) := by
  rw [callCount_net _ hp, callCount_net _ hp]
  have a1 : ∀ k, ¬ 1 + p.num_drivers + k = 1 + i := by intro k; omega
  have a1b : ∀ k, ¬ 1 + i = 1 + p.num_drivers + k := by intro k; omega
  have a3 : ¬ 1 + p.num_drivers + p.num_requests = 1 + i := by omega
  have a3b : ¬ 1 + i = 1 + p.num_drivers + p.num_requests := by omega
  have a4 : ¬ 0 = 1 + i := by omega
  have a4b : ¬ 1 + i = 0 := by omega
  have a5 : ¬ 0 = 1 + p.num_drivers + j := by omega
  have a5b : ¬ 1 + p.num_drivers + j = 0 := by omega
  have a6 : ¬ 1 + p.num_drivers + j = 1 + p.num_drivers + p.num_requests := by omega
  simp only [pt, a1, a1b, a3, a3b, a4, a4b, a5, a5b, a6, if_false, if_true, zero_mul, mul_zero,
    Finset.sum_const_zero, add_zero, zero_add, ite_self]
  constructor
  · rw [sum2_single _ _ i j hi hj]
    · simp
    · intro a b _ _ hne
      split_ifs <;> first | rfl | omega
  · rw [sum2_single _ _ i j hi hj]
    · simp
    · intro a b _ _ hne
      split_ifs <;> first | rfl | omega

/-! ## The flow on the ride-share network when `max_flow` has returned -/

theorem pt_sum (n k w : Nat) :
    ∑ j in Finset.range n, pt (k + j) w = if k ≤ w ∧ w < k + n then 1 else 0 := by
  have h : ∀ j, pt (k + j) w = if k + j = w then (fun _ => (1 : Int)) j else 0 := by
    intro j
    unfold pt
    by_cases h1 : w = k + j
    · rw [if_pos h1, if_pos h1.symm]
    · rw [if_neg h1, if_neg (fun h2 => h1 h2.symm)]
  simp only [h]
  rw [sum_pt_shift]

theorem netFlows_nonNeg {p : RideShareAssignment} (hp : Configured p) {x : Int} {g : Graph}
    (h : NetFlows p x g) : NonNeg g :=
  flows_nonNeg h (build_invariants (validCalls_net hp)).2.2

theorem flowOn_pair {p : RideShareAssignment} (hp : Configured p) {x : Int} {g : Graph}
    (h : NetFlows p x g) {i j : Nat} (hi : i < p.num_drivers) (hj : j < p.num_requests) :
    wsum (pt (1 + p.num_drivers + j)) (adjOf g (1 + i)) + flowOn p g i j =
      if p.feasible i j then 1 else 0 := by
  have h1 := flows_wsum_pair (validCalls_net hp) h (1 + i) (1 + p.num_drivers + j)
    (by omega) (by omega)
  rw [eval_pair_dr hp hi hj] at h1
  exact h1

theorem flowOn_bounds {p : RideShareAssignment} (hp : Configured p) {x : Int} {g : Graph}
    (h : NetFlows p x g) {i j : Nat} (hi : i < p.num_drivers) (hj : j < p.num_requests) :
    0 ≤ flowOn p g i j ∧ flowOn p g i j ≤ if p.feasible i j then 1 else 0 := by
  have h1 := flowOn_pair hp h hi hj
  have h2 := wsum_adj_nonneg (pt (1 + p.num_drivers + j)) (netFlows_nonNeg hp h)
    (pt_nonneg _) (1 + i)
  have h3 : 0 ≤ flowOn p g i j :=
    wsum_adj_nonneg (pt (1 + i)) (netFlows_nonNeg hp h) (pt_nonneg _) _
  exact ⟨h3, by omega⟩

theorem wsum_zero_of_eval {p : RideShareAssignment} (hp : Configured p) {x : Int} {g : Graph}
    (h : NetFlows p x g) (a : Nat) (ha : a < p.num_drivers + p.num_requests + 2)
    (ψ : Nat → Int) (hψ : ∀ w, 0 ≤ ψ w)
    (he : callSum (fun c => pt a c.from_ * ψ c.to_) (netCalls p)
      + callSum (fun c => ψ c.from_ * pt a c.to_) (netCalls p) = 0) :
    wsum ψ (adjOf g a) = 0 := by
  have h1 := flows_wsum_le (validCalls_net hp) h a ha ψ hψ
  have h2 := wsum_adj_nonneg ψ (netFlows_nonNeg hp h) hψ a
  omega

/-- Conservation at a driver: the flow to its requests is the flow that
enters it. -/
theorem flowOn_supply {p : RideShareAssignment} (hp : Configured p) {x : Int} {g : Graph}
    (h : NetFlows p x g) {i : Nat} (hi : i < p.num_drivers) :
    ∑ j in Finset.range p.num_requests, flowOn p g i j = flowIn g i := by
  have hout := flows_outCap_built (validCalls_net hp) h (1 + i)
  rw [eval_out_d hp hi, if_neg (by omega), if_neg (by omega)] at hout
  have hdec : ∀ w, (1 : Int) = pt 0 w +
      ((∑ j in Finset.range p.num_requests, pt (1 + p.num_drivers + j) w) + restD p w) := by
    intro w
    rw [pt_sum]
    unfold pt restD
    split_ifs <;> first | rfl | omega
  have h1 : outCap g (1 + i) = wsum (fun w => pt 0 w +
      ((∑ j in Finset.range p.num_requests, pt (1 + p.num_drivers + j) w) + restD p w))
      (adjOf g (1 + i)) := by
    unfold outCap
    rw [← wsum_one]
    exact wsum_congr _ _ _ hdec
  rw [wsum_add, wsum_add, wsum_sum] at h1
  have hrest : wsum (restD p) (adjOf g (1 + i)) = 0 :=
    wsum_zero_of_eval hp h (1 + i) (by omega) (restD p)
      (fun w => by unfold restD; split <;> simp) (eval_rest_d hp hi)
  have hpair : ∀ j ∈ Finset.range p.num_requests,
      wsum (pt (1 + p.num_drivers + j)) (adjOf g (1 + i)) =
        (if p.feasible i j then 1 else 0) - flowOn p g i j := by
    intro j hj
    have := flowOn_pair hp h hi (Finset.mem_range.mp hj)
    omega
  rw [Finset.sum_congr rfl hpair, Finset.sum_sub_distrib, hrest] at h1
  unfold flowIn
  unfold feasCount at hout
  omega

theorem flowIn_le {p : RideShareAssignment} (hp : Configured p) {x : Int} {g : Graph}
    (h : NetFlows p x g) {i : Nat} (hi : i < p.num_drivers) :
    flowIn g i + wsum (pt (1 + i)) (adjOf g 0) = p.capacity i := by
  have h1 := flows_wsum_pair (validCalls_net hp) h 0 (1 + i) (by omega) (by omega)
  rw [eval_pair_sd hp hi] at h1
  unfold flowIn
  omega

/-- C2, supply side: the flow that leaves a driver is at most its capacity. -/
theorem flowOn_supply_le {p : RideShareAssignment} (hp : Configured p) {x : Int} {g : Graph}
    (h : NetFlows p x g) {i : Nat} (hi : i < p.num_drivers) :
    ∑ j in Finset.range p.num_requests, flowOn p g i j ≤ p.capacity i := by
  rw [flowOn_supply hp h hi]
  have h1 := flowIn_le hp h hi
  have h2 := wsum_adj_nonneg (pt (1 + i)) (netFlows_nonNeg hp h) (pt_nonneg _) 0
  omega

theorem flowOn_demand_le {p : RideShareAssignment} (hp : Configured p) {x : Int} {g : Graph}
    (h : NetFlows p x g) {j : Nat} (hj : j < p.num_requests) :
    ∑ i in Finset.range p.num_drivers, flowOn p g i j ≤ 1 := by
  have hout := flows_outCap_built (validCalls_net hp) h (1 + p.num_drivers + j)
  rw [eval_out_r hp hj, if_neg (by omega), if_neg (by omega)] at hout
  unfold flowOn
  rw [← wsum_sum]
  have h1 : wsum (fun w => ∑ i in Finset.range p.num_drivers, pt (1 + i) w)
      (adjOf g (1 + p.num_drivers + j)) ≤ wsum (fun _ => 1) (adjOf g (1 + p.num_drivers + j)) := by
    apply wsum_mono
    · intro w
      rw [pt_sum]
      split <;> simp
    · intro e he
      obtain ⟨k, hk⟩ := mem_adjOf he
      exact netFlows_nonNeg hp h _ k e hk
  rw [wsum_one] at h1
  unfold outCap at hout
  omega

/-- The flow that enters the drivers is the value of the flow. -/
theorem flowIn_total {p : RideShareAssignment} (hp : Configured p) {x : Int} {g : Graph}
    (h : NetFlows p x g) : ∑ i in Finset.range p.num_drivers, flowIn g i = x := by
  have hout := flows_outCap_built (validCalls_net hp) h 0
  rw [eval_out_s hp, if_pos rfl, if_neg (by omega)] at hout
  have hdec : ∀ w, (1 : Int) =
      (∑ i in Finset.range p.num_drivers, pt (1 + i) w) + restS p w := by
    intro w
    rw [pt_sum]
    unfold restS
    split_ifs <;> rfl
  have h1 : outCap g 0 = wsum (fun w =>
      (∑ i in Finset.range p.num_drivers, pt (1 + i) w) + restS p w) (adjOf g 0) := by
    unfold outCap
    rw [← wsum_one]
    exact wsum_congr _ _ _ hdec
  rw [wsum_add, wsum_sum] at h1
  have hrest : wsum (restS p) (adjOf g 0) = 0 :=
    wsum_zero_of_eval hp h 0 (by omega) (restS p)
      (fun w => by unfold restS; split <;> simp) (eval_rest_s hp)
  have hpair : ∀ i ∈ Finset.range p.num_drivers,
      wsum (pt (1 + i)) (adjOf g 0) = p.capacity i - flowIn g i := by
    intro i hi
    have := flowIn_le hp h (Finset.mem_range.mp hi)
    omega
  rw [Finset.sum_congr rfl hpair, Finset.sum_sub_distrib, hrest] at h1
  omega

theorem flowOn_total {p : RideShareAssignment} (hp : Configured p) {x : Int} {g : Graph}
    (h : NetFlows p x g) :
    ∑ i in Finset.range p.num_drivers, ∑ j in Finset.range p.num_requests, flowOn p g i j = x := by
  rw [← flowIn_total hp h]
  apply Finset.sum_congr rfl
  intro i hi
  exact flowOn_supply hp h (Finset.mem_range.mp hi)

/-- In the network of the instance `get_flow` on a feasible pair reads the
flow on the edge of that pair. -/
theorem get_flow_net {p : RideShareAssignment} (hp : Configured p) {x : Int} {mf : MaxFlow}
    (h : NetFlows p x mf.graph) {i j : Nat} (hi : i < p.num_drivers) (hj : j < p.num_requests)
    (hf : p.feasible i j = true) :
    mf.get_flow (1 + i) (1 + p.num_drivers + j) = flowOn p mf.graph i j := by
  have hv := validCalls_net hp
  have hsh : SameShape (netGraph p) mf.graph := flows_sameShape h
  have hempty : ∀ (ψ : Nat → Int) (w : Nat),
      cntW ψ (adjOf (List.replicate (p.num_drivers + p.num_requests + 2) ([] : List Edge)) w) = 0 := by
    intro ψ w
    have : adjOf (List.replicate (p.num_drivers + p.num_requests + 2) ([] : List Edge)) w = [] := by
      unfold adjOf
      rw [List.getElem?_replicate]
      split <;> rfl
    rw [this]
    rfl
  obtain ⟨c1, c2⟩ := eval_cnt hp hi hj
  rw [if_pos hf] at c1 c2
  have k1 : cntW (pt (1 + i)) (adjOf mf.graph (1 + p.num_drivers + j)) = 1 := by
    rw [cntW_sameShape _ hsh]
    unfold netGraph
    rw [cntW_buildG _ _ hv _ _ (by simp), hempty, c1]
    rfl
  have k2 : cntW (pt (1 + p.num_drivers + j)) (adjOf mf.graph (1 + i)) = 1 := by
    rw [cntW_sameShape _ hsh]
    unfold netGraph
    rw [cntW_buildG _ _ hv _ _ (by simp), hempty, c2]
    rfl
  obtain ⟨re, hre, hcap⟩ := find_of_cntW_one _ _ k1
  unfold MaxFlow.get_flow
  rw [getFlowLoop_eq mf.graph _ _ re hre _ (exists_of_cntW_one _ _ k2), hcap]
  rfl

/-! ## The assignment list of `solve` -/

theorem foldl_append_flatMap {α β : Type} (F : α → List β) (l : List α) :
    ∀ acc : List β, l.foldl (fun acc x => acc ++ F x) acc = acc ++ l.flatMap F := by
  induction l with
  | nil => intro acc; simp
  | cons x l ih =>
    intro acc
    rw [List.foldl_cons, ih, List.flatMap_cons, List.append_assoc]

theorem extract_eq (p : RideShareAssignment) (mf : MaxFlow) :
    p.extract mf = pairList p.num_drivers p.num_requests (selected p mf) := by
  unfold RideShareAssignment.extract pairList
  have hin : ∀ (i : Nat) (acc : List (Nat × Nat)), (List.range p.num_requests).foldl
      (fun acc j =>
        if p.feasible i j then
          if mf.get_flow (p.driver_offset + i) (p.request_offset + j) > 0 then acc ++ [(i, j)]
          else acc
        else acc) acc =
      acc ++ (List.range p.num_requests).flatMap (fun j =>
        if selected p mf i j then [(i, j)] else []) := by
    intro i acc
    rw [← foldl_append_flatMap]
    congr 1
    funext acc j
    unfold selected
    by_cases h1 : p.feasible i j = true
    · by_cases h2 : mf.get_flow (p.driver_offset + i) (p.request_offset + j) > 0
      · simp [h1, h2]
      · simp [h1, h2]
    · simp [h1]
  simp only [hin]
  rw [foldl_append_flatMap]
  simp

theorem countP_pairRow (n i : Nat) (c : Nat → Bool) (q : Nat × Nat → Bool) :
    (((List.range n).flatMap (fun j => if c j then [(i, j)] else [])).countP q : Int) =
      ∑ j in Finset.range n, if c j = true ∧ q (i, j) = true then 1 else 0 := by
  induction n with
  | zero => simp
  | succ n ih =>
    rw [List.range_succ, List.flatMap_append, List.countP_append, Finset.sum_range_succ]
    push_cast
    rw [ih]
    congr 1
    by_cases h1 : c n = true
    · by_cases h2 : q (i, n) = true
      · simp [h1, h2]
      · simp [h1, h2]
    · simp [h1]

theorem countP_pairList (m n : Nat) (c : Nat → Nat → Bool) (q : Nat × Nat → Bool) :
    ((pairList m n c).countP q : Int) =
      ∑ i in Finset.range m, ∑ j in Finset.range n,
        if c i j = true ∧ q (i, j) = true then 1 else 0 := by
  unfold pairList
  induction m with
  | zero => simp
  | succ m ih =>
    rw [List.range_succ, List.flatMap_append, List.countP_append, Finset.sum_range_succ]
    push_cast
    rw [ih]
    congr 1
    simp only [List.flatMap_cons, List.flatMap_nil, List.append_nil]
    exact countP_pairRow n m (c m) q

theorem length_pairList (m n : Nat) (c : Nat → Nat → Bool) :
    ((pairList m n c).length : Int) =
      ∑ i in Finset.range m, ∑ j in Finset.range n, if c i j = true then 1 else 0 := by
  have h := countP_pairList m n c (fun _ => true)
  simp only [and_true] at h
  rw [← h]
  simp

theorem mem_pairList {m n : Nat} {c : Nat → Nat → Bool} {pr : Nat × Nat}
    (h : pr ∈ pairList m n c) : pr.1 < m ∧ pr.2 < n ∧ c pr.1 pr.2 = true := by
  unfold pairList at h
  simp only [List.mem_flatMap, List.mem_range] at h
  obtain ⟨i, hi, j, hj, hpr⟩ := h
  split at hpr
  · next hc =>
    simp only [List.mem_singleton] at hpr
    subst hpr
    exact ⟨hi, hj, hc⟩
  · simp at hpr

theorem sum2_indicator_le_one (m n a b : Nat) (P : Nat → Nat → Prop)
    [∀ i j, Decidable (P i j)] :
    (∑ i in Finset.range m, ∑ j in Finset.range n,
      if P i j ∧ (i, j) = (a, b) then (1 : Int) else 0) ≤ 1 := by
  by_cases hab : a < m ∧ b < n
  · rw [sum2_single m n a b hab.1 hab.2]
    · split <;> simp
    · intro i j _ _ hne
      rw [if_neg]
      intro h
      simp only [Prod.mk.injEq] at h
      omega
  · have : (∑ i in Finset.range m, ∑ j in Finset.range n,
        if P i j ∧ (i, j) = (a, b) then (1 : Int) else 0) = 0 := by
      apply Finset.sum_eq_zero
      intro i hi
      apply Finset.sum_eq_zero
      intro j hj
      rw [if_neg]
      intro h
      simp only [Prod.mk.injEq] at h
      have := Finset.mem_range.mp hi
      have := Finset.mem_range.mp hj
      omega
    rw [this]
    simp

theorem nodup_of_countP {l : List (Nat × Nat)}
    (h : ∀ pr, List.countP (fun x => decide (x = pr)) l ≤ 1) : l.Nodup := by
  rw [List.nodup_iff_count_le_one]
  intro pr
  unfold List.count
  have hc : ∀ (q : Nat × Nat → Bool), (∀ x, q x = decide (x = pr)) →
      List.countP q l = List.countP (fun x => decide (x = pr)) l := by
    intro q hq
    have : q = fun x => decide (x = pr) := funext hq
    rw [this]
  refine le_of_eq_of_le (hc _ ?_) (h pr)
  intro x
  rfl

theorem nodup_pairList (m n : Nat) (c : Nat → Nat → Bool) : (pairList m n c).Nodup := by
  apply nodup_of_countP
  intro pr
  have h := countP_pairList m n c (fun x => decide (x = pr))
  have h2 := sum2_indicator_le_one m n pr.1 pr.2 (fun i j => c i j = true)
  have h3 : (∑ i in Finset.range m, ∑ j in Finset.range n,
      if c i j = true ∧ decide ((i, j) = pr) = true then (1 : Int) else 0) =
      ∑ i in Finset.range m, ∑ j in Finset.range n,
      if c i j = true ∧ (i, j) = (pr.1, pr.2) then (1 : Int) else 0 := by
    apply Finset.sum_congr rfl
    intro i _
    apply Finset.sum_congr rfl
    intro j _
    simp
  rw [h3] at h
  omega

/-! ## No assignment is larger than a cut of the network -/

theorem ind_cases (X : Nat → Bool) (w : Nat) : ind X w = 0 ∨ ind X w = 1 := by
  unfold ind
  split <;> simp

theorem cutCap_net (X : Nat → Bool) {p : RideShareAssignment} (hp : Configured p)
    (hs : X 0 = true) (ht : X (1 + p.num_drivers + p.num_requests) = false) :
    cutCap X (netCalls p) =
      (∑ i in Finset.range p.num_drivers, (1 - ind X (1 + i)) * p.capacity i)
      + (∑ i in Finset.range p.num_drivers, ∑ j in Finset.range p.num_requests,
          if p.feasible i j then ind X (1 + i) * (1 - ind X (1 + p.num_drivers + j)) else 0)
      + (∑ j in Finset.range p.num_requests, ind X (1 + p.num_drivers + j)) := by
  rw [cutCap_eq, netSum_from _ hp, netSum _ _ hp]
  have h0 : ind X 0 = 1 := by simp [ind, hs]
  have h1 : ind X (1 + p.num_drivers + p.num_requests) = 0 := by simp [ind, ht]
  simp only [h0, h1, one_mul, mul_zero, Finset.sum_const_zero, add_zero]
  have t1 : (∑ i in Finset.range p.num_drivers, (1 - ind X (1 + i)) * p.capacity i) =
      (∑ i in Finset.range p.num_drivers, p.capacity i)
        - ∑ i in Finset.range p.num_drivers, ind X (1 + i) * p.capacity i := by
    rw [← Finset.sum_sub_distrib]
    apply Finset.sum_congr rfl
    intro i _
    ring
  have t2 : (∑ i in Finset.range p.num_drivers, ∑ j in Finset.range p.num_requests,
        if p.feasible i j then ind X (1 + i) * (1 - ind X (1 + p.num_drivers + j)) else 0) =
      (∑ i in Finset.range p.num_drivers, ∑ j in Finset.range p.num_requests,
        if p.feasible i j then ind X (1 + i) else 0)
      - ∑ i in Finset.range p.num_drivers, ∑ j in Finset.range p.num_requests,
        if p.feasible i j then ind X (1 + i) * ind X (1 + p.num_drivers + j) else 0 := by
    rw [← Finset.sum_sub_distrib]
    apply Finset.sum_congr rfl
    intro i _
    rw [← Finset.sum_sub_distrib]
    apply Finset.sum_congr rfl
    intro j _
    split <;> ring
  rw [t1, t2]
  ring

theorem sum_fiber_fst (m : Nat) (S : Finset (Nat × Nat)) (f : Nat → Int)
    (hS : ∀ pr ∈ S, pr.1 < m) :
    ∑ pr in S, f pr.1 = ∑ i in Finset.range m, ((S.filter (fun pr => pr.1 = i)).card : Int) * f i := by
  rw [← Finset.sum_fiberwise_of_maps_to (g := fun pr : Nat × Nat => pr.1)
    (fun pr hpr => Finset.mem_range.mpr (hS pr hpr))]
  apply Finset.sum_congr rfl
  intro i _
  rw [Finset.sum_congr rfl (fun pr hpr => by rw [(Finset.mem_filter.mp hpr).2]),
    Finset.sum_const, nsmul_eq_mul]

theorem sum_fiber_snd (n : Nat) (S : Finset (Nat × Nat)) (f : Nat → Int)
    (hS : ∀ pr ∈ S, pr.2 < n) :
    ∑ pr in S, f pr.2 = ∑ j in Finset.range n, ((S.filter (fun pr => pr.2 = j)).card : Int) * f j := by
  rw [← Finset.sum_fiberwise_of_maps_to (g := fun pr : Nat × Nat => pr.2)
    (fun pr hpr => Finset.mem_range.mpr (hS pr hpr))]
  apply Finset.sum_congr rfl
  intro j _
  rw [Finset.sum_congr rfl (fun pr hpr => by rw [(Finset.mem_filter.mp hpr).2]),
    Finset.sum_const, nsmul_eq_mul]

theorem assignment_le_cut (X : Nat → Bool) {p : RideShareAssignment} (hp : Configured p)
    (hs : X 0 = true) (ht : X (1 + p.num_drivers + p.num_requests) = false)
    (S : Finset (Nat × Nat)) (hS : ValidAssignment p S) :
    (S.card : Int) ≤ cutCap X (netCalls p) := by
  rw [cutCap_net X hp hs ht]
  have step1 : (S.card : Int) ≤ ∑ pr in S, ((1 - ind X (1 + pr.1))
      + ((if p.feasible pr.1 pr.2 then
          ind X (1 + pr.1) * (1 - ind X (1 + p.num_drivers + pr.2)) else 0)
        + ind X (1 + p.num_drivers + pr.2))) := by
    rw [Finset.card_eq_sum_ones, Nat.cast_sum]
    apply Finset.sum_le_sum
    intro pr hpr
    rw [if_pos (hS.feasible pr hpr).2.2]
    rcases ind_cases X (1 + pr.1) with h1 | h1 <;>
      rcases ind_cases X (1 + p.num_drivers + pr.2) with h2 | h2 <;>
      rw [h1, h2] <;> simp
  rw [Finset.sum_add_distrib, Finset.sum_add_distrib] at step1
  have a1 : ∑ pr in S, (1 - ind X (1 + pr.1)) ≤
      ∑ i in Finset.range p.num_drivers, (1 - ind X (1 + i)) * p.capacity i := by
    rw [sum_fiber_fst p.num_drivers S (fun i => 1 - ind X (1 + i))
      (fun pr hpr => (hS.feasible pr hpr).1)]
    apply Finset.sum_le_sum
    intro i hi
    have h1 := hS.supply i (Finset.mem_range.mp hi)
    rcases ind_cases X (1 + i) with h2 | h2 <;> rw [h2] <;> simp <;> omega
  have a3 : ∑ pr in S, ind X (1 + p.num_drivers + pr.2) ≤
      ∑ j in Finset.range p.num_requests, ind X (1 + p.num_drivers + j) := by
    rw [sum_fiber_snd p.num_requests S (fun j => ind X (1 + p.num_drivers + j))
      (fun pr hpr => (hS.feasible pr hpr).2.1)]
    apply Finset.sum_le_sum
    intro j hj
    have h1 := hS.demand j (Finset.mem_range.mp hj)
    have h3 : ((S.filter (fun pr => pr.2 = j)).card : Int) ≤ 1 := by exact_mod_cast h1
    have h4 : (0 : Int) ≤ ((S.filter (fun pr => pr.2 = j)).card : Int) := Int.natCast_nonneg _
    rcases ind_cases X (1 + p.num_drivers + j) with h2 | h2 <;> rw [h2] <;> simp <;> omega
  have a2 : ∑ pr in S, (if p.feasible pr.1 pr.2 then
        ind X (1 + pr.1) * (1 - ind X (1 + p.num_drivers + pr.2)) else 0) ≤
      ∑ i in Finset.range p.num_drivers, ∑ j in Finset.range p.num_requests,
        if p.feasible i j then ind X (1 + i) * (1 - ind X (1 + p.num_drivers + j)) else 0 := by
    rw [← Finset.sum_product (Finset.range p.num_drivers) (Finset.range p.num_requests)
      (fun pr => if p.feasible pr.1 pr.2 then
        ind X (1 + pr.1) * (1 - ind X (1 + p.num_drivers + pr.2)) else 0)]
    apply Finset.sum_le_sum_of_subset_of_nonneg
    · intro pr hpr
      rw [Finset.mem_product, Finset.mem_range, Finset.mem_range]
      exact ⟨(hS.feasible pr hpr).1, (hS.feasible pr hpr).2.1⟩
    · intro pr _ _
      split
      · rcases ind_cases X (1 + pr.1) with h1 | h1 <;>
          rcases ind_cases X (1 + p.num_drivers + pr.2) with h2 | h2 <;>
          rw [h1, h2] <;> simp
      · exact le_refl _
  omega

/-! ## The assignment model: the claims about `solve` -/

theorem solve_unfold {p : RideShareAssignment} (hp : Configured p) (fuel : Nat) :
    p.solve fuel =
      match (MaxFlow.built (p.num_drivers + p.num_requests + 2) (netCalls p)).max_flow fuel 0
          (1 + p.num_drivers + p.num_requests) with
      | none => none
      | some (v, mf1) =>
        some ((v, pairList p.num_drivers p.num_requests (selected p mf1)),
          { p with flow_graph := some mf1 }) := by
  unfold RideShareAssignment.solve
  simp only [hp.fresh, Option.isNone_none, if_true]
  rw [build_flow_network_eq]
  simp only [hp.source_eq, hp.sink_eq]
  cases (MaxFlow.built (p.num_drivers + p.num_requests + 2) (netCalls p)).max_flow fuel 0
      (1 + p.num_drivers + p.num_requests) with
  | none => rfl
  | some r =>
    obtain ⟨v, mf1⟩ := r
    simp only [extract_eq]
    rfl

theorem solve_halts {p : RideShareAssignment} (hp : Configured p) :
    ∃ N r, ∀ fuel, N ≤ fuel → p.solve fuel = some r := by
  obtain ⟨hwf, hlen⟩ := built_wf (validCalls_net hp)
  obtain ⟨N, ⟨v, mf1⟩, hN⟩ := max_flow_halts (t := 1 + p.num_drivers + p.num_requests) hwf
    (s := 0) (by rw [hlen]; omega) (by omega)
  refine ⟨N, ((v, pairList p.num_drivers p.num_requests (selected p mf1)),
    { p with flow_graph := some mf1 }), fun fuel hf => ?_⟩
  rw [solve_unfold hp, hN fuel hf]

/-- What a returned `solve` stands for: a run of `max_flow` on the network
of the instance, from which the assignment list is read. -/
theorem solve_spec {p : RideShareAssignment} (hp : Configured p) {fuel : Nat} {v : Int}
    {A : List (Nat × Nat)} {q : RideShareAssignment} (h : p.solve fuel = some ((v, A), q)) :
    ∃ mf1, Final 0 (1 + p.num_drivers + p.num_requests) mf1 ∧ NetFlows p v mf1.graph ∧
      A = pairList p.num_drivers p.num_requests (selected p mf1) := by
  rw [solve_unfold hp] at h
  split at h
  · simp at h
  · next v1 mf1 hmf =>
    simp only [Option.some.injEq, Prod.mk.injEq] at h
    obtain ⟨⟨h1, h2⟩, _⟩ := h
    subst h1
    obtain ⟨hwf, hlen⟩ := built_wf (validCalls_net hp)
    obtain ⟨hfin, _, hflows⟩ := max_flow_spec hwf (by rw [hlen]; omega) hmf
    rw [built_graph] at hflows
    exact ⟨mf1, hfin, hflows, h2.symm⟩

theorem selected_eq_flowOn {p : RideShareAssignment} (hp : Configured p) {x : Int}
    {mf : MaxFlow} (h : NetFlows p x mf.graph) {i j : Nat} (hi : i < p.num_drivers)
    (hj : j < p.num_requests) :
    (if selected p mf i j = true then (1 : Int) else 0) = flowOn p mf.graph i j := by
  obtain ⟨h1, h2⟩ := flowOn_bounds hp h hi hj
  unfold selected
  rw [hp.driver_eq, hp.request_eq]
  by_cases hf : p.feasible i j = true
  · rw [get_flow_net hp h hi hj hf]
    rw [if_pos hf] at h2
    by_cases hpos : flowOn p mf.graph i j > 0
    · simp only [hf, hpos, decide_True, Bool.and_self, if_true]
      omega
    · simp only [hf, hpos, decide_False, Bool.and_false, Bool.false_eq_true, if_false]
      omega
  · rw [if_neg hf] at h2
    simp only [hf, Bool.false_and, Bool.false_eq_true, if_false]
    omega

theorem sum_selected_row {p : RideShareAssignment} (hp : Configured p) {x : Int}
    {mf : MaxFlow} (h : NetFlows p x mf.graph) {i : Nat} (hi : i < p.num_drivers) :
    (∑ j in Finset.range p.num_requests, if selected p mf i j = true then (1 : Int) else 0) =
      ∑ j in Finset.range p.num_requests, flowOn p mf.graph i j :=
  Finset.sum_congr rfl (fun _ hj => selected_eq_flowOn hp h hi (Finset.mem_range.mp hj))

theorem length_assignments {p : RideShareAssignment} (hp : Configured p) {x : Int}
    {mf : MaxFlow} (h : NetFlows p x mf.graph) :
    ((pairList p.num_drivers p.num_requests (selected p mf)).length : Int) = x := by
  rw [length_pairList, ← flowOn_total hp h]
  exact Finset.sum_congr rfl (fun _ hi => sum_selected_row hp h (Finset.mem_range.mp hi))

theorem count_supply {p : RideShareAssignment} (hp : Configured p) {x : Int}
    {mf : MaxFlow} (h : NetFlows p x mf.graph) {i : Nat} (hi : i < p.num_drivers) :
    (((pairList p.num_drivers p.num_requests (selected p mf)).filter
      (fun pr => decide (pr.1 = i))).length : Int) ≤ p.capacity i := by
  rw [← List.countP_eq_length_filter, countP_pairList,
    sum1_single p.num_drivers i hi]
  · have h1 : (∑ j in Finset.range p.num_requests,
        if selected p mf i j = true ∧ decide ((i, j).1 = i) = true then (1 : Int) else 0) =
        ∑ j in Finset.range p.num_requests, if selected p mf i j = true then (1 : Int) else 0 := by
      apply Finset.sum_congr rfl
      intro j _
      simp
    rw [h1, sum_selected_row hp h hi]
    exact flowOn_supply_le hp h hi
  · intro a _ hne
    apply Finset.sum_eq_zero
    intro j _
    rw [if_neg]
    simp [hne]

theorem count_demand {p : RideShareAssignment} (hp : Configured p) {x : Int}
    {mf : MaxFlow} (h : NetFlows p x mf.graph) (j : Nat) :
    (((pairList p.num_drivers p.num_requests (selected p mf)).filter
      (fun pr => decide (pr.2 = j))).length : Int) ≤ 1 := by
  rw [← List.countP_eq_length_filter, countP_pairList]
  by_cases hj : j < p.num_requests
  · have h1 : ∀ i ∈ Finset.range p.num_drivers, (∑ k in Finset.range p.num_requests,
        if selected p mf i k = true ∧ decide ((i, k).2 = j) = true then (1 : Int) else 0) =
        flowOn p mf.graph i j := by
      intro i hi
      rw [sum1_single p.num_requests j hj]
      · rw [← selected_eq_flowOn hp h (Finset.mem_range.mp hi) hj]
        simp
      · intro a _ hne
        rw [if_neg]
        simp [hne]
    rw [Finset.sum_congr rfl h1]
    exact flowOn_demand_le hp h hj
  · have h1 : (∑ i in Finset.range p.num_drivers, ∑ k in Finset.range p.num_requests,
        if selected p mf i k = true ∧ decide ((i, k).2 = j) = true then (1 : Int) else 0) = 0 := by
      apply Finset.sum_eq_zero
      intro i _
      apply Finset.sum_eq_zero
      intro k hk
      have := Finset.mem_range.mp hk
      rw [if_neg]
      simp only [decide_eq_true_eq, not_and]
      intro _
      omega
    rw [h1]
    simp

theorem valid_assignments {p : RideShareAssignment} (hp : Configured p) {x : Int}
    {mf : MaxFlow} (h : NetFlows p x mf.graph) :
    ValidAssignment p (pairList p.num_drivers p.num_requests (selected p mf)).toFinset ∧
    (((pairList p.num_drivers p.num_requests (selected p mf)).toFinset.card : Nat) : Int) = x := by
  have hnd := nodup_pairList p.num_drivers p.num_requests (selected p mf)
  have hcard : ∀ q : Nat × Nat → Bool,
      ((pairList p.num_drivers p.num_requests (selected p mf)).toFinset.filter (fun pr => q pr = true)).card =
        ((pairList p.num_drivers p.num_requests (selected p mf)).filter q).length := by
    intro q
    rw [← List.toFinset_filter, List.toFinset_card_of_nodup (hnd.filter q)]
  refine ⟨⟨?_, ?_, ?_⟩, ?_⟩
  · intro pr hpr
    obtain ⟨h1, h2, h3⟩ := mem_pairList (List.mem_toFinset.mp hpr)
    refine ⟨h1, h2, ?_⟩
    unfold selected at h3
    simp only [Bool.and_eq_true] at h3
    exact h3.1
  · intro i hi
    have h1 := hcard (fun pr => decide (pr.1 = i))
    simp only [decide_eq_true_eq] at h1
    rw [h1]
    exact count_supply hp h hi
  · intro j _
    have h1 := hcard (fun pr => decide (pr.2 = j))
    simp only [decide_eq_true_eq] at h1
    rw [h1]
    have := count_demand hp h j
    omega
  · rw [List.toFinset_card_of_nodup hnd]
    exact length_assignments hp h

theorem assignment_le_flow {p : RideShareAssignment} (hp : Configured p) {x : Int}
    {mf : MaxFlow} (hfin : Final 0 (1 + p.num_drivers + p.num_requests) mf)
    (h : NetFlows p x mf.graph) (S : Finset (Nat × Nat)) (hS : ValidAssignment p S) :
    (S.card : Int) ≤ x := by
  obtain ⟨c1, c2, c3⟩ := final_cut hfin
  have h1 := flows_eq_cut (validCalls_net hp) (by omega) (by omega) h (labelled mf.level) c1 c2 c3
  rw [h1]
  exact assignment_le_cut (labelled mf.level) hp c1 c2 S hS

/-! ## The configuration methods keep an object configured -/

theorem configured_new (m n : Nat) : Configured (RideShareAssignment.new m n) := by
  refine ⟨rfl, rfl, rfl, rfl, ?_, rfl⟩
  intro i hi
  have h : (List.replicate m (1 : Int))[i]? = some 1 := by
    rw [List.getElem?_replicate]
    exact if_pos hi
  simp only [RideShareAssignment.capacity, RideShareAssignment.new, h, Option.getD_some]
  decide

theorem configured_set_driver_capacity {p : RideShareAssignment} (hp : Configured p)
    (driver_id : Nat) (capacity : Int) (hc : 0 ≤ capacity) :
    Configured (p.set_driver_capacity driver_id capacity) := by
  refine ⟨hp.source_eq, hp.driver_eq, hp.request_eq, hp.sink_eq, ?_, hp.fresh⟩
  intro i hi
  have h1 := hp.cap_nonneg i hi
  unfold RideShareAssignment.capacity at h1 ⊢
  unfold RideShareAssignment.set_driver_capacity
  simp only
  rw [List.getElem?_set]
  split
  · split
    · exact hc
    · decide
  · exact h1

theorem configured_add_feasible_assignment {p : RideShareAssignment} (hp : Configured p)
    (driver_id request_id : Nat) : Configured (p.add_feasible_assignment driver_id request_id) :=
  ⟨hp.source_eq, hp.driver_eq, hp.request_eq, hp.sink_eq, hp.cap_nonneg, hp.fresh⟩

theorem configured_demo : Configured demoInstance :=
  ⟨rfl, rfl, rfl, rfl, by decide, rfl⟩

/-- C1.  On a configured object with non-negative capacities the first
`solve()` returns, and the flow value it returns is the maximum cardinality
of a set of feasible pairs in which every driver `i` occurs in at most
`driver_capacities[i]` pairs and every request in at most one pair: some
such set has that many elements and none has more. -/
theorem solve_maximum (p : RideShareAssignment) (hp : Configured p) :
    (∃ fuel r, p.solve fuel = some r) ∧
    ∀ fuel v A q, p.solve fuel = some ((v, A), q) →
      (∃ S, ValidAssignment p S ∧ (S.card : Int) = v) ∧
      ∀ S, ValidAssignment p S → (S.card : Int) ≤ v := by
  constructor
  · obtain ⟨N, r, hN⟩ := solve_halts hp
    exact ⟨N, r, hN N (le_refl _)⟩
  · intro fuel v A q h
    obtain ⟨mf1, hfin, hflows, _⟩ := solve_spec hp h
    obtain ⟨h1, h2⟩ := valid_assignments hp hflows
    exact ⟨⟨_, h1, h2⟩, fun S hS => assignment_le_flow hp hfin hflows S hS⟩

theorem solve_maximum_witness :
    Configured demoInstance ∧
    ((∃ fuel r, demoInstance.solve fuel = some r) ∧
    ∀ fuel v A q, demoInstance.solve fuel = some ((v, A), q) →
      (∃ S, ValidAssignment demoInstance S ∧ (S.card : Int) = v) ∧
      ∀ S, ValidAssignment demoInstance S → (S.card : Int) ≤ v) :=
  ⟨configured_demo, solve_maximum demoInstance configured_demo⟩

/-- C2.  On a configured object with non-negative capacities the first
`solve()` returns, and in the assignment list it returns every driver `i`
appears in at most `driver_capacities[i]` pairs and every request in at most
one pair; every pair of the list is a feasible pair of the instance. -/
theorem solve_respects_capacities (p : RideShareAssignment) (hp : Configured p) :
    (∃ fuel r, p.solve fuel = some r) ∧
    ∀ fuel v A q, p.solve fuel = some ((v, A), q) →
      (∀ i, i < p.num_drivers →
        ((A.filter (fun pr => decide (pr.1 = i))).length : Int) ≤ p.capacity i) ∧
      (∀ j, (A.filter (fun pr => decide (pr.2 = j))).length ≤ 1) ∧
      (∀ pr ∈ A, pr.1 < p.num_drivers ∧ pr.2 < p.num_requests ∧ p.feasible pr.1 pr.2 = true) := by
  constructor
  · obtain ⟨N, r, hN⟩ := solve_halts hp
    exact ⟨N, r, hN N (le_refl _)⟩
  · intro fuel v A q h
    obtain ⟨mf1, _, hflows, hA⟩ := solve_spec hp h
    subst hA
    refine ⟨fun i hi => count_supply hp hflows hi, fun j => ?_, fun pr hpr => ?_⟩
    · have := count_demand hp hflows j
      omega
    · obtain ⟨h1, h2, h3⟩ := mem_pairList hpr
      refine ⟨h1, h2, ?_⟩
      unfold selected at h3
      simp only [Bool.and_eq_true] at h3
      exact h3.1

theorem solve_respects_capacities_witness :
    Configured demoInstance ∧
    ((∃ fuel r, demoInstance.solve fuel = some r) ∧
    ∀ fuel v A q, demoInstance.solve fuel = some ((v, A), q) →
      (∀ i, i < demoInstance.num_drivers →
        ((A.filter (fun pr => decide (pr.1 = i))).length : Int) ≤ demoInstance.capacity i) ∧
      (∀ j, (A.filter (fun pr => decide (pr.2 = j))).length ≤ 1) ∧
      (∀ pr ∈ A, pr.1 < demoInstance.num_drivers ∧ pr.2 < demoInstance.num_requests ∧
        demoInstance.feasible pr.1 pr.2 = true)) :=
  ⟨configured_demo, solve_respects_capacities demoInstance configured_demo⟩

/-- C3.  On a configured object with non-negative capacities the first
`solve()` returns, and the length of the assignment list it returns equals
the flow value it returns. -/
theorem solve_count_eq_flow (p : RideShareAssignment) (hp : Configured p) :
    (∃ fuel r, p.solve fuel = some r) ∧
    ∀ fuel v A q, p.solve fuel = some ((v, A), q) → (A.length : Int) = v := by
  constructor
  · obtain ⟨N, r, hN⟩ := solve_halts hp
    exact ⟨N, r, hN N (le_refl _)⟩
  · intro fuel v A q h
    obtain ⟨mf1, _, hflows, hA⟩ := solve_spec hp h
    subst hA
    exact length_assignments hp hflows

theorem solve_count_eq_flow_witness :
    Configured demoInstance ∧
    ((∃ fuel r, demoInstance.solve fuel = some r) ∧
    ∀ fuel v A q, demoInstance.solve fuel = some ((v, A), q) → (A.length : Int) = v) :=
  ⟨configured_demo, solve_count_eq_flow demoInstance configured_demo⟩

/-! ## Flows on the inserted edges -/

theorem wflow_node_sum (n : Nat) (φ : Nat → Int) (sel : Call → Nat) :
    ∀ (calls : List Call) (fl : List Int), (∀ c ∈ calls, sel c < n) →
    ∑ w in Finset.range n, φ w * wflow (fun c => if sel c = w then 1 else 0) calls fl =
      wflow (fun c => φ (sel c)) calls fl := by
  intro calls
  induction calls with
  | nil => intro fl _; simp [wflow]
  | cons c cs ih =>
    intro fl hsel
    cases fl with
    | nil => simp [wflow]
    | cons f fs =>
      simp only [wflow, mul_add, Finset.sum_add_distrib]
      rw [ih fs (fun x hx => hsel x (List.mem_cons_of_mem _ hx))]
      congr 1
      have h1 : ∀ w, φ w * ((if sel c = w then 1 else 0) * f) =
          φ w * (if w = sel c then f else 0) := by
        intro w
        by_cases h : w = sel c
        · rw [if_pos h, if_pos h.symm]; ring
        · rw [if_neg h, if_neg (fun h2 => h h2.symm)]; ring
      simp only [h1]
      exact sum_range_single n (sel c) (hsel c (List.mem_cons_self _ _)) f φ

theorem wflow_sub (ψ1 ψ2 : Call → Int) : ∀ (calls : List Call) (fl : List Int),
    wflow ψ1 calls fl - wflow ψ2 calls fl = wflow (fun c => ψ1 c - ψ2 c) calls fl := by
  intro calls
  induction calls with
  | nil => intro fl; simp [wflow]
  | cons c cs ih =>
    intro fl
    cases fl with
    | nil => simp [wflow]
    | cons f fs =>
      simp only [wflow]
      rw [← ih fs]
      ring

theorem wflow_le_cut (X : Nat → Bool) {calls : List Call} {fl : List Int}
    (h : List.Forall₂ (fun c f => 0 ≤ f ∧ f ≤ c.cap) calls fl) :
    wflow (fun c => ind X c.from_ - ind X c.to_) calls fl ≤ cutCap X calls := by
  induction h with
  | nil => simp [wflow, cutCap]
  | @cons c f cs fs hcf _ ih =>
    unfold cutCap at ih ⊢
    simp only [wflow]
    rw [List.filter_cons]
    obtain ⟨h0, h1⟩ := hcf
    simp only [ind] at ih ⊢
    cases hx : X c.from_ <;> cases hy : X c.to_ <;> simp [hx, hy] <;> omega

/-- Weak duality: no flow on the inserted edges has a larger value than the
capacity of a cut. -/
theorem flowValue_le_cut {n s t : Nat} {calls : List Call} {fl : List Int}
    (hv : ValidCalls n calls) (hs : s < n) (hfl : FeasibleFlow calls s t fl)
    (X : Nat → Bool) (hXs : X s = true) (hXt : X t = false) :
    flowValue s calls fl ≤ cutCap X calls := by
  have hnet : ∀ w ∈ Finset.range n,
      ind X w * (outflow w calls fl - inflow w calls fl) =
        ind X w * (if w = s then flowValue s calls fl else 0) := by
    intro w _
    by_cases h1 : w = s
    · rw [if_pos h1, h1]
      rfl
    · rw [if_neg h1]
      by_cases h2 : w = t
      · rw [h2]
        simp [ind, hXt]
      · rw [hfl.conserve w h1 h2]
        simp
  have h1 := Finset.sum_congr rfl hnet
  rw [sum_range_single n s hs] at h1
  simp only [mul_sub, Finset.sum_sub_distrib] at h1
  unfold outflow inflow at h1
  rw [wflow_node_sum n (ind X) (fun c => c.from_) calls fl (fun c hc => (hv c hc).1),
    wflow_node_sum n (ind X) (fun c => c.to_) calls fl (fun c hc => (hv c hc).2.1),
    wflow_sub] at h1
  have h2 := wflow_le_cut X hfl.bounds
  have h3 : ind X s = 1 := by simp [ind, hXs]
  rw [h3, one_mul] at h1
  omega

theorem sum_map_index (f : Edge → Int) (l : List Edge) :
    (l.map f).sum = ∑ j in Finset.range l.length, ((l[j]?).map f).getD 0 := by
  induction l with
  | nil => simp
  | cons e l ih =>
    rw [List.map_cons, List.sum_cons, List.length_cons, Finset.sum_range_succ', ih]
    simp only [List.getElem?_cons_succ, List.getElem?_cons_zero, Option.map_some',
      Option.getD_some]
    ring

theorem outCap_eq_sum_capAt (g : Graph) (w : Nat) :
    outCap g w = ∑ j in Finset.range (adjOf g w).length, capAt g w j := by
  unfold outCap capAt edgeAt
  exact sum_map_index Edge.cap _

theorem capAt_nonneg {g : Graph} (hg : NonNeg g) (v i : Nat) : 0 ≤ capAt g v i := by
  unfold capAt
  cases h : edgeAt g v i with
  | none => simp
  | some e => simpa using hg v i e h

theorem slotSum_reindex {n : Nat} (κ : Nat → Int) (w : Nat) (calls : List Call)
    (hv : ValidCalls n calls) : ∀ g : Graph, g.length = n →
      ∑ j in Finset.range (adjOf (buildG g calls) w).length, κ j =
        (∑ j in Finset.range (adjOf g w).length, κ j) + slotSum κ w g calls := by
  induction calls with
  | nil => intro g _; simp [buildG, slotSum]
  | cons c cs ih =>
    intro g hn
    obtain ⟨⟨ha, hb, _⟩, hcs⟩ := validCalls_cons hv
    rw [← hn] at ha hb
    rw [buildG_cons, ih hcs _ ((addEdgeG_length g _ _ _).trans hn)]
    simp only [slotSum]
    rw [adjOf_addEdgeG g _ _ _ ha hb]
    unfold fwdPos revPos
    by_cases h1 : w = c.from_
    · by_cases h2 : w = c.to_
      · have h3 : c.from_ = c.to_ := h1.symm.trans h2
        rw [if_pos h1, if_pos h2, if_pos h1.symm, if_pos h2.symm, if_pos h3]
        simp only [List.length_append, List.length_singleton]
        rw [Finset.sum_range_succ, Finset.sum_range_succ, ← h1, ← h2]
        ring
      · have h3 : ¬ c.from_ = c.to_ := fun h => h2 (h1.trans h)
        rw [if_pos h1, if_neg h2, if_pos h1.symm, if_neg (fun h => h2 h.symm)]
        simp only [List.length_append, List.length_singleton, List.length_nil, Nat.add_zero]
        rw [Finset.sum_range_succ, ← h1]
        ring
    · by_cases h2 : w = c.to_
      · have h3 : ¬ c.from_ = c.to_ := fun h => h1 (h2.trans h.symm)
        rw [if_neg h1, if_pos h2, if_neg (fun h => h1 h.symm), if_pos h2.symm, if_neg h3]
        simp only [List.length_append, List.length_singleton, List.length_nil, Nat.add_zero,
          List.append_nil]
        rw [Finset.sum_range_succ, ← h2]
        ring
      · rw [if_neg h1, if_neg h2, if_neg (fun h => h1 h.symm), if_neg (fun h => h2 h.symm)]
        simp only [List.append_nil]
        ring

theorem slotsOk_of_split (gf : Graph) : ∀ (calls : List Call) (g : Graph),
    (∀ pre c post, calls = pre ++ c :: post →
      capAt gf c.from_ (fwdPos (buildG g pre) c) + capAt gf c.to_ (revPos (buildG g pre) c) = c.cap) →
    SlotsOk gf g calls := by
  intro calls
  induction calls with
  | nil => intro g _; exact True.intro
  | cons c cs ih =>
    intro g h
    refine ⟨h [] c cs rfl, ih _ ?_⟩
    intro pre c1 post hsplit
    have := h (c :: pre) c1 post (by rw [hsplit]; rfl)
    rw [buildG_cons] at this
    exact this

theorem slotSum_flows (gf : Graph) (w : Nat) : ∀ (calls : List Call) (g : Graph),
    SlotsOk gf g calls →
    slotSum (capAt gf w) w g calls =
      callSum (fun c => pt w c.from_) calls - outflow w calls (edgeFlows gf g calls)
        + inflow w calls (edgeFlows gf g calls) := by
  intro calls
  induction calls with
  | nil => intro g _; simp [slotSum, callSum, outflow, inflow, wflow, edgeFlows]
  | cons c cs ih =>
    intro g h
    obtain ⟨h1, h2⟩ := h
    have h3 := ih _ h2
    unfold outflow inflow at h3 ⊢
    simp only [slotSum, edgeFlows, wflow, callSum_cons]
    rw [h3]
    unfold pt
    by_cases k1 : c.from_ = w
    · by_cases k2 : c.to_ = w
      · rw [k1, k2] at h1
        simp only [k1, k2, reduceIte, one_mul]
        omega
      · rw [k1] at h1
        simp only [k1, k2, reduceIte, one_mul, zero_mul]
        omega
    · by_cases k2 : c.to_ = w
      · simp only [k1, k2, reduceIte, one_mul, zero_mul]
        omega
      · simp only [k1, k2, reduceIte, zero_mul]
        omega

theorem edgeFlows_bounds {gf : Graph} (hg : NonNeg gf) : ∀ (calls : List Call) (g : Graph),
    SlotsOk gf g calls →
    List.Forall₂ (fun c f => 0 ≤ f ∧ f ≤ c.cap) calls (edgeFlows gf g calls) := by
  intro calls
  induction calls with
  | nil => intro g _; exact List.Forall₂.nil
  | cons c cs ih =>
    intro g h
    obtain ⟨h1, h2⟩ := h
    refine List.Forall₂.cons ⟨capAt_nonneg hg _ _, ?_⟩ (ih _ h2)
    have := capAt_nonneg hg c.from_ (fwdPos g c)
    omega

/-- The graph left by a sequence of augmentations records a flow on the
inserted edges whose value is the total amount pushed. -/
theorem flows_attained {n s t : Nat} {calls : List Call} {g1 : Graph} {x : Int}
    (hv : ValidCalls n calls) (hst : s ≠ t)
    (h : Flows s t (buildG (List.replicate n []) calls) x g1)
    (hpair : ∀ pre c post, calls = pre ++ c :: post →
      capAt g1 c.from_ (fwdPos (buildG (List.replicate n []) pre) c) +
        capAt g1 c.to_ (revPos (buildG (List.replicate n []) pre) c) = c.cap) :
    FeasibleFlow calls s t (edgeFlows g1 (List.replicate n []) calls) ∧
    flowValue s calls (edgeFlows g1 (List.replicate n []) calls) = x := by
  obtain ⟨_, _, hnn⟩ := build_invariants hv
  have hok := slotsOk_of_split g1 calls _ hpair
  have hnode : ∀ w, inflow w calls (edgeFlows g1 (List.replicate n []) calls)
      - outflow w calls (edgeFlows g1 (List.replicate n []) calls) =
      (if w = t then x else 0) - (if w = s then x else 0) := by
    intro w
    have h1 := flows_outCap_built hv h w
    have h2 := outCap_eq_sum_capAt g1 w
    rw [sameShape_adj_length (flows_sameShape h) w,
      slotSum_reindex (capAt g1 w) w calls hv _ (by simp)] at h2
    have h3 : adjOf (List.replicate n ([] : List Edge)) w = [] := by
      unfold adjOf
      rw [List.getElem?_replicate]
      split <;> rfl
    rw [h3, slotSum_flows g1 w calls _ hok] at h2
    simp only [List.length_nil, Finset.range_zero, Finset.sum_empty, zero_add] at h2
    omega
  refine ⟨⟨edgeFlows_bounds (flows_nonNeg h hnn) calls _ hok, ?_⟩, ?_⟩
  · intro w hws hwt
    have := hnode w
    rw [if_neg hwt, if_neg hws] at this
    omega
  · have := hnode s
    rw [if_neg hst, if_pos rfl] at this
    unfold flowValue
    omega

/-! ## The 32-bit accumulator of `max_flow` -/

theorem wrapInt_of_range {x : Int} (h0 : -2147483648 ≤ x) (h1 : x ≤ INT_MAX) : wrapInt x = x := by
  unfold INT_MAX at h1
  unfold wrapInt
  omega

theorem wrapInt_add (a f : Int) : wrapInt (wrapInt a + f) = wrapInt (a + f) := by
  unfold wrapInt
  omega

theorem augment_int_eq {s t : Nat} : ∀ (fuel : Nat) (mf : MaxFlow) (flow : Int),
    MaxFlow.augment_int fuel mf s t (wrapInt flow) =
      (MaxFlow.augment fuel mf s t flow).map (fun r => (wrapInt r.1, r.2)) := by
  intro fuel
  induction fuel with
  | zero => intro mf flow; rfl
  | succ fuel ih =>
    intro mf flow
    simp only [MaxFlow.augment_int, MaxFlow.augment]
    cases hd : MaxFlow.dfs fuel mf s t INF with
    | none => rfl
    | some r =>
      obtain ⟨f, mf1⟩ := r
      simp only
      by_cases hf : f > 0
      · rw [if_pos hf, if_pos hf, wrapInt_add]
        exact ih mf1 (flow + f)
      · rw [if_neg hf, if_neg hf]
        rfl

theorem phases_int_eq {s t : Nat} : ∀ (fuel : Nat) (mf : MaxFlow) (flow : Int),
    MaxFlow.phases_int fuel mf s t (wrapInt flow) =
      (MaxFlow.phases fuel mf s t flow).map (fun r => (wrapInt r.1, r.2)) := by
  intro fuel
  induction fuel with
  | zero => intro mf flow; rfl
  | succ fuel ih =>
    intro mf flow
    simp only [MaxFlow.phases_int, MaxFlow.phases]
    cases hb : MaxFlow.bfs fuel mf s with
    | none => rfl
    | some mf1 =>
      simp only
      by_cases ht : levelOf mf1.level t < 0
      · rw [if_pos ht, if_pos ht]
        rfl
      · rw [if_neg ht, if_neg ht, augment_int_eq]
        cases ha : MaxFlow.augment fuel { mf1 with iter := List.replicate mf1.iter.length 0 }
            s t flow with
        | none => rfl
        | some r =>
          obtain ⟨flow1, mf2⟩ := r
          simp only [Option.map_some']
          exact ih mf2 flow1

/-- The two runs differ only in the returned number: `max_flow_int` returns
the exact total reduced to 32 bits, and the same object. -/
theorem max_flow_int_eq (fuel : Nat) (mf : MaxFlow) (s t : Nat) :
    mf.max_flow_int fuel s t = (mf.max_flow fuel s t).map (fun r => (wrapInt r.1, r.2)) := by
  have h := phases_int_eq (s := s) (t := t) fuel mf 0
  have h0 : wrapInt 0 = 0 := by decide
  rw [h0] at h
  exact h

theorem max_flow_int_some {fuel : Nat} {mf mf1 : MaxFlow} {s t : Nat} {flow : Int}
    (h : mf.max_flow_int fuel s t = some (flow, mf1)) :
    ∃ x, mf.max_flow fuel s t = some (x, mf1) ∧ flow = wrapInt x := by
  rw [max_flow_int_eq] at h
  cases hm : mf.max_flow fuel s t with
  | none => rw [hm] at h; simp at h
  | some r =>
    obtain ⟨x, mf2⟩ := r
    rw [hm] at h
    simp only [Option.map_some', Option.some.injEq, Prod.mk.injEq] at h
    exact ⟨x, by rw [h.2], h.1.symm⟩

/-- The cut that `max_flow` leaves, for the run with the exact accumulator:
the labelled set is the source side of a minimum cut, its capacity is the
exact total of the augmentations, and that total is the maximum flow. -/
theorem max_flow_cut_exact {n : Nat} {calls : List Call} {s t fuel : Nat} {x : Int} {mf : MaxFlow}
    (hv : ValidCalls n calls) (hs : s < n) (ht : t < n) (hst : s ≠ t)
    (h : (MaxFlow.built n calls).max_flow fuel s t = some (x, mf)) :
    labelled mf.level s = true ∧ labelled mf.level t = false ∧
    (∀ v i e, edgeAt mf.graph v i = some e → labelled mf.level v = true →
      labelled mf.level e.to_ = false → e.cap = 0) ∧
    x = cutCap (labelled mf.level) calls ∧
    (∀ X : Nat → Bool, X s = true → X t = false → x ≤ cutCap X calls) ∧
    (FeasibleFlow calls s t (edgeFlows mf.graph (List.replicate n []) calls) ∧
      flowValue s calls (edgeFlows mf.graph (List.replicate n []) calls) = x) ∧
    ∀ fl, FeasibleFlow calls s t fl → flowValue s calls fl ≤ x := by
  obtain ⟨hwf, hlen⟩ := built_wf hv
  obtain ⟨hfin, _, hflows⟩ := max_flow_spec hwf (by rw [hlen]; exact hs) h
  rw [built_graph] at hflows
  obtain ⟨c1, c2, c3⟩ := final_cut hfin
  have hcut := flows_eq_cut hv hs ht hflows _ c1 c2 c3
  refine ⟨c1, c2, c3, hcut, fun X hXs hXt => flows_le_cut hv hs ht hflows X hXs hXt, ?_, ?_⟩
  · refine flows_attained hv hst hflows ?_
    intro pre c post hsplit
    subst hsplit
    have := (reached_pairInv hv (max_flow_reached h)).2
    rw [built_graph] at this
    exact this
  · intro fl hfl
    rw [hcut]
    exact flowValue_le_cut hv hs hfl _ c1 c2

/-- C5, as stated, fails: after three calls `add_edge(0, 1, 1000000000)` on a
`MaxFlow(2)`, `max_flow(0, 1)` returns `-1294967296`, while the inserted
capacities of the edges that leave the labelled set add up to `3000000000`:
the accumulator `int flow` has wrapped. -/
theorem max_flow_value_wraps :
    ValidCalls 2 threeBigEdges ∧
    ((MaxFlow.built 2 threeBigEdges).max_flow_int 10 0 1).map
      (fun r => (r.1, cutCap (labelled r.2.level) threeBigEdges)) =
      some (-1294967296, 3000000000) := by
  decide

/-- C5 (amended).  On a graph built by `add_edge` calls with non-negative
capacities, for in-range nodes `s ≠ t`, `max_flow(s, t)` returns, and when it
returns the set `L` of the nodes with `level ≥ 0` contains `s` and not `t`,
every edge from `L` to its complement has residual capacity `0`, no set that
contains `s` and not `t` has a smaller sum of inserted capacities on the
edges that leave it (`L` is the source side of a minimum cut), and that sum
for `L` is the maximum flow: the final graph records a feasible flow of that
value and no feasible flow has a larger value.  The returned value is that
sum reduced to the 32-bit range of `int`; it is the sum itself when the sum
is at most `INT_MAX`. -/
theorem max_flow_min_cut (n : Nat) (calls : List Call) (s t : Nat) (hv : ValidCalls n calls)
    (hs : s < n) (ht : t < n) (hst : s ≠ t) :
    (∃ fuel r, (MaxFlow.built n calls).max_flow_int fuel s t = some r) ∧
    ∀ fuel flow mf, (MaxFlow.built n calls).max_flow_int fuel s t = some (flow, mf) →
      labelled mf.level s = true ∧ labelled mf.level t = false ∧
      (∀ v i e, edgeAt mf.graph v i = some e → labelled mf.level v = true →
        labelled mf.level e.to_ = false → e.cap = 0) ∧
      (∀ X : Nat → Bool, X s = true → X t = false →
        cutCap (labelled mf.level) calls ≤ cutCap X calls) ∧
      (FeasibleFlow calls s t (edgeFlows mf.graph (List.replicate n []) calls) ∧
        flowValue s calls (edgeFlows mf.graph (List.replicate n []) calls) =
          cutCap (labelled mf.level) calls) ∧
      (∀ fl, FeasibleFlow calls s t fl →
        flowValue s calls fl ≤ cutCap (labelled mf.level) calls) ∧
      flow = wrapInt (cutCap (labelled mf.level) calls) ∧
      (cutCap (labelled mf.level) calls ≤ INT_MAX → flow = cutCap (labelled mf.level) calls) := by
  obtain ⟨hwf, hlen⟩ := built_wf hv
  constructor
  · obtain ⟨N, r, hN⟩ := max_flow_halts (t := t) hwf (by rw [hlen]; exact hs) hst
    refine ⟨N, (wrapInt r.1, r.2), ?_⟩
    rw [max_flow_int_eq, hN N (le_refl _)]
    rfl
  · intro fuel flow mf h
    obtain ⟨x, hx, hflow⟩ := max_flow_int_some h
    obtain ⟨c1, c2, c3, hcut, hmin, hatt, hmax⟩ := max_flow_cut_exact hv hs ht hst hx
    obtain ⟨hwf1, _, hflows⟩ := max_flow_spec hwf (by rw [hlen]; exact hs) hx
    have hx0 : 0 ≤ x := flows_value_nonneg hflows
    rw [hcut] at hmin hatt hmax hflow hx0
    refine ⟨c1, c2, c3, hmin, hatt, hmax, hflow, fun hb => ?_⟩
    rw [hflow]
    exact wrapInt_of_range (by omega) hb

theorem max_flow_min_cut_witness :
    ValidCalls 3 [⟨0, 1, 2⟩, ⟨1, 2, 1⟩] ∧ 0 < 3 ∧ 2 < 3 ∧ 0 ≠ 2 ∧
    (MaxFlow.built 3 [⟨0, 1, 2⟩, ⟨1, 2, 1⟩]).max_flow_int 10 0 2 =
      some (1, ⟨[[⟨1, 0, 1⟩], [⟨0, 0, 1⟩, ⟨2, 0, 0⟩], [⟨1, 1, 1⟩]], [0, 1, -1], [1, 2, 0], 3⟩) ∧
    cutCap (labelled [0, 1, -1]) [⟨0, 1, 2⟩, ⟨1, 2, 1⟩] ≤ INT_MAX ∧
    (1 : Int) = cutCap (labelled [0, 1, -1]) [⟨0, 1, 2⟩, ⟨1, 2, 1⟩] ∧
    ∀ X : Nat → Bool, X 0 = true → X 2 = false →
      cutCap (labelled [0, 1, -1]) [⟨0, 1, 2⟩, ⟨1, 2, 1⟩] ≤ cutCap X [⟨0, 1, 2⟩, ⟨1, 2, 1⟩] :=
  ⟨by decide, by decide, by decide, by decide, by decide, by decide,
    ((max_flow_min_cut 3 [⟨0, 1, 2⟩, ⟨1, 2, 1⟩] 0 2 (by decide) (by decide) (by decide)
      (by decide)).2 10 1
      ⟨[[⟨1, 0, 1⟩], [⟨0, 0, 1⟩, ⟨2, 0, 0⟩], [⟨1, 1, 1⟩]], [0, 1, -1], [1, 2, 0], 3⟩
      (by decide)).2.2.2.2.2.2.2 (by decide),
    ((max_flow_min_cut 3 [⟨0, 1, 2⟩, ⟨1, 2, 1⟩] 0 2 (by decide) (by decide) (by decide)
      (by decide)).2 10 1
      ⟨[[⟨1, 0, 1⟩], [⟨0, 0, 1⟩, ⟨2, 0, 0⟩], [⟨1, 1, 1⟩]], [0, 1, -1], [1, 2, 0], 3⟩
      (by decide)).2.2.2.1⟩

/-! ## More fuel does not change a result -/

theorem bfs_mono {mf mf1 : MaxFlow} {s fuel : Nat} (h : mf.bfs fuel s = some mf1) (k : Nat) :
    mf.bfs (fuel + k) s = some mf1 := by
  unfold MaxFlow.bfs at h ⊢
  split at h
  · simp at h
  · next out hout =>
    rw [bfsLoop_mono _ _ _ _ out hout k]
    exact h

theorem augment_mono {s t : Nat} : ∀ (fuel : Nat) (mf : MaxFlow) (flow : Int) (r : Int × MaxFlow),
    MaxFlow.augment fuel mf s t flow = some r →
    ∀ k, MaxFlow.augment (fuel + k) mf s t flow = some r := by
  intro fuel
  induction fuel with
  | zero => intro mf flow r h; simp [MaxFlow.augment] at h
  | succ fuel ih =>
    intro mf flow r h k
    rw [Nat.add_right_comm]
    simp only [MaxFlow.augment] at h ⊢
    cases hd : MaxFlow.dfs fuel mf s t INF with
    | none => rw [hd] at h; simp at h
    | some r1 =>
      rw [hd] at h
      rw [dfs_mono fuel mf s t INF r1 hd k]
      simp only at h ⊢
      split
      · next hf => rw [if_pos hf] at h; exact ih _ _ r h k
      · next hf => rw [if_neg hf] at h; exact h

theorem phases_mono {s t : Nat} : ∀ (fuel : Nat) (mf : MaxFlow) (flow : Int) (r : Int × MaxFlow),
    MaxFlow.phases fuel mf s t flow = some r →
    ∀ k, MaxFlow.phases (fuel + k) mf s t flow = some r := by
  intro fuel
  induction fuel with
  | zero => intro mf flow r h; simp [MaxFlow.phases] at h
  | succ fuel ih =>
    intro mf flow r h k
    rw [Nat.add_right_comm]
    simp only [MaxFlow.phases] at h ⊢
    cases hb : MaxFlow.bfs fuel mf s with
    | none => rw [hb] at h; simp at h
    | some mf1 =>
      rw [hb] at h
      rw [bfs_mono hb k]
      simp only at h ⊢
      split
      · next ht => rw [if_pos ht] at h; exact h
      · next ht =>
        rw [if_neg ht] at h
        cases ha : MaxFlow.augment fuel { mf1 with iter := List.replicate mf1.iter.length 0 } s t flow with
        | none => rw [ha] at h; simp at h
        | some r1 =>
          rw [ha] at h
          rw [augment_mono fuel _ flow r1 ha k]
          simp only at h ⊢
          exact ih _ _ r h k

theorem max_flow_mono {mf : MaxFlow} {s t fuel : Nat} {r : Int × MaxFlow}
    (h : mf.max_flow fuel s t = some r) (k : Nat) : mf.max_flow (fuel + k) s t = some r :=
  phases_mono fuel mf 0 r h k

theorem solve_mono {p : RideShareAssignment} {fuel : Nat}
    {r : (Int × List (Nat × Nat)) × RideShareAssignment} (h : p.solve fuel = some r) (k : Nat) :
    p.solve (fuel + k) = some r := by
  unfold RideShareAssignment.solve at h ⊢
  simp only at h ⊢
  split at h
  · simp at h
  · next mf hmf =>
    cases hm : mf.max_flow fuel
        (if p.flow_graph.isNone = true then p.build_flow_network else p).source
        (if p.flow_graph.isNone = true then p.build_flow_network else p).sink with
    | none => rw [hm] at h; simp at h
    | some r1 =>
      rw [hm] at h
      rw [max_flow_mono hm k]
      exact h

/-- Two runs of `solve` that return, return the same. -/
theorem solve_unique {p : RideShareAssignment} {f1 f2 : Nat}
    {r1 r2 : (Int × List (Nat × Nat)) × RideShareAssignment}
    (h1 : p.solve f1 = some r1) (h2 : p.solve f2 = some r2) : r1 = r2 := by
  have k1 := solve_mono h1 f2
  have k2 := solve_mono h2 f1
  rw [Nat.add_comm] at k2
  rw [k1] at k2
  exact Option.some.inj k2

/-! ## A second `build_flow_network`, instances without flow, the demo instance -/

/-- C11 (defect).  `build_flow_network` has no guard: on the object left by
`solve()` (one driver, one request, the pair feasible, one unit of flow sent)
it replaces the flow graph by a new one, so the residual capacities `0, 1` of
the edge pair source–driver become `1, 0` again.  Only on an object that was
built and not yet solved does the second call leave an equal graph. -/
theorem build_flow_network_rebuilds :
    oneRide.build_flow_network.build_flow_network = oneRide.build_flow_network ∧
    (oneRide.solve 12).map (fun r => (r.1, r.2.flow_graph.map (fun mf => mf.graph))) =
      some ((1, [(0, 0)]), some [[⟨1, 0, 0⟩], [⟨0, 0, 1⟩, ⟨2, 0, 0⟩], [⟨1, 1, 1⟩, ⟨3, 0, 0⟩],
        [⟨2, 1, 1⟩]]) ∧
    (oneRide.solve 12).map (fun r => r.2.build_flow_network.flow_graph.map (fun mf => mf.graph)) =
      some (some [[⟨1, 0, 1⟩], [⟨0, 0, 0⟩, ⟨2, 0, 1⟩], [⟨1, 1, 0⟩, ⟨3, 0, 1⟩], [⟨2, 1, 0⟩]]) := by
  decide

/-- C12.  On a configured object with non-negative capacities in which no
feasible pair `(i, j)` has `driver_capacities[i] > 0` (so also when no pair is
feasible), the first `solve()` returns, with the flow value `0` and an empty
assignment list. -/
theorem solve_no_positive_flow (p : RideShareAssignment) (hp : Configured p)
    (hno : ∀ i, i < p.num_drivers → ∀ j, j < p.num_requests →
      p.feasible i j = true → p.capacity i ≤ 0) :
    (∃ fuel r, p.solve fuel = some r) ∧
    ∀ fuel v A q, p.solve fuel = some ((v, A), q) → v = 0 ∧ A = [] := by
  constructor
  · obtain ⟨N, r, hN⟩ := solve_halts hp
    exact ⟨N, r, hN N (le_refl _)⟩
  · intro fuel v A q h
    obtain ⟨mf1, _, hflows, hA⟩ := solve_spec hp h
    have hlen := length_assignments hp hflows
    rw [← hA] at hlen
    have hnil : A = [] := by
      cases hcase : A with
      | nil => rfl
      | cons pr rest =>
        exfalso
        have hmem : pr ∈ pairList p.num_drivers p.num_requests (selected p mf1) := by
          rw [← hA, hcase]
          exact List.mem_cons_self _ _
        obtain ⟨h1, h2, h3⟩ := mem_pairList hmem
        unfold selected at h3
        simp only [Bool.and_eq_true] at h3
        have hcap := hno pr.1 h1 pr.2 h2 h3.1
        have hcnt := count_supply hp hflows h1
        have hpos : 0 < ((pairList p.num_drivers p.num_requests (selected p mf1)).filter
            (fun x => decide (x.1 = pr.1))).length := by
          apply List.length_pos_of_mem (a := pr)
          exact List.mem_filter.mpr ⟨hmem, by simp⟩
        omega
    rw [hnil] at hlen
    simp only [List.length_nil, Nat.cast_zero] at hlen
    exact ⟨hlen.symm, hnil⟩

theorem solve_no_positive_flow_witness :
    Configured (RideShareAssignment.new 2 3) ∧
    ((∃ fuel r, (RideShareAssignment.new 2 3).solve fuel = some r) ∧
    ∀ fuel v A q, (RideShareAssignment.new 2 3).solve fuel = some ((v, A), q) → v = 0 ∧ A = []) :=
  ⟨configured_new 2 3, solve_no_positive_flow (RideShareAssignment.new 2 3) (configured_new 2 3)
    (by decide)⟩

/-- C13.  On the object of `demo_example`, `solve()` returns the flow value
`3` and the three assignments `(0,0), (1,1), (2,2)` (with every fuel that lets
it return); they are feasible pairs, every driver occurs in exactly one of
them and every request in at most one. -/
theorem demo_example_solve :
    (demoExample.solve 12).map (fun r => r.1) = some (3, [(0, 0), (1, 1), (2, 2)]) ∧
    (∀ fuel r, demoExample.solve fuel = some r → r.1 = (3, [(0, 0), (1, 1), (2, 2)])) ∧
    (∀ pr ∈ [(0, 0), (1, 1), (2, 2)], demoExample.feasible pr.1 pr.2 = true) ∧
    (∀ i, i < 3 → (([(0, 0), (1, 1), (2, 2)] : List (Nat × Nat)).filter
      (fun pr => decide (pr.1 = i))).length = 1) ∧
    (∀ j, j < 4 → (([(0, 0), (1, 1), (2, 2)] : List (Nat × Nat)).filter
      (fun pr => decide (pr.2 = j))).length ≤ 1) := by
  have h12 : (demoExample.solve 12).map (fun r => r.1) = some (3, [(0, 0), (1, 1), (2, 2)]) := by
    decide
  refine ⟨h12, ?_, by decide, by decide, by decide⟩
  intro fuel r h
  cases h0 : demoExample.solve 12 with
  | none => rw [h0] at h12; simp at h12
  | some r0 =>
    rw [h0] at h12
    simp only [Option.map_some', Option.some.injEq] at h12
    rw [solve_unique h h0]
    exact h12

/-! ## Adding a feasible pair -/

theorem feasible_add_feasible_assignment (p : RideShareAssignment) (i j a b : Nat)
    (h : p.feasible a b = true) : (p.add_feasible_assignment i j).feasible a b = true := by
  unfold RideShareAssignment.feasible RideShareAssignment.add_feasible_assignment at *
  simp only
  rw [List.getElem?_set]
  by_cases hia : i = a
  · subst hia
    rw [if_pos rfl]
    by_cases hlen : i < p.feasible_edges.length
    · rw [if_pos hlen]
      simp only [Option.getD_some]
      rw [List.getElem?_set]
      by_cases hjb : j = b
      · subst hjb
        rw [if_pos rfl]
        split
        · rfl
        · next hj =>
          rw [List.getElem?_eq_none (not_lt.mp hj)] at h
          exact h
      · rw [if_neg hjb]
        exact h
    · rw [if_neg hlen]
      rw [List.getElem?_eq_none (not_lt.mp hlen)] at h
      simp at h
  · rw [if_neg hia]
    exact h

theorem validAssignment_mono {p1 p2 : RideShareAssignment} (hm : p2.num_drivers = p1.num_drivers)
    (hn : p2.num_requests = p1.num_requests) (hc : ∀ i, p2.capacity i = p1.capacity i)
    (hf : ∀ a b, p1.feasible a b = true → p2.feasible a b = true)
    {S : Finset (Nat × Nat)} (hS : ValidAssignment p1 S) : ValidAssignment p2 S := by
  refine ⟨fun pr hpr => ?_, fun i hi => ?_, fun j hj => ?_⟩
  · obtain ⟨h1, h2, h3⟩ := hS.feasible pr hpr
    exact ⟨by rw [hm]; exact h1, by rw [hn]; exact h2, hf _ _ h3⟩
  · rw [hc]
    exact hS.supply i (by rw [← hm]; exact hi)
  · exact hS.demand j (by rw [← hn]; exact hj)

/-- The flow value can only grow when the instance gets more feasible pairs. -/
theorem solve_le_of_feasible_le {p1 p2 : RideShareAssignment} (hp1 : Configured p1)
    (hp2 : Configured p2) (hm : p2.num_drivers = p1.num_drivers)
    (hn : p2.num_requests = p1.num_requests) (hc : ∀ i, p2.capacity i = p1.capacity i)
    (hf : ∀ a b, p1.feasible a b = true → p2.feasible a b = true)
    {f1 f2 : Nat} {v1 v2 : Int} {A1 A2 : List (Nat × Nat)} {q1 q2 : RideShareAssignment}
    (h1 : p1.solve f1 = some ((v1, A1), q1)) (h2 : p2.solve f2 = some ((v2, A2), q2)) :
    v1 ≤ v2 := by
  obtain ⟨mf1, _, hflows1, _⟩ := solve_spec hp1 h1
  obtain ⟨mf2, hfin2, hflows2, _⟩ := solve_spec hp2 h2
  obtain ⟨hS, hcard⟩ := valid_assignments hp1 hflows1
  rw [← hcard]
  exact assignment_le_flow hp2 hfin2 hflows2 _ (validAssignment_mono hm hn hc hf hS)

/-- C15.  For a configured object with non-negative capacities and the object
that `add_feasible_assignment(i, j)` makes of it (same `M`, `N` and
capacities, one more feasible pair), the first `solve()` returns on both and
the flow value of the second is at least the flow value of the first. -/
theorem add_feasible_pair_monotone (p : RideShareAssignment) (hp : Configured p) (i j : Nat) :
    (∃ fuel r, p.solve fuel = some r) ∧
    (∃ fuel r, (p.add_feasible_assignment i j).solve fuel = some r) ∧
    ∀ f1 f2 v1 v2 A1 A2 q1 q2, p.solve f1 = some ((v1, A1), q1) →
      (p.add_feasible_assignment i j).solve f2 = some ((v2, A2), q2) → v1 ≤ v2 := by
  have hp2 := configured_add_feasible_assignment hp i j
  refine ⟨?_, ?_, ?_⟩
  · obtain ⟨N, r, hN⟩ := solve_halts hp
    exact ⟨N, r, hN N (le_refl _)⟩
  · obtain ⟨N, r, hN⟩ := solve_halts hp2
    exact ⟨N, r, hN N (le_refl _)⟩
  · intro f1 f2 v1 v2 A1 A2 q1 q2 h1 h2
    exact solve_le_of_feasible_le hp hp2 rfl rfl (fun _ => rfl)
      (feasible_add_feasible_assignment p i j) h1 h2

theorem add_feasible_pair_monotone_witness :
    Configured ((RideShareAssignment.new 2 2).add_feasible_assignment 0 0) ∧
    ((∃ fuel r, ((RideShareAssignment.new 2 2).add_feasible_assignment 0 0).solve fuel = some r) ∧
    (∃ fuel r, (((RideShareAssignment.new 2 2).add_feasible_assignment 0 0
      ).add_feasible_assignment 1 1).solve fuel = some r) ∧
    ∀ f1 f2 v1 v2 A1 A2 q1 q2,
      ((RideShareAssignment.new 2 2).add_feasible_assignment 0 0).solve f1 = some ((v1, A1), q1) →
      (((RideShareAssignment.new 2 2).add_feasible_assignment 0 0).add_feasible_assignment 1 1
        ).solve f2 = some ((v2, A2), q2) → v1 ≤ v2) :=
  ⟨configured_add_feasible_assignment (configured_new 2 2) 0 0,
    add_feasible_pair_monotone _ (configured_add_feasible_assignment (configured_new 2 2) 0 0) 1 1⟩

/-! ## Demand in excess of the supply -/

theorem totalCapacity_eq (p : RideShareAssignment) :
    totalCapacity p = ∑ i in Finset.range p.num_drivers, p.capacity i :=
  sum_map_range _ _

theorem flow_le_totalCapacity {p : RideShareAssignment} (hp : Configured p) {x : Int}
    {g : Graph} (h : NetFlows p x g) : x ≤ totalCapacity p := by
  rw [totalCapacity_eq, ← flowOn_total hp h]
  exact Finset.sum_le_sum (fun i hi => flowOn_supply_le hp h (Finset.mem_range.mp hi))

/-- When every pair is feasible and there are more requests than capacity,
every cut between source and sink has at least the total capacity. -/
theorem totalCapacity_le_cut (X : Nat → Bool) {p : RideShareAssignment} (hp : Configured p)
    (hs : X 0 = true) (ht : X (1 + p.num_drivers + p.num_requests) = false)
    (hall : ∀ i, i < p.num_drivers → ∀ j, j < p.num_requests → p.feasible i j = true)
    (hN : totalCapacity p < p.num_requests) :
    totalCapacity p ≤ cutCap X (netCalls p) := by
  rw [cutCap_net X hp hs ht, totalCapacity_eq]
  rw [totalCapacity_eq] at hN
  have hy : ∀ j, 0 ≤ ind X (1 + p.num_drivers + j) ∧ ind X (1 + p.num_drivers + j) ≤ 1 := by
    intro j
    rcases ind_cases X (1 + p.num_drivers + j) with h | h <;> rw [h] <;> simp
  have hx : ∀ i, 0 ≤ ind X (1 + i) ∧ ind X (1 + i) ≤ 1 := by
    intro i
    rcases ind_cases X (1 + i) with h | h <;> rw [h] <;> simp
  have hterm : ∀ i ∈ Finset.range p.num_drivers, (0 : Int) ≤ ∑ j in Finset.range p.num_requests,
      if p.feasible i j then ind X (1 + i) * (1 - ind X (1 + p.num_drivers + j)) else 0 := by
    intro i _
    apply Finset.sum_nonneg
    intro j _
    split
    · exact mul_nonneg (hx i).1 (by have := (hy j).2; omega)
    · exact le_refl _
  have h3 : (0 : Int) ≤ ∑ j in Finset.range p.num_requests, ind X (1 + p.num_drivers + j) :=
    Finset.sum_nonneg (fun j _ => (hy j).1)
  by_cases hx0 : ∀ i, i < p.num_drivers → ind X (1 + i) = 0
  · have h1 : (∑ i in Finset.range p.num_drivers, (1 - ind X (1 + i)) * p.capacity i) =
        ∑ i in Finset.range p.num_drivers, p.capacity i := by
      apply Finset.sum_congr rfl
      intro i hi
      rw [hx0 i (Finset.mem_range.mp hi)]
      ring
    have h2 := Finset.sum_nonneg hterm
    rw [h1]
    omega
  · push_neg at hx0
    obtain ⟨i0, hi0, hne⟩ := hx0
    have hone : ind X (1 + i0) = 1 := by
      rcases ind_cases X (1 + i0) with h | h
      · exact absurd h hne
      · exact h
    have h1 : (0 : Int) ≤ ∑ i in Finset.range p.num_drivers, (1 - ind X (1 + i)) * p.capacity i := by
      apply Finset.sum_nonneg
      intro i hi
      exact mul_nonneg (by have := (hx i).2; omega) (hp.cap_nonneg i (Finset.mem_range.mp hi))
    have h2 := Finset.single_le_sum hterm (Finset.mem_range.mpr hi0)
    have h4 : (∑ j in Finset.range p.num_requests,
        if p.feasible i0 j then ind X (1 + i0) * (1 - ind X (1 + p.num_drivers + j)) else 0) =
        (p.num_requests : Int) - ∑ j in Finset.range p.num_requests, ind X (1 + p.num_drivers + j) := by
      rw [eq_sub_iff_add_eq, ← Finset.sum_add_distrib]
      rw [Finset.sum_congr rfl (g := fun _ => (1 : Int))]
      · simp
      · intro j hj
        rw [hall i0 hi0 j (Finset.mem_range.mp hj), hone]
        simp
    rw [h4] at h2
    omega

/-- The number of pairs of driver `i` in the returned list is the flow that
leaves driver `i`. -/
theorem count_supply_eq {p : RideShareAssignment} (hp : Configured p) {x : Int}
    {mf : MaxFlow} (h : NetFlows p x mf.graph) {i : Nat} (hi : i < p.num_drivers) :
    (((pairList p.num_drivers p.num_requests (selected p mf)).filter
      (fun pr => decide (pr.1 = i))).length : Int) =
      ∑ j in Finset.range p.num_requests, flowOn p mf.graph i j := by
  rw [← List.countP_eq_length_filter, countP_pairList,
    sum1_single p.num_drivers i hi]
  · have h1 : (∑ j in Finset.range p.num_requests,
        if selected p mf i j = true ∧ decide ((i, j).1 = i) = true then (1 : Int) else 0) =
        ∑ j in Finset.range p.num_requests, if selected p mf i j = true then (1 : Int) else 0 := by
      apply Finset.sum_congr rfl
      intro j _
      simp
    rw [h1, sum_selected_row hp h hi]
  · intro a _ hne
    apply Finset.sum_eq_zero
    intro j _
    rw [if_neg]
    simp [hne]

/-- When the flow value is the total capacity, every driver is saturated. -/
theorem saturated_of_total {p : RideShareAssignment} (hp : Configured p) {x : Int}
    {mf : MaxFlow} (h : NetFlows p x mf.graph) (hx : x = totalCapacity p) {i : Nat}
    (hi : i < p.num_drivers) :
    (((pairList p.num_drivers p.num_requests (selected p mf)).filter
      (fun pr => decide (pr.1 = i))).length : Int) = p.capacity i := by
  rw [count_supply_eq hp h hi]
  have hsum : ∑ k in Finset.range p.num_drivers,
      (p.capacity k - ∑ j in Finset.range p.num_requests, flowOn p mf.graph k j) = 0 := by
    rw [Finset.sum_sub_distrib, flowOn_total hp h, ← totalCapacity_eq, hx]
    ring
  have hnn : ∀ k ∈ Finset.range p.num_drivers,
      0 ≤ p.capacity k - ∑ j in Finset.range p.num_requests, flowOn p mf.graph k j := by
    intro k hk
    have := flowOn_supply_le hp h (Finset.mem_range.mp hk)
    omega
  have := (Finset.sum_eq_zero_iff_of_nonneg hnn).mp hsum i (Finset.mem_range.mpr hi)
  omega

/-- C14, as stated, fails: with one driver of capacity 1, two requests and no
feasible pair, the demand count `2` exceeds the total supply capacity `1`, and
`solve()` returns the flow value `0` and no assignment, so the driver is not
saturated. -/
theorem excess_demand_counterexample :
    totalCapacity (RideShareAssignment.new 1 2) = 1 ∧
    totalCapacity (RideShareAssignment.new 1 2) < ((RideShareAssignment.new 1 2).num_requests : Int) ∧
    ((RideShareAssignment.new 1 2).solve 12).map (fun r => r.1) = some (0, []) := by
  decide

/-- C14 (amended).  On a configured object with non-negative capacities in
which every pair is feasible and the demand count `N` exceeds the total supply
capacity, the first `solve()` returns, the flow value is the total supply
capacity, and every driver `i` appears in exactly `driver_capacities[i]`
assignments. -/
theorem excess_demand_saturates (p : RideShareAssignment) (hp : Configured p)
    (hall : ∀ i, i < p.num_drivers → ∀ j, j < p.num_requests → p.feasible i j = true)
    (hN : totalCapacity p < p.num_requests) :
    (∃ fuel r, p.solve fuel = some r) ∧
    ∀ fuel v A q, p.solve fuel = some ((v, A), q) →
      v = totalCapacity p ∧
      ∀ i, i < p.num_drivers →
        ((A.filter (fun pr => decide (pr.1 = i))).length : Int) = p.capacity i := by
  constructor
  · obtain ⟨N, r, hN⟩ := solve_halts hp
    exact ⟨N, r, hN N (le_refl _)⟩
  · intro fuel v A q h
    obtain ⟨mf1, hfin, hflows, hA⟩ := solve_spec hp h
    obtain ⟨c1, c2, c3⟩ := final_cut hfin
    have hcut := flows_eq_cut (validCalls_net hp) (by omega) (by omega) hflows
      (labelled mf1.level) c1 c2 c3
    have hge := totalCapacity_le_cut (labelled mf1.level) hp c1 c2 hall hN
    have hle := flow_le_totalCapacity hp hflows
    have hv : v = totalCapacity p := by omega
    refine ⟨hv, fun i hi => ?_⟩
    rw [hA]
    exact saturated_of_total hp hflows hv hi

theorem excess_demand_saturates_witness :
    Configured oneDriverTwoRequests ∧
    (∀ i, i < oneDriverTwoRequests.num_drivers → ∀ j, j < oneDriverTwoRequests.num_requests →
      oneDriverTwoRequests.feasible i j = true) ∧
    totalCapacity oneDriverTwoRequests < oneDriverTwoRequests.num_requests ∧
    ((∃ fuel r, oneDriverTwoRequests.solve fuel = some r) ∧
    ∀ fuel v A q, oneDriverTwoRequests.solve fuel = some ((v, A), q) →
      v = totalCapacity oneDriverTwoRequests ∧
      ∀ i, i < oneDriverTwoRequests.num_drivers →
        ((A.filter (fun pr => decide (pr.1 = i))).length : Int) =
          oneDriverTwoRequests.capacity i) :=
  ⟨⟨rfl, rfl, rfl, rfl, by decide, rfl⟩, by decide, by decide,
    excess_demand_saturates oneDriverTwoRequests ⟨rfl, rfl, rfl, rfl, by decide, rfl⟩
      (by decide) (by decide)⟩

/-! ## Vertex cuts of the network of an instance -/

theorem mem_netCalls {p : RideShareAssignment} (hp : Configured p) (c : Call) :
    c ∈ netCalls p ↔
      (∃ i, i < p.num_drivers ∧ c = ⟨0, 1 + i, p.capacity i⟩) ∨
      (∃ i, i < p.num_drivers ∧ ∃ j, j < p.num_requests ∧ p.feasible i j = true ∧
        c = ⟨1 + i, 1 + p.num_drivers + j, 1⟩) ∨
      (∃ j, j < p.num_requests ∧
        c = ⟨1 + p.num_drivers + j, 1 + p.num_drivers + p.num_requests, 1⟩) := by
  unfold netCalls
  rw [hp.source_eq, hp.driver_eq, hp.request_eq, hp.sink_eq]
  simp only [List.mem_append, List.mem_map, List.mem_range, List.mem_flatMap]
  constructor
  · rintro ((⟨i, hi, rfl⟩ | ⟨i, hi, j, hj, hc⟩) | ⟨j, hj, rfl⟩)
    · exact Or.inl ⟨i, hi, rfl⟩
    · split at hc
      · next hf =>
        simp only [List.mem_singleton] at hc
        exact Or.inr (Or.inl ⟨i, hi, j, hj, hf, hc⟩)
      · simp at hc
    · exact Or.inr (Or.inr ⟨j, hj, rfl⟩)
  · rintro (⟨i, hi, rfl⟩ | ⟨i, hi, j, hj, hf, rfl⟩ | ⟨j, hj, rfl⟩)
    · exact Or.inl (Or.inl ⟨i, hi, rfl⟩)
    · refine Or.inl (Or.inr ⟨i, hi, j, hj, ?_⟩)
      rw [if_pos hf]
      simp
    · exact Or.inr ⟨j, hj, rfl⟩

theorem netPath_cases {p : RideShareAssignment} {C : Finset Nat} {u : Nat} (h : NetPath p C u) :
    u = p.sink ∨ ∃ w, NetEdge p u w ∧ w ∉ C ∧ NetPath p C w := by
  cases h with
  | sink => exact Or.inl rfl
  | step he hw hpath => exact Or.inr ⟨_, he, hw, hpath⟩

/-- Every path from the source to the sink is a path source, driver `i`,
request `j`, sink with `(i, j)` feasible and `driver_capacities[i] > 0`. -/
theorem netPath_source {p : RideShareAssignment} (hp : Configured p) {C : Finset Nat}
    (h : NetPath p C p.source) :
    ∃ i, i < p.num_drivers ∧ ∃ j, j < p.num_requests ∧ 0 < p.capacity i ∧
      p.feasible i j = true ∧ 1 + i ∉ C ∧ 1 + p.num_drivers + j ∉ C := by
  rcases netPath_cases h with hs | ⟨w, ⟨c, hc, hfrom, hto, hcap⟩, hw, hpath⟩
  · rw [hp.source_eq, hp.sink_eq] at hs
    omega
  rw [hp.source_eq] at hfrom
  rcases (mem_netCalls hp c).mp hc with ⟨i, hi, rfl⟩ | ⟨i, hi, j, hj, hf, rfl⟩ | ⟨j, hj, rfl⟩
  · simp only at hto hcap
    subst hto
    refine ⟨i, hi, ?_⟩
    rcases netPath_cases hpath with hs | ⟨w2, ⟨c2, hc2, hfrom2, hto2, _⟩, hw2, _⟩
    · rw [hp.sink_eq] at hs
      omega
    rcases (mem_netCalls hp c2).mp hc2 with ⟨k, hk, rfl⟩ | ⟨k, hk, j, hj, hf, rfl⟩ |
      ⟨j, hj, rfl⟩
    · simp only at hfrom2
      omega
    · simp only at hfrom2 hto2
      have hki : k = i := by omega
      subst hki
      subst hto2
      exact ⟨j, hj, hcap, hf, hw, hw2⟩
    · simp only at hfrom2
      omega
  · simp only at hfrom
    omega
  · simp only at hfrom
    omega

/-- The path through a feasible pair whose driver has capacity. -/
theorem netPath_of_pair {p : RideShareAssignment} (hp : Configured p) {C : Finset Nat}
    (hC : p.sink ∉ C) {i j : Nat} (hi : i < p.num_drivers) (hj : j < p.num_requests)
    (hcap : 0 < p.capacity i) (hf : p.feasible i j = true) (hi2 : 1 + i ∉ C)
    (hj2 : 1 + p.num_drivers + j ∉ C) : NetPath p C p.source := by
  have hsink : NetPath p C (1 + p.num_drivers + p.num_requests) := by
    rw [← hp.sink_eq]
    exact NetPath.sink
  rw [hp.sink_eq] at hC
  rw [hp.source_eq]
  refine NetPath.step ⟨⟨0, 1 + i, p.capacity i⟩,
    (mem_netCalls hp _).mpr (Or.inl ⟨i, hi, rfl⟩), rfl, rfl, hcap⟩ hi2 ?_
  refine NetPath.step ⟨⟨1 + i, 1 + p.num_drivers + j, 1⟩,
    (mem_netCalls hp _).mpr (Or.inr (Or.inl ⟨i, hi, j, hj, hf, rfl⟩)), rfl, rfl, Int.one_pos⟩ hj2 ?_
  exact NetPath.step ⟨⟨1 + p.num_drivers + j, 1 + p.num_drivers + p.num_requests, 1⟩,
    (mem_netCalls hp _).mpr (Or.inr (Or.inr ⟨j, hj, rfl⟩)), rfl, rfl, Int.one_pos⟩ hC hsink

/-- With capacities at most 1, a vertex cut has at least as many nodes as a
valid assignment has pairs: it meets the path of every pair, and the paths of
different pairs share no driver and no request. -/
theorem card_le_vertexCut {p : RideShareAssignment} (hp : Configured p)
    (hcap : ∀ i, i < p.num_drivers → p.capacity i ≤ 1) {S : Finset (Nat × Nat)}
    (hS : ValidAssignment p S) {C : Finset Nat} (hC : VertexCut p C) : S.card ≤ C.card := by
  have hsink : p.sink ∉ C := fun h => lt_irrefl _ (hC.nodes _ h).2
  apply Finset.card_le_card_of_injOn
    (fun pr => if 1 + pr.1 ∈ C then 1 + pr.1 else 1 + p.num_drivers + pr.2)
  · intro pr hpr
    obtain ⟨h1, h2, h3⟩ := hS.feasible pr hpr
    have hpos : 0 < p.capacity pr.1 := by
      have hsup := hS.supply pr.1 h1
      have hc : 0 < (S.filter (fun x => x.1 = pr.1)).card :=
        Finset.card_pos.mpr ⟨pr, Finset.mem_filter.mpr ⟨hpr, rfl⟩⟩
      omega
    show (if 1 + pr.1 ∈ C then 1 + pr.1 else 1 + p.num_drivers + pr.2) ∈ C
    split
    · next h => exact h
    · next h =>
      by_contra h4
      exact hC.cut (netPath_of_pair hp hsink h1 h2 hpos h3 h h4)
  · intro a ha b hb hab
    simp only at hab
    obtain ⟨a1, a2, _⟩ := hS.feasible a ha
    obtain ⟨b1, b2, _⟩ := hS.feasible b hb
    have hfst : a.1 = b.1 → a = b := by
      intro h
      have hle : (S.filter (fun x => x.1 = a.1)).card ≤ 1 := by
        have := hS.supply a.1 a1
        have := hcap a.1 a1
        omega
      exact Finset.card_le_one.mp hle a (Finset.mem_filter.mpr ⟨ha, rfl⟩) b
        (Finset.mem_filter.mpr ⟨hb, h.symm⟩)
    have hsnd : a.2 = b.2 → a = b := by
      intro h
      exact Finset.card_le_one.mp (hS.demand a.2 a2) a (Finset.mem_filter.mpr ⟨ha, rfl⟩) b
        (Finset.mem_filter.mpr ⟨hb, h.symm⟩)
    split at hab <;> split at hab
    · exact hfst (by omega)
    · omega
    · omega
    · exact hsnd (by omega)

theorem cutNodes_vertexCut {p : RideShareAssignment} (hp : Configured p) (X : Nat → Bool) :
    VertexCut p (cutNodes p X) := by
  constructor
  · intro w hw
    rw [hp.driver_eq, hp.sink_eq]
    unfold cutNodes at hw
    simp only [Finset.mem_union, Finset.mem_image, Finset.mem_filter, Finset.mem_range] at hw
    rcases hw with ⟨i, ⟨hi, _⟩, rfl⟩ | ⟨j, ⟨hj, _⟩, rfl⟩ <;> omega
  · intro hpath
    obtain ⟨i, hi, j, hj, hcap, hf, hi2, hj2⟩ := netPath_source hp hpath
    unfold cutNodes at hi2 hj2
    simp only [Finset.mem_union, Finset.mem_image, Finset.mem_filter, Finset.mem_range,
      not_or, not_exists, not_and] at hi2 hj2
    have hxi : X (1 + i) = true := by
      by_contra hx
      exact hi2.1 i ⟨hi, by simpa using hx, hcap⟩ rfl
    have h5 := hj2.2 j
    exact h5 ⟨hj, Or.inr ⟨i, hi, hxi, hf⟩⟩ rfl

theorem card_cutNodes_le {p : RideShareAssignment} (hp : Configured p) (X : Nat → Bool)
    (hs : X 0 = true) (ht : X (1 + p.num_drivers + p.num_requests) = false) :
    ((cutNodes p X).card : Int) ≤ cutCap X (netCalls p) := by
  rw [cutCap_net X hp hs ht]
  have hx : ∀ w, 0 ≤ ind X w ∧ ind X w ≤ 1 := by
    intro w
    rcases ind_cases X w with h | h <;> rw [h] <;> simp
  have hcard : (cutNodes p X).card ≤
      ((Finset.range p.num_drivers).filter
        (fun i => X (1 + i) = false ∧ 0 < p.capacity i)).card +
      ((Finset.range p.num_requests).filter
        (fun j => X (1 + p.num_drivers + j) = true ∨
          ∃ i, i < p.num_drivers ∧ X (1 + i) = true ∧ p.feasible i j = true)).card := by
    unfold cutNodes
    exact le_trans (Finset.card_union_le _ _)
      (Nat.add_le_add Finset.card_image_le Finset.card_image_le)
  have h1 : (((Finset.range p.num_drivers).filter
      (fun i => X (1 + i) = false ∧ 0 < p.capacity i)).card : Int) ≤
      ∑ i in Finset.range p.num_drivers, (1 - ind X (1 + i)) * p.capacity i := by
    rw [Finset.card_filter, Nat.cast_sum]
    apply Finset.sum_le_sum
    intro i hi
    have hc := hp.cap_nonneg i (Finset.mem_range.mp hi)
    split
    · next h =>
      have h0 : ind X (1 + i) = 0 := by simp [ind, h.1]
      rw [h0]
      simp only [Nat.cast_one, sub_zero, one_mul]
      omega
    · simp only [Nat.cast_zero]
      exact mul_nonneg (by have := (hx (1 + i)).2; omega) hc
  have hterm : ∀ i j, (0 : Int) ≤
      if p.feasible i j then ind X (1 + i) * (1 - ind X (1 + p.num_drivers + j)) else 0 := by
    intro i j
    split
    · exact mul_nonneg (hx _).1 (by have := (hx (1 + p.num_drivers + j)).2; omega)
    · exact le_refl _
  have h2 : (((Finset.range p.num_requests).filter
      (fun j => X (1 + p.num_drivers + j) = true ∨
        ∃ i, i < p.num_drivers ∧ X (1 + i) = true ∧ p.feasible i j = true)).card : Int) ≤
      (∑ i in Finset.range p.num_drivers, ∑ j in Finset.range p.num_requests,
          if p.feasible i j then ind X (1 + i) * (1 - ind X (1 + p.num_drivers + j)) else 0)
      + ∑ j in Finset.range p.num_requests, ind X (1 + p.num_drivers + j) := by
    rw [Finset.sum_comm, ← Finset.sum_add_distrib, Finset.card_filter, Nat.cast_sum]
    apply Finset.sum_le_sum
    intro j _
    have hsum : (0 : Int) ≤ ∑ i in Finset.range p.num_drivers,
        if p.feasible i j then ind X (1 + i) * (1 - ind X (1 + p.num_drivers + j)) else 0 :=
      Finset.sum_nonneg (fun i _ => hterm i j)
    split
    · next h =>
      simp only [Nat.cast_one]
      by_cases hy : X (1 + p.num_drivers + j) = true
      · have h0 : ind X (1 + p.num_drivers + j) = 1 := by simp [ind, hy]
        omega
      · rcases h with h | ⟨i0, hi0, hxi, hf⟩
        · exact absurd h hy
        · have h0 : ind X (1 + p.num_drivers + j) = 0 := by simp [ind, hy]
          have h3 := Finset.single_le_sum (fun i _ => hterm i j) (Finset.mem_range.mpr hi0)
          have h4 : ind X (1 + i0) = 1 := by simp [ind, hxi]
          simp only [h0, sub_zero, mul_one] at h3 ⊢
          rw [if_pos hf, h4] at h3
          omega
    · simp only [Nat.cast_zero]
      have := (hx (1 + p.num_drivers + j)).1
      omega
  have : ((cutNodes p X).card : Int) ≤
      (((Finset.range p.num_drivers).filter
        (fun i => X (1 + i) = false ∧ 0 < p.capacity i)).card : Int) +
      (((Finset.range p.num_requests).filter
        (fun j => X (1 + p.num_drivers + j) = true ∨
          ∃ i, i < p.num_drivers ∧ X (1 + i) = true ∧ p.feasible i j = true)).card : Int) := by
    exact_mod_cast hcard
  omega

/-- C16, as stated, fails: with one driver of capacity 2 and two feasible
requests `solve()` returns the flow value `2`, while removing the single node
of the driver (node `1`) leaves no path from the source to the sink, so the
minimum vertex cut has size at most `1`. -/
theorem vertex_cut_counterexample :
    (twoSeatDriver.solve 12).map (fun r => r.1) = some (2, [(0, 0), (0, 1)]) ∧
    VertexCut twoSeatDriver {1} ∧ ({1} : Finset Nat).card = 1 := by
  refine ⟨by decide, ⟨?_, ?_⟩, rfl⟩
  · intro w hw
    rw [Finset.mem_singleton] at hw
    subst hw
    decide
  · intro hpath
    obtain ⟨i, hi, _, _, _, _, hi2, _⟩ :=
      netPath_source (p := twoSeatDriver) ⟨rfl, rfl, rfl, rfl, by decide, rfl⟩ hpath
    have h0 : i = 0 := Nat.lt_one_iff.mp hi
    subst h0
    exact hi2 (Finset.mem_singleton.mpr rfl)

/-- C16 (amended).  On a configured object whose capacities are all `0` or
`1`, the first `solve()` returns, and the flow value it returns is the size of
a minimum vertex cut of the network: some set of supply and demand nodes of
that size leaves, when removed, no path of positive capacity from the source
to the sink, and no smaller set does. -/
theorem flow_eq_min_vertex_cut (p : RideShareAssignment) (hp : Configured p)
    (hcap : ∀ i, i < p.num_drivers → p.capacity i ≤ 1) :
    (∃ fuel r, p.solve fuel = some r) ∧
    ∀ fuel v A q, p.solve fuel = some ((v, A), q) →
      (∃ C, VertexCut p C ∧ (C.card : Int) = v) ∧
      ∀ C, VertexCut p C → v ≤ (C.card : Int) := by
  constructor
  · obtain ⟨N, r, hN⟩ := solve_halts hp
    exact ⟨N, r, hN N (le_refl _)⟩
  · intro fuel v A q h
    obtain ⟨mf1, hfin, hflows, _⟩ := solve_spec hp h
    obtain ⟨hS, hcard⟩ := valid_assignments hp hflows
    obtain ⟨c1, c2, c3⟩ := final_cut hfin
    have hcut := flows_eq_cut (validCalls_net hp) (by omega) (by omega) hflows
      (labelled mf1.level) c1 c2 c3
    have hlow : ∀ C, VertexCut p C → v ≤ (C.card : Int) := by
      intro C hC
      rw [← hcard]
      exact_mod_cast card_le_vertexCut hp hcap hS hC
    refine ⟨⟨cutNodes p (labelled mf1.level), cutNodes_vertexCut hp _, ?_⟩, hlow⟩
    have h1 := card_cutNodes_le hp (labelled mf1.level) c1 c2
    have h2 := hlow _ (cutNodes_vertexCut hp (labelled mf1.level))
    omega

theorem flow_eq_min_vertex_cut_witness :
    Configured demoExample ∧ (∀ i, i < demoExample.num_drivers → demoExample.capacity i ≤ 1) ∧
    ((∃ fuel r, demoExample.solve fuel = some r) ∧
    ∀ fuel v A q, demoExample.solve fuel = some ((v, A), q) →
      (∃ C, VertexCut demoExample C ∧ (C.card : Int) = v) ∧
      ∀ C, VertexCut demoExample C → v ≤ (C.card : Int)) :=
  ⟨⟨rfl, rfl, rfl, rfl, by decide, rfl⟩, by decide,
    flow_eq_min_vertex_cut demoExample ⟨rfl, rfl, rfl, rfl, by decide, rfl⟩ (by decide)⟩

/-! ## The cursors inside a phase -/

/-- An edge of positive capacity that goes up in level after a push along
`graph[v][i]` was such an edge before the push. -/
theorem edge_before_push {g : Graph} {level : List Int} {v i : Nat} {e : Edge} {d : Int}
    (hd : 0 ≤ d) (hbp : BackPtr g) (he : edgeAt g v i = some e)
    (hlev : levelOf level v < levelOf level e.to_) {w j : Nat} {x : Edge}
    (hx : edgeAt (pushEdge g v i d) w j = some x) (hc : 0 < x.cap)
    (hl : levelOf level w < levelOf level x.to_) :
    ∃ y, edgeAt g w j = some y ∧ y.to_ = x.to_ ∧ 0 < y.cap := by
  have hne : e.to_ ≠ v := fun h => by rw [h] at hlev; exact lt_irrefl _ hlev
  rw [edgeAt_pushEdge d he hne] at hx
  split at hx
  · next h =>
    simp only [Option.some.injEq] at hx
    subst hx
    simp only at hc
    rw [h.1, h.2]
    exact ⟨e, he, rfl, by omega⟩
  · split at hx
    · next h =>
      obtain ⟨r, hr, hrv⟩ := hbp v i e he
      rw [hr] at hx
      simp only [Option.map_some', Option.some.injEq] at hx
      subst hx
      simp only at hl
      rw [h.1, hrv] at hl
      omega
    · exact ⟨x, hx, rfl, hc⟩

theorem canReach_pushEdge {g : Graph} {level : List Int} {t v i : Nat} {e : Edge} {d : Int}
    (hd : 0 ≤ d) (hbp : BackPtr g) (he : edgeAt g v i = some e)
    (hlev : levelOf level v < levelOf level e.to_) {u : Nat}
    (h : CanReach (pushEdge g v i d) level t u) : CanReach g level t u := by
  induction h with
  | here => exact CanReach.here
  | step hx hc hl _ ih =>
    obtain ⟨y, hy, hyto, hyc⟩ := edge_before_push hd hbp he hlev hx hc hl
    rw [← hyto] at hl ih
    exact CanReach.step hy hyc hl ih

theorem blocked_pushEdge {mf : MaxFlow} {t v i : Nat} {e : Edge} {d : Int} (hd : 0 ≤ d)
    (hbp : BackPtr mf.graph) (he : edgeAt mf.graph v i = some e)
    (hlev : levelOf mf.level v < levelOf mf.level e.to_) (hb : Blocked mf t) :
    Blocked { mf with graph := pushEdge mf.graph v i d } t := by
  intro w j x hj hx hc hl hcr
  simp only at hx hl hcr
  obtain ⟨y, hy, hyto, hyc⟩ := edge_before_push hd hbp he hlev hx hc hl
  rw [← hyto] at hl hcr
  exact hb w j y hj hy hyc hl (canReach_pushEdge hd hbp he hlev hcr)

/-- Every call of `dfs` keeps the cursors sound, also a call that pushes
flow. -/
theorem dfs_blocked_any : ∀ (fuel : Nat) (mf : MaxFlow) (v t : Nat) (f d : Int) (mf1 : MaxFlow),
    MaxFlow.dfs fuel mf v t f = some (d, mf1) → 0 < f → BackPtr mf.graph → Blocked mf t →
    Blocked mf1 t := by
  intro fuel
  induction fuel with
  | zero => intro mf v t f d mf1 h; simp [MaxFlow.dfs] at h
  | succ fuel ih =>
    intro mf v t f d mf1 h hf hbp hb
    simp only [MaxFlow.dfs] at h
    split at h
    · simp only [Option.some.injEq, Prod.mk.injEq] at h
      rw [← h.2]
      exact hb
    · next hvt =>
      split at h
      · simp only [Option.some.injEq, Prod.mk.injEq] at h
        rw [← h.2]
        exact hb
      · next e he =>
        split at h
        · next hc =>
          split at h
          · simp at h
          · next d1 mf2 hrec =>
            obtain ⟨hl2, _, hz2, hp2⟩ := dfs_spec fuel mf e.to_ t _ d1 mf2 hrec
            split at h
            · next hd1 =>
              simp only [Option.some.injEq, Prod.mk.injEq] at h
              rw [← h.2]
              obtain ⟨_, path, hpath, hg⟩ := hp2 hd1
              have hb2 := ih mf e.to_ t _ d1 mf2 hrec (lt_min hf hc.1) hbp hb
              have hev : edgeAt mf2.graph v (mf.iter[v]?.getD 0) = some e := by
                rw [hg]
                exact augPath_edge he hc.2 hpath
              have hbp2 : BackPtr mf2.graph := by
                rw [hg]
                exact sameShape_backPtr (sameShape_pushPath _ _ _) hbp
              exact blocked_pushEdge (le_of_lt hd1) hbp2 hev (by rw [hl2]; exact hc.2) hb2
            · next hd1 =>
              have hg2 := hz2 (not_lt.mp hd1)
              obtain ⟨hb2, hnr⟩ := dfs_blocked fuel mf e.to_ t _ d1 mf2 hrec (lt_min hf hc.1) hb
                (not_lt.mp hd1)
              have hcur : cursor mf2 v = cursor mf v :=
                dfs_iter_frame fuel mf e.to_ t _ d1 mf2 hrec v hc.2
              have hb3 : Blocked (mf2.advance v) t := by
                apply blocked_advance hb2
                intro x hx _ _
                rw [hg2, hcur] at hx
                unfold cursor at hx
                rw [he] at hx
                simp only [Option.some.injEq] at hx
                rw [hg2, hl2, ← hx]
                exact hnr
              exact ih (mf2.advance v) v t f d mf1 h hf (by rw [advance_graph, hg2]; exact hbp) hb3
        · next hc =>
          have hb3 : Blocked (mf.advance v) t := by
            apply blocked_advance hb
            intro x hx hxc hxl
            unfold cursor at hx
            rw [he] at hx
            simp only [Option.some.injEq] at hx
            rw [← hx] at hxc hxl
            exact absurd ⟨hxc, hxl⟩ hc
          exact ih (mf.advance v) v t f d mf1 h hf hbp hb3

theorem dfs_nonneg : ∀ (fuel : Nat) (mf : MaxFlow) (v t : Nat) (f d : Int) (mf1 : MaxFlow),
    MaxFlow.dfs fuel mf v t f = some (d, mf1) → 0 ≤ f → 0 ≤ d := by
  intro fuel
  induction fuel with
  | zero => intro mf v t f d mf1 h; simp [MaxFlow.dfs] at h
  | succ fuel ih =>
    intro mf v t f d mf1 h hf
    simp only [MaxFlow.dfs] at h
    split at h
    · simp only [Option.some.injEq, Prod.mk.injEq] at h
      omega
    · split at h
      · simp only [Option.some.injEq, Prod.mk.injEq] at h
        omega
      · split at h
        · split at h
          · simp at h
          · split at h
            · next hd1 =>
              simp only [Option.some.injEq, Prod.mk.injEq] at h
              omega
            · exact ih _ v t f d mf1 h hf
        · exact ih _ v t f d mf1 h hf

theorem canReach_of_levelPath {g : Graph} {level : List Int} {t u : Nat}
    {path : List (Nat × Nat)} (h : LevelPath g level t u path)
    (hpos : ∀ vi ∈ path, 0 < capAt g vi.1 vi.2) : CanReach g level t u := by
  induction h with
  | nil => exact CanReach.here
  | @cons v i e rest he hl _ ih =>
    have h1 := hpos (v, i) (List.mem_cons_self _ _)
    simp only [capAt, he, Option.map_some', Option.getD_some] at h1
    exact CanReach.step he h1 (by omega) (ih (fun vi hvi => hpos vi (List.mem_cons_of_mem _ hvi)))

/-- No edge that a cursor has passed lies on an augmenting path of the level
graph. -/
theorem levelPath_avoids_skipped {mf : MaxFlow} {t u : Nat} {path : List (Nat × Nat)}
    (hb : Blocked mf t) (h : LevelPath mf.graph mf.level t u path)
    (hpos : ∀ vi ∈ path, 0 < capAt mf.graph vi.1 vi.2) :
    ∀ vi ∈ path, cursor mf vi.1 ≤ vi.2 := by
  induction h with
  | nil => intro vi hvi; simp at hvi
  | @cons v i e rest he hl hrest ih =>
    have hpos2 : ∀ vi ∈ rest, 0 < capAt mf.graph vi.1 vi.2 :=
      fun vi hvi => hpos vi (List.mem_cons_of_mem _ hvi)
    intro vi hvi
    rcases List.mem_cons.mp hvi with h1 | h1
    · subst h1
      simp only
      by_contra hlt
      have h2 := hpos (v, i) (List.mem_cons_self _ _)
      simp only [capAt, he, Option.map_some', Option.getD_some] at h2
      exact hb v i e (not_le.mp hlt) he h2 (by omega) (canReach_of_levelPath hrest hpos2)
    · exact ih hpos2 vi h1

/-- When the source cannot reach the sink along edges of positive capacity
that go up in level, every path of the level graph has an edge of capacity
`0`. -/
theorem levelPath_has_zero {g : Graph} {level : List Int} {t s : Nat} (hg : NonNeg g)
    (hn : ¬ CanReach g level t s) {path : List (Nat × Nat)} (h : LevelPath g level t s path) :
    ∃ vi ∈ path, capAt g vi.1 vi.2 = 0 := by
  by_contra hne
  push_neg at hne
  apply hn
  apply canReach_of_levelPath h
  intro vi hvi
  have h1 := hne vi hvi
  have h2 : 0 ≤ capAt g vi.1 vi.2 := by
    unfold capAt
    cases he : edgeAt g vi.1 vi.2 with
    | none => simp
    | some e => simpa using hg _ _ e he
  omega

theorem inPhase_inv {s t : Nat} {mf1 mf : MaxFlow} (hwf : mf1.WF) (hbp : BackPtr mf1.graph)
    (h : InPhase s t mf1 mf) :
    mf.WF ∧ BackPtr mf.graph ∧ Blocked mf t ∧ mf.level = mf1.level ∧
      mf.graph.length = mf1.graph.length := by
  induction h with
  | start =>
    exact ⟨⟨hwf.level_len, by simp [hwf.iter_len], hwf.inRange, hwf.nonNeg⟩, hbp,
      blocked_fresh mf1 t, rfl, rfl⟩
  | @again mf mf2 fuel d _ hd hpos ih =>
    obtain ⟨k1, k2, k3, k4, k5⟩ := ih
    obtain ⟨hl, _, _, hp⟩ := dfs_spec fuel mf s t INF d mf2 hd
    obtain ⟨_, path, _, hg⟩ := hp hpos
    have hsh : SameShape mf.graph mf2.graph := by rw [hg]; exact sameShape_pushPath _ _ _
    exact ⟨dfs_wf k1 hd, sameShape_backPtr hsh k2,
      dfs_blocked_any fuel mf s t INF d mf2 hd INF_pos k2 k3, hl.trans k4, hsh.1.trans k5⟩

/-- The loop of `max_flow` ends in the state that the first call of `dfs`
without flow leaves, and all its calls are made in states of the phase. -/
theorem augment_inPhase {s t : Nat} {mf1 : MaxFlow} :
    ∀ (fuel : Nat) (mf : MaxFlow) (flow flow1 : Int) (mf3 : MaxFlow),
    InPhase s t mf1 mf → MaxFlow.augment fuel mf s t flow = some (flow1, mf3) →
    ∃ mf2 fuel2 d, InPhase s t mf1 mf2 ∧ mf2.dfs fuel2 s t INF = some (d, mf3) ∧ d ≤ 0 := by
  intro fuel
  induction fuel with
  | zero => intro mf flow flow1 mf3 _ h; simp [MaxFlow.augment] at h
  | succ fuel ih =>
    intro mf flow flow1 mf3 hin h
    simp only [MaxFlow.augment] at h
    split at h
    · simp at h
    · next f mf2 hdfs =>
      split at h
      · next hf => exact ih mf2 _ flow1 mf3 (InPhase.again hin hdfs (by simpa using hf)) h
      · next hf =>
        simp only [Option.some.injEq, Prod.mk.injEq] at h
        rw [← h.2]
        exact ⟨mf, fuel, f, hin, hdfs, by simpa using hf⟩

/-- C17.  Take a graph built by `add_edge` calls with non-negative
capacities, in-range `s ≠ t`, a state `mf` that `max_flow(s, t)` passes
through and the state `mf1` that `bfs(s)` makes of it (the start of a phase).
In every state of the phase in which `dfs(s, t, INF)` is called, no edge that
a cursor has passed lies on an augmenting path of the level graph, and the
call returns; when it returns without flow, it returns `0`, leaves the graph
unchanged, and every path from `s` to `t` in the level graph (edges with
`level[to] = level[from] + 1`) has an edge of residual capacity `0`.  The
inner loop of `max_flow` returns, and it ends in such a state. -/
theorem phase_blocking_flow (n : Nat) (calls : List Call) (s t : Nat) (hv : ValidCalls n calls)
    (hs : s < n) (hst : s ≠ t) (mf : MaxFlow) (hmf : Reached (MaxFlow.built n calls) s t mf)
    (fuel1 : Nat) (mf1 : MaxFlow) (hbfs : mf.bfs fuel1 s = some mf1) :
    (∀ mf2, InPhase s t mf1 mf2 →
      (∀ u path, LevelPath mf2.graph mf2.level t u path →
        (∀ vi ∈ path, 0 < capAt mf2.graph vi.1 vi.2) → ∀ vi ∈ path, cursor mf2 vi.1 ≤ vi.2) ∧
      (∃ fuel r, mf2.dfs fuel s t INF = some r) ∧
      ∀ fuel d mf3, mf2.dfs fuel s t INF = some (d, mf3) → d ≤ 0 →
        d = 0 ∧ mf3.graph = mf2.graph ∧ mf3.level = mf1.level ∧
        ∀ path, LevelPath mf3.graph mf3.level t s path →
          ∃ vi ∈ path, capAt mf3.graph vi.1 vi.2 = 0) ∧
    ∀ flow,
      (∃ fuel r, MaxFlow.augment fuel { mf1 with iter := List.replicate mf1.iter.length 0 }
        s t flow = some r) ∧
      ∀ fuel flow1 mf3,
        MaxFlow.augment fuel { mf1 with iter := List.replicate mf1.iter.length 0 } s t flow =
          some (flow1, mf3) →
        (∃ mf2 fuel2, InPhase s t mf1 mf2 ∧ mf2.dfs fuel2 s t INF = some (0, mf3)) ∧
        ∀ path, LevelPath mf3.graph mf3.level t s path →
          ∃ vi ∈ path, capAt mf3.graph vi.1 vi.2 = 0 := by
  obtain ⟨hwf0, hlen0⟩ := built_wf hv
  have hbp0 : BackPtr (MaxFlow.built n calls).graph := by
    rw [built_graph]
    exact (build_invariants hv).2.1
  have hs0 : s < (MaxFlow.built n calls).graph.length := by rw [hlen0]; exact hs
  have hr1 : Reached (MaxFlow.built n calls) s t mf1 := Reached.bfs hmf hbfs
  have hwf1 : mf1.WF := reached_wf hwf0 hs0 hr1
  have hsh1 := reached_sameShape hr1
  have hbp1 : BackPtr mf1.graph := sameShape_backPtr hsh1 hbp0
  have hend : ∀ mf2, InPhase s t mf1 mf2 → ∀ fuel d mf3,
      mf2.dfs fuel s t INF = some (d, mf3) → d ≤ 0 →
      d = 0 ∧ mf3.graph = mf2.graph ∧ mf3.level = mf1.level ∧
        ∀ path, LevelPath mf3.graph mf3.level t s path →
          ∃ vi ∈ path, capAt mf3.graph vi.1 vi.2 = 0 := by
    intro mf2 hin fuel d mf3 hd hle
    obtain ⟨k1, k2, k3, k4, _⟩ := inPhase_inv hwf1 hbp1 hin
    obtain ⟨hl, _, hz, _⟩ := dfs_spec fuel mf2 s t INF d mf3 hd
    have hd0 := dfs_nonneg fuel mf2 s t INF d mf3 hd (le_of_lt INF_pos)
    obtain ⟨_, hnr⟩ := dfs_blocked fuel mf2 s t INF d mf3 hd INF_pos k3 hle
    refine ⟨by omega, hz hle, hl.trans k4, fun path hpath => ?_⟩
    rw [hz hle, hl] at hpath
    rw [hz hle]
    exact levelPath_has_zero k1.nonNeg hnr hpath
  constructor
  · intro mf2 hin
    obtain ⟨k1, k2, k3, k4, k5⟩ := inPhase_inv hwf1 hbp1 hin
    refine ⟨fun u path hpath hpos => levelPath_avoids_skipped k3 hpath hpos, ?_, hend mf2 hin⟩
    obtain ⟨N, r, hN⟩ := dfs_halts k1 s t INF (by rw [k5, hsh1.1]; exact hs0)
    exact ⟨N, r, hN N (le_refl _)⟩
  · intro flow
    have hwfr : MaxFlow.WF { mf1 with iter := List.replicate mf1.iter.length 0 } :=
      ⟨hwf1.level_len, by simp [hwf1.iter_len], hwf1.inRange, hwf1.nonNeg⟩
    constructor
    · obtain ⟨N, r, hN⟩ := augment_halts hst _ _ flow hwfr (by rw [hsh1.1]; exact hs0) (le_refl _)
      exact ⟨N, r, hN N (le_refl _)⟩
    · intro fuel flow1 mf3 haug
      obtain ⟨mf2, fuel2, d, hin, hd, hle⟩ := augment_inPhase fuel _ flow flow1 mf3 InPhase.start haug
      obtain ⟨h0, _, _, hz⟩ := hend mf2 hin fuel2 d mf3 hd hle
      subst h0
      exact ⟨⟨mf2, fuel2, hin, hd⟩, hz⟩

theorem phase_blocking_flow_witness :
    ValidCalls 3 [⟨0, 1, 2⟩, ⟨1, 2, 1⟩] ∧ 0 < 3 ∧ 0 ≠ 2 ∧
    (MaxFlow.built 3 [⟨0, 1, 2⟩, ⟨1, 2, 1⟩]).bfs 4 0 =
      some ⟨[[⟨1, 0, 2⟩], [⟨0, 0, 0⟩, ⟨2, 0, 1⟩], [⟨1, 1, 0⟩]], [0, 1, 2], [0, 0, 0], 3⟩ ∧
    ∀ flow fuel flow1 mf3,
      MaxFlow.augment fuel
        ⟨[[⟨1, 0, 2⟩], [⟨0, 0, 0⟩, ⟨2, 0, 1⟩], [⟨1, 1, 0⟩]], [0, 1, 2], List.replicate 3 0, 3⟩
        0 2 flow = some (flow1, mf3) →
      ∀ path, LevelPath mf3.graph mf3.level 2 0 path → ∃ vi ∈ path, capAt mf3.graph vi.1 vi.2 = 0 :=
  ⟨by decide, by decide, by decide, by decide, fun flow fuel flow1 mf3 h =>
    (((phase_blocking_flow 3 [⟨0, 1, 2⟩, ⟨1, 2, 1⟩] 0 2 (by decide) (by decide) (by decide)
      (MaxFlow.built 3 [⟨0, 1, 2⟩, ⟨1, 2, 1⟩]) Reached.init 4
      ⟨[[⟨1, 0, 2⟩], [⟨0, 0, 0⟩, ⟨2, 0, 1⟩], [⟨1, 1, 0⟩]], [0, 1, 2], [0, 0, 0], 3⟩
      (by decide)).2 flow).2 fuel flow1 mf3 h).2⟩

/-! ## The labels of `bfs` are distances -/

theorem bfsDist_visit {g : Graph} {s v : Nat} {level : List Int} {q : List Nat} {e : Edge}
    (hg : InRange g) (hinv : BfsInv g s level (v :: q)) (hd : BfsDist g level (v :: q))
    (he : e ∈ adjOf g v) :
    BfsDist g (bfsVisit v (level, q) e).1 (v :: (bfsVisit v (level, q) e).2) ∧
    (0 < e.cap → levelOf (bfsVisit v (level, q) e).1 e.to_ ≤
      levelOf (bfsVisit v (level, q) e).1 v + 1) := by
  have hv : 0 ≤ levelOf level v := hinv.queued v (List.mem_cons_self _ _)
  obtain ⟨i, hi⟩ := mem_adjOf he
  obtain ⟨r, hr⟩ := hg v i e hi
  have hto : e.to_ < level.length := by rw [hinv.len]; exact (edgeAt_lt hr).1
  have hspan := hd.span v rfl
  by_cases hc : e.cap > 0 ∧ levelOf level e.to_ < 0
  · have hdef : bfsVisit v (level, q) e = (level.set e.to_ (levelOf level v + 1), q ++ [e.to_]) := by
      unfold bfsVisit
      rw [if_pos hc]
    rw [hdef]
    simp only
    have hnew : levelOf (level.set e.to_ (levelOf level v + 1)) e.to_ = levelOf level v + 1 := by
      rw [levelOf_set, if_pos ⟨rfl, hto⟩]
    have hold : ∀ w, w ≠ e.to_ →
        levelOf (level.set e.to_ (levelOf level v + 1)) w = levelOf level w := by
      intro w hw
      rw [levelOf_set, if_neg (fun h => hw h.1)]
    have hlab : ∀ w, 0 ≤ levelOf level w →
        levelOf (level.set e.to_ (levelOf level v + 1)) w = levelOf level w := by
      intro w hw
      exact hold w (fun h => by rw [h] at hw; omega)
    refine ⟨⟨?_, ?_, ?_, ?_⟩, fun _ => by rw [hnew, hlab v hv]⟩
    · intro w
      by_cases hw : w = e.to_
      · right
        rw [hw, hnew]
        omega
      · rw [hold w hw]
        exact hd.floor w
    · rw [← List.cons_append, List.pairwise_append]
      refine ⟨?_, List.pairwise_singleton _ _, ?_⟩
      · apply List.Pairwise.imp_of_mem _ hd.sorted
        intro a b ha hb hab
        rw [hlab a (hinv.queued a ha), hlab b (hinv.queued b hb)]
        exact hab
      · intro a ha b hb
        simp only [List.mem_singleton] at hb
        rw [hb, hnew, hlab a (hinv.queued a ha)]
        exact hspan a (hinv.queued a ha)
    · intro u hu w hw
      simp only [List.head?_cons, Option.some.injEq] at hu
      subst hu
      rw [hlab _ hv]
      by_cases hwe : w = e.to_
      · rw [hwe, hnew]
      · rw [hold w hwe] at hw ⊢
        exact hspan w hw
    · intro u hu
      by_cases hue : u = e.to_
      · left
        rw [hue, ← List.cons_append]
        exact List.mem_append_right _ (List.mem_singleton.mpr rfl)
      · rw [hold u hue] at hu ⊢
        rcases hd.relax u hu with h1 | h1
        · left
          rw [← List.cons_append]
          exact List.mem_append_left _ h1
        · rcases hinv.closed u hu with h2 | h2
          · left
            rw [← List.cons_append]
            exact List.mem_append_left _ h2
          · right
            intro j x hx hxc
            rw [hlab x.to_ (h2 j x hx hxc)]
            exact h1 j x hx hxc
  · have hdef : bfsVisit v (level, q) e = (level, q) := by
      unfold bfsVisit
      rw [if_neg hc]
    rw [hdef]
    refine ⟨hd, fun hcap => ?_⟩
    apply hspan
    by_contra hneg
    exact hc ⟨hcap, not_le.mp hneg⟩

theorem bfsDist_fold {g : Graph} {s v : Nat} (hg : InRange g) :
    ∀ (es : List Edge) (level : List Int) (q : List Nat),
    (∀ e ∈ es, e ∈ adjOf g v) → BfsInv g s level (v :: q) → BfsDist g level (v :: q) →
    BfsDist g (es.foldl (bfsVisit v) (level, q)).1 (v :: (es.foldl (bfsVisit v) (level, q)).2) ∧
    (∀ e ∈ es, 0 < e.cap → levelOf (es.foldl (bfsVisit v) (level, q)).1 e.to_ ≤
      levelOf (es.foldl (bfsVisit v) (level, q)).1 v + 1) := by
  intro es
  induction es with
  | nil => intro level q _ _ hd; exact ⟨hd, fun e he => by simp at he⟩
  | cons e es ih =>
    intro level q hes hinv hd
    have hmem := hes e (List.mem_cons_self _ _)
    obtain ⟨h1, h2⟩ := bfsVisit_step hg hinv hmem
    obtain ⟨d1, d2⟩ := bfsDist_visit hg hinv hd hmem
    have hes2 : ∀ x ∈ es, x ∈ adjOf g v := fun x hx => hes x (List.mem_cons_of_mem _ hx)
    obtain ⟨k1, k2⟩ := ih (bfsVisit v (level, q) e).1 (bfsVisit v (level, q) e).2 hes2 h1 d1
    obtain ⟨_, _, k3⟩ := bfs_fold hg es (bfsVisit v (level, q) e).1 (bfsVisit v (level, q) e).2
      hes2 h1
    simp only [List.foldl_cons]
    refine ⟨k1, ?_⟩
    intro x hx hxc
    rcases List.mem_cons.mp hx with h3 | h3
    · subst h3
      rw [k3 x.to_ (h2 hxc), k3 v (h1.queued v (List.mem_cons_self _ _))]
      exact d2 hxc
    · exact k2 x h3 hxc

theorem bfsDist_pop {g : Graph} {s v : Nat} {level : List Int} {q : List Nat} (hg : InRange g)
    (hinv : BfsInv g s level (v :: q)) (hd : BfsDist g level (v :: q)) :
    BfsDist g ((adjOf g v).foldl (bfsVisit v) (level, q)).1
      ((adjOf g v).foldl (bfsVisit v) (level, q)).2 := by
  obtain ⟨k1, k2⟩ := bfsDist_fold hg (adjOf g v) level q (fun _ h => h) hinv hd
  have hs := List.pairwise_cons.mp k1.sorted
  refine ⟨k1.floor, hs.2, ?_, ?_⟩
  · intro u hu w hw
    have hmem : u ∈ ((adjOf g v).foldl (bfsVisit v) (level, q)).2 := by
      cases hq : ((adjOf g v).foldl (bfsVisit v) (level, q)).2 with
      | nil => rw [hq] at hu; simp at hu
      | cons a l =>
        rw [hq] at hu
        simp only [List.head?_cons, Option.some.injEq] at hu
        rw [hu]
        exact List.mem_cons_self _ _
    have h1 := hs.1 u hmem
    have h2 := k1.span v rfl w hw
    omega
  · intro u hu
    rcases k1.relax u hu with h1 | h1
    · rcases List.mem_cons.mp h1 with h2 | h2
      · right
        intro i e he hc
        rw [h2] at he ⊢
        exact k2 e (edgeAt_mem he) hc
      · exact Or.inl h2
    · exact Or.inr h1

theorem bfsLoop_dist {g : Graph} {s : Nat} (hg : InRange g) :
    ∀ (fuel : Nat) (level : List Int) (q : List Nat) (out : List Int),
    BfsInv g s level q → BfsDist g level q → bfsLoop g fuel level q = some out →
    BfsDist g out [] := by
  intro fuel
  induction fuel with
  | zero =>
    intro level q out _ hd h
    cases q with
    | nil =>
      simp only [bfsLoop, Option.some.injEq] at h
      subst h
      exact hd
    | cons v q => simp [bfsLoop] at h
  | succ fuel ih =>
    intro level q out hinv hd h
    cases q with
    | nil =>
      simp only [bfsLoop, Option.some.injEq] at h
      subst h
      exact hd
    | cons v q =>
      simp only [bfsLoop] at h
      exact ih _ _ out (bfsInv_pop hg hinv) (bfsDist_pop hg hinv hd) h

theorem bfsDist_init {n s : Nat} (g : Graph) (hs : s < n) :
    BfsDist g ((List.replicate n (-1)).set s 0) [s] := by
  have hlev : ∀ w, levelOf ((List.replicate n (-1 : Int)).set s 0) w = if w = s then 0 else -1 := by
    intro w
    rw [levelOf_set]
    simp only [List.length_replicate, hs, and_true]
    split
    · rfl
    · unfold levelOf
      rw [List.getElem?_replicate]
      split <;> rfl
  have hlab : ∀ w, 0 ≤ levelOf ((List.replicate n (-1 : Int)).set s 0) w → w = s := by
    intro w hw
    rw [hlev] at hw
    by_contra h
    rw [if_neg h] at hw
    omega
  refine ⟨?_, List.pairwise_singleton _ _, ?_, ?_⟩
  · intro w
    rw [hlev]
    split
    · exact Or.inr (le_refl _)
    · exact Or.inl rfl
  · intro u hu w hw
    simp only [List.head?_cons, Option.some.injEq] at hu
    rw [hlab w hw, ← hu]
    omega
  · intro u hu
    left
    rw [hlab u hu]
    exact List.mem_singleton.mpr rfl

theorem posPath_of_label {g : Graph} {s : Nat} {level : List Int} (hinv : BfsInv g s level []) :
    ∀ (k : Nat) (w : Nat), 0 ≤ levelOf level w → (levelOf level w).toNat = k → PosPath g s w k := by
  intro k
  induction k with
  | zero =>
    intro w hw hk
    rcases hinv.parent w hw with h1 | ⟨u, i, e, _, _, _, hu, hlw⟩
    · rw [h1]
      exact PosPath.nil
    · omega
  | succ k ih =>
    intro w hw hk
    rcases hinv.parent w hw with h1 | ⟨u, i, e, he, hew, hc, hu, hlw⟩
    · rw [h1, hinv.src] at hk
      simp at hk
    · rw [← hew]
      exact PosPath.snoc (ih u hu (by omega)) he hc

theorem label_le_of_posPath {g : Graph} {s : Nat} {level : List Int} (hinv : BfsInv g s level [])
    (hd : BfsDist g level []) {v k : Nat} (h : PosPath g s v k) :
    0 ≤ levelOf level v ∧ levelOf level v ≤ k := by
  induction h with
  | nil => rw [hinv.src]; exact ⟨le_refl _, by simp⟩
  | @snoc v i k e _ he hc ih =>
    have h1 : 0 ≤ levelOf level e.to_ := by
      rcases hinv.closed v ih.1 with h | h
      · simp at h
      · exact h i e he hc
    have h2 : levelOf level e.to_ ≤ levelOf level v + 1 := by
      rcases hd.relax v ih.1 with h | h
      · simp at h
      · exact h i e he hc
    refine ⟨h1, ?_⟩
    push_cast
    omega

theorem bfs_dist {mf mf1 : MaxFlow} {s fuel : Nat} (hg : InRange mf.graph)
    (hlen : mf.level.length = mf.graph.length) (hs : s < mf.graph.length)
    (h : mf.bfs fuel s = some mf1) : BfsDist mf.graph mf1.level [] := by
  unfold MaxFlow.bfs at h
  split at h
  · simp at h
  · next out hout =>
    simp only [Option.some.injEq] at h
    subst h
    exact bfsLoop_dist hg fuel _ _ out (bfsInv_init hlen (by rw [hlen]; exact hs))
      (bfsDist_init _ (by rw [hlen]; exact hs)) hout

/-- C18.  On a state whose edges name existing positions and whose `level`
has one entry per node, for an in-range `s`, `bfs(s)` returns; afterwards a
node `v` that some path of edges of capacity `> 0` reaches from `s` has
`level[v] ≥ 0`, a path of `level[v]` such edges leads from `s` to `v` and none
is shorter, and `level[v] = -1` exactly when no such path exists (every label
is `-1` or `≥ 0`). -/
theorem bfs_shortest_path (mf : MaxFlow) (s : Nat) (hg : InRange mf.graph)
    (hlen : mf.level.length = mf.graph.length) (hs : s < mf.graph.length) :
    (∃ fuel mf1, mf.bfs fuel s = some mf1) ∧
    ∀ fuel mf1, mf.bfs fuel s = some mf1 →
      mf1.graph = mf.graph ∧
      ∀ v, (levelOf mf1.level v = -1 ∨ 0 ≤ levelOf mf1.level v) ∧
        ((∃ k, PosPath mf.graph s v k) →
          0 ≤ levelOf mf1.level v ∧ PosPath mf.graph s v (levelOf mf1.level v).toNat ∧
          ∀ k, PosPath mf.graph s v k → levelOf mf1.level v ≤ k) ∧
        (levelOf mf1.level v = -1 ↔ ¬ ∃ k, PosPath mf.graph s v k) := by
  constructor
  · obtain ⟨mf1, h⟩ := bfs_terminates hg hlen hs
    exact ⟨_, mf1, h _ (le_refl _)⟩
  · intro fuel mf1 h
    obtain ⟨hg1, _, _, hinv⟩ := bfs_spec hg hlen hs h
    have hd := bfs_dist hg hlen hs h
    refine ⟨hg1, fun v => ⟨hd.floor v, ?_, ?_⟩⟩
    · rintro ⟨k, hk⟩
      have h1 := label_le_of_posPath hinv hd hk
      exact ⟨h1.1, posPath_of_label hinv _ v h1.1 rfl,
        fun k2 hk2 => (label_le_of_posPath hinv hd hk2).2⟩
    · constructor
      · rintro hneg ⟨k, hk⟩
        have := (label_le_of_posPath hinv hd hk).1
        omega
      · intro hno
        rcases hd.floor v with h1 | h1
        · exact h1
        · exact absurd ⟨_, posPath_of_label hinv _ v h1 rfl⟩ hno

theorem bfs_shortest_path_witness :
    InRange (MaxFlow.built 3 [⟨0, 1, 2⟩, ⟨1, 2, 1⟩]).graph ∧
    (MaxFlow.built 3 [⟨0, 1, 2⟩, ⟨1, 2, 1⟩]).level.length =
      (MaxFlow.built 3 [⟨0, 1, 2⟩, ⟨1, 2, 1⟩]).graph.length ∧
    0 < (MaxFlow.built 3 [⟨0, 1, 2⟩, ⟨1, 2, 1⟩]).graph.length ∧
    ((∃ fuel mf1, (MaxFlow.built 3 [⟨0, 1, 2⟩, ⟨1, 2, 1⟩]).bfs fuel 0 = some mf1) ∧
    ∀ fuel mf1, (MaxFlow.built 3 [⟨0, 1, 2⟩, ⟨1, 2, 1⟩]).bfs fuel 0 = some mf1 →
      mf1.graph = (MaxFlow.built 3 [⟨0, 1, 2⟩, ⟨1, 2, 1⟩]).graph ∧
      ∀ v, (levelOf mf1.level v = -1 ∨ 0 ≤ levelOf mf1.level v) ∧
        ((∃ k, PosPath (MaxFlow.built 3 [⟨0, 1, 2⟩, ⟨1, 2, 1⟩]).graph 0 v k) →
          0 ≤ levelOf mf1.level v ∧
          PosPath (MaxFlow.built 3 [⟨0, 1, 2⟩, ⟨1, 2, 1⟩]).graph 0 v (levelOf mf1.level v).toNat ∧
          ∀ k, PosPath (MaxFlow.built 3 [⟨0, 1, 2⟩, ⟨1, 2, 1⟩]).graph 0 v k →
            levelOf mf1.level v ≤ k) ∧
        (levelOf mf1.level v = -1 ↔
          ¬ ∃ k, PosPath (MaxFlow.built 3 [⟨0, 1, 2⟩, ⟨1, 2, 1⟩]).graph 0 v k)) :=
  ⟨(built_wf (by decide : ValidCalls 3 [⟨0, 1, 2⟩, ⟨1, 2, 1⟩])).1.inRange, by decide,
    by decide,
    bfs_shortest_path (MaxFlow.built 3 [⟨0, 1, 2⟩, ⟨1, 2, 1⟩]) 0
      (built_wf (by decide : ValidCalls 3 [⟨0, 1, 2⟩, ⟨1, 2, 1⟩])).1.inRange
      (by decide) (by decide)⟩

/-! ## The level test of `dfs` -/

theorem levelOk_test {g : Graph} {level : List Int} (h : LevelOk g level) {v i : Nat} {e : Edge}
    (hv : 0 ≤ levelOf level v) (he : edgeAt g v i = some e) :
    (e.cap > 0 ∧ levelOf level v < levelOf level e.to_) ↔
      (e.cap > 0 ∧ levelOf level e.to_ = levelOf level v + 1) := by
  constructor
  · rintro ⟨h1, h2⟩
    have := h v i e hv he h1
    exact ⟨h1, by omega⟩
  · rintro ⟨h1, h2⟩
    exact ⟨h1, by omega⟩

theorem levelOk_pushEdge {g : Graph} {level : List Int} {v i : Nat} {e : Edge} {d : Int}
    (hd : 0 ≤ d) (hbp : BackPtr g) (he : edgeAt g v i = some e)
    (hlev : levelOf level v < levelOf level e.to_) (h : LevelOk g level) :
    LevelOk (pushEdge g v i d) level := by
  have hne : e.to_ ≠ v := fun h => by rw [h] at hlev; exact lt_irrefl _ hlev
  intro w j x hw hx hc
  rw [edgeAt_pushEdge d he hne] at hx
  split at hx
  · next hwj =>
    simp only [Option.some.injEq] at hx
    subst hx
    simp only at hc ⊢
    rw [hwj.1] at hw ⊢
    exact h v i e hw he (by omega)
  · split at hx
    · next hwj =>
      obtain ⟨r, hr, hrv⟩ := hbp v i e he
      rw [hr] at hx
      simp only [Option.map_some', Option.some.injEq] at hx
      subst hx
      simp only
      rw [hrv, hwj.1]
      omega
    · exact h w j x hw hx hc

theorem levelOk_pushPath {g : Graph} {level : List Int} {t v : Nat} {d : Int}
    {path : List (Nat × Nat)} (hd : 0 ≤ d) (hbp : BackPtr g)
    (hp : AugPath g level t d v path) (h : LevelOk g level) :
    LevelOk (pushPath g path d) level := by
  induction hp with
  | nil => exact h
  | @cons v i e rest hvt he hcap hlev hrest ih =>
    rw [pushPath_cons]
    exact levelOk_pushEdge hd (sameShape_backPtr (sameShape_pushPath _ _ _) hbp)
      (augPath_edge he hlev hrest) hlev ih

/-- On a state whose labels satisfy `LevelOk`, started at a labelled node,
`dfs` and the search with the exact test do the same. -/
theorem dfs_eq_dfsExact : ∀ (fuel : Nat) (mf : MaxFlow) (v t : Nat) (f : Int),
    LevelOk mf.graph mf.level → 0 ≤ levelOf mf.level v →
    MaxFlow.dfs fuel mf v t f = MaxFlow.dfsExact fuel mf v t f := by
  intro fuel
  induction fuel with
  | zero => intro mf v t f _ _; rfl
  | succ fuel ih =>
    intro mf v t f hok hv
    simp only [MaxFlow.dfs, MaxFlow.dfsExact]
    by_cases hvt : v = t
    · rw [if_pos hvt, if_pos hvt]
    · rw [if_neg hvt, if_neg hvt]
      cases he : edgeAt mf.graph v (mf.iter[v]?.getD 0) with
      | none => rfl
      | some e =>
        simp only
        have hiff := levelOk_test hok hv he
        by_cases hc : e.cap > 0 ∧ levelOf mf.level v < levelOf mf.level e.to_
        · rw [if_pos hc, if_pos (hiff.mp hc), ← ih mf e.to_ t _ hok (by omega)]
          cases hrec : MaxFlow.dfs fuel mf e.to_ t (min f e.cap) with
          | none => rfl
          | some r =>
            obtain ⟨d1, mf2⟩ := r
            simp only
            by_cases hd1 : d1 > 0
            · rw [if_pos hd1, if_pos hd1]
            · rw [if_neg hd1, if_neg hd1]
              obtain ⟨hl2, _, hz2, _⟩ := dfs_spec fuel mf e.to_ t _ d1 mf2 hrec
              apply ih
              · rw [advance_graph, advance_level, hz2 (not_lt.mp hd1), hl2]
                exact hok
              · rw [advance_level, hl2]
                exact hv
        · rw [if_neg hc, if_neg (fun h => hc (hiff.mpr h))]
          exact ih _ v t f hok hv

theorem levelPath_of_augPath {g : Graph} {level : List Int} {t v : Nat} {d : Int}
    {path : List (Nat × Nat)} (hd : 0 < d) (h : LevelOk g level)
    (hp : AugPath g level t d v path) (hv : 0 ≤ levelOf level v) :
    LevelPath g level t v path := by
  induction hp with
  | nil => exact LevelPath.nil
  | @cons v i e rest hvt he hcap hlev hrest ih =>
    have h1 := h v i e hv he (by omega)
    exact LevelPath.cons he (by omega) (ih (by omega))

theorem levelOk_bfs {mf mf1 : MaxFlow} {s fuel : Nat} (hg : InRange mf.graph)
    (hlen : mf.level.length = mf.graph.length) (hs : s < mf.graph.length)
    (h : mf.bfs fuel s = some mf1) : LevelOk mf1.graph mf1.level := by
  obtain ⟨hg1, _, _, _⟩ := bfs_spec hg hlen hs h
  have hd := bfs_dist hg hlen hs h
  intro v i e hv he hc
  rw [hg1] at he
  rcases hd.relax v hv with h1 | h1
  · simp at h1
  · exact h1 i e he hc

theorem inPhase_levelOk {s t : Nat} {mf1 mf : MaxFlow} (hwf : mf1.WF) (hbp : BackPtr mf1.graph)
    (hok : LevelOk mf1.graph mf1.level) (h : InPhase s t mf1 mf) :
    LevelOk mf.graph mf.level := by
  induction h with
  | start => exact hok
  | @again mf mf2 fuel d hin hd hpos ih =>
    obtain ⟨_, k2, _, _, _⟩ := inPhase_inv hwf hbp hin
    obtain ⟨hl, _, _, hp⟩ := dfs_spec fuel mf s t INF d mf2 hd
    obtain ⟨_, path, hpath, hg⟩ := hp hpos
    rw [hg, hl]
    exact levelOk_pushPath (le_of_lt hpos) k2 hpath ih

/-- C19.  Take a graph built by `add_edge` calls with non-negative
capacities, an in-range `s`, a state `mf` that `max_flow(s, t)` passes through
and the state `mf1` that `bfs(s)` makes of it.  In every state of the phase in
which `dfs(s, t, INF)` is called, for every edge `e` stored at a labelled node
`v` the test `e.cap > 0 && level[v] < level[e.to]` holds if and only if
`e.cap > 0 && level[e.to] = level[v] + 1` holds; `s` is labelled and `dfs`
descends only to nodes of larger level, so `dfs` from any labelled node does
what the search with the second test does; and the edges along which a call
`dfs(s, t, INF)` pushes flow form a path from `s` to `t` that goes up exactly
one level at every edge. -/
theorem dfs_level_test (n : Nat) (calls : List Call) (s t : Nat) (hv : ValidCalls n calls)
    (hs : s < n) (mf : MaxFlow) (hmf : Reached (MaxFlow.built n calls) s t mf)
    (fuel1 : Nat) (mf1 : MaxFlow) (hbfs : mf.bfs fuel1 s = some mf1) :
    ∀ mf2, InPhase s t mf1 mf2 →
      (∀ v i e, 0 ≤ levelOf mf2.level v → edgeAt mf2.graph v i = some e →
        ((e.cap > 0 ∧ levelOf mf2.level v < levelOf mf2.level e.to_) ↔
          (e.cap > 0 ∧ levelOf mf2.level e.to_ = levelOf mf2.level v + 1))) ∧
      0 ≤ levelOf mf2.level s ∧
      (∀ fuel v f, 0 ≤ levelOf mf2.level v →
        mf2.dfs fuel v t f = mf2.dfsExact fuel v t f) ∧
      ∀ fuel d mf3, mf2.dfs fuel s t INF = some (d, mf3) → 0 < d →
        ∃ path, LevelPath mf2.graph mf2.level t s path ∧
          mf3.graph = pushPath mf2.graph path d := by
  obtain ⟨hwf0, hlen0⟩ := built_wf hv
  have hbp0 : BackPtr (MaxFlow.built n calls).graph := by
    rw [built_graph]
    exact (build_invariants hv).2.1
  have hs0 : s < (MaxFlow.built n calls).graph.length := by rw [hlen0]; exact hs
  have hwf : mf.WF := reached_wf hwf0 hs0 hmf
  have hsh := reached_sameShape hmf
  have hr1 : Reached (MaxFlow.built n calls) s t mf1 := Reached.bfs hmf hbfs
  have hwf1 : mf1.WF := reached_wf hwf0 hs0 hr1
  have hbp1 : BackPtr mf1.graph := sameShape_backPtr (reached_sameShape hr1) hbp0
  have hsm : s < mf.graph.length := by rw [hsh.1]; exact hs0
  have hok1 : LevelOk mf1.graph mf1.level := levelOk_bfs hwf.inRange hwf.level_len hsm hbfs
  obtain ⟨_, _, _, hinv⟩ := bfs_spec hwf.inRange hwf.level_len hsm hbfs
  intro mf2 hin
  have hok := inPhase_levelOk hwf1 hbp1 hok1 hin
  obtain ⟨_, _, _, k4, _⟩ := inPhase_inv hwf1 hbp1 hin
  have hsl : 0 ≤ levelOf mf2.level s := by rw [k4, hinv.src]
  refine ⟨fun v i e hlab he => levelOk_test hok hlab he, hsl,
    fun fuel v f hlab => dfs_eq_dfsExact fuel mf2 v t f hok hlab, ?_⟩
  intro fuel d mf3 hd hpos
  obtain ⟨_, _, _, hp⟩ := dfs_spec fuel mf2 s t INF d mf3 hd
  obtain ⟨_, path, hpath, hg⟩ := hp hpos
  exact ⟨path, levelPath_of_augPath hpos hok hpath hsl, hg⟩

theorem dfs_level_test_witness :
    ValidCalls 3 [⟨0, 1, 2⟩, ⟨1, 2, 1⟩] ∧ 0 < 3 ∧
    (MaxFlow.built 3 [⟨0, 1, 2⟩, ⟨1, 2, 1⟩]).bfs 4 0 =
      some ⟨[[⟨1, 0, 2⟩], [⟨0, 0, 0⟩, ⟨2, 0, 1⟩], [⟨1, 1, 0⟩]], [0, 1, 2], [0, 0, 0], 3⟩ ∧
    ∀ fuel v f, 0 ≤ levelOf [0, 1, 2] v →
      MaxFlow.dfs fuel
        ⟨[[⟨1, 0, 2⟩], [⟨0, 0, 0⟩, ⟨2, 0, 1⟩], [⟨1, 1, 0⟩]], [0, 1, 2], List.replicate 3 0, 3⟩
        v 2 f =
      MaxFlow.dfsExact fuel
        ⟨[[⟨1, 0, 2⟩], [⟨0, 0, 0⟩, ⟨2, 0, 1⟩], [⟨1, 1, 0⟩]], [0, 1, 2], List.replicate 3 0, 3⟩
        v 2 f :=
  ⟨by decide, by decide, by decide,
    (dfs_level_test 3 [⟨0, 1, 2⟩, ⟨1, 2, 1⟩] 0 2 (by decide) (by decide)
      (MaxFlow.built 3 [⟨0, 1, 2⟩, ⟨1, 2, 1⟩]) Reached.init 4
      ⟨[[⟨1, 0, 2⟩], [⟨0, 0, 0⟩, ⟨2, 0, 1⟩], [⟨1, 1, 0⟩]], [0, 1, 2], [0, 0, 0], 3⟩
      (by decide) _ InPhase.start).2.2.1⟩

/-! ## Bus-stop placement (`problem2_busstop.cpp`) -/

/-- C20 (defect).  On the object of `demo_example`, `verify_solution` returns
`false` for `[0, 1]` (student 5 is not covered) and for `[0, 3]` (student 4 is
not covered), and for every other list of two stops; it returns `true` for
the three stops `[0, 1, 2]`.  The note that `demo_example` prints says that
two stops suffice. -/
theorem bus_demo_two_stops :
    busDemo.coverage = [[0, 1, 2], [1, 3, 4], [2, 4, 5], [3, 5]] ∧
    busDemo.verify_solution [0, 1] = false ∧
    busDemo.verify_solution [0, 3] = false ∧
    (∀ a, a < 4 → ∀ b, b < 4 → busDemo.verify_solution [a, b] = false) ∧
    busDemo.verify_solution [0, 1, 2] = true := by
  decide

/-! ## Conservation of the flow, and `max_flow(s, s)` -/

theorem usedCap_eq_edgeFlows (gf : Graph) : ∀ (calls : List Call) (g : Graph),
    SlotsOk gf g calls → usedCap gf g calls = edgeFlows gf g calls := by
  intro calls
  induction calls with
  | nil => intro g _; rfl
  | cons c cs ih =>
    intro g h
    obtain ⟨h1, h2⟩ := h
    simp only [usedCap, edgeFlows]
    rw [ih _ h2]
    congr 1
    omega

/-- C21, as stated, fails in its last part: after three calls
`add_edge(0, 1, 1000000000)` on a `MaxFlow(2)`, the flow on the inserted edges
that leaves node `0` is `3000000000` and none enters it, while
`max_flow(0, 1)` returns `-1294967296`: the accumulator `int flow` has
wrapped. -/
theorem net_flow_wraps :
    ValidCalls 2 threeBigEdges ∧
    ((MaxFlow.built 2 threeBigEdges).max_flow_int 10 0 1).map
      (fun r => (r.1,
        outflow 0 threeBigEdges (usedCap r.2.graph (List.replicate 2 []) threeBigEdges) -
          inflow 0 threeBigEdges (usedCap r.2.graph (List.replicate 2 []) threeBigEdges))) =
      some (-1294967296, 3000000000) := by
  decide

/-- C21 (amended).  On a graph built by `add_edge` calls with non-negative
capacities, for in-range nodes `s ≠ t`, `max_flow(s, t)` returns, and in the
graph it leaves the flow `inserted capacity - residual capacity` of the
inserted edges is conserved at every node other than `s` and `t` (what enters
the node is what leaves it).  The net flow that leaves `s` is not negative;
the returned value is that net flow reduced to the 32-bit range of `int`,
and it is the net flow itself when the net flow is at most `INT_MAX`. -/
theorem max_flow_conserves (n : Nat) (calls : List Call) (s t : Nat) (hv : ValidCalls n calls)
    (hs : s < n) (hst : s ≠ t) :
    (∃ fuel r, (MaxFlow.built n calls).max_flow_int fuel s t = some r) ∧
    ∀ fuel flow mf, (MaxFlow.built n calls).max_flow_int fuel s t = some (flow, mf) →
      (∀ v, v ≠ s → v ≠ t →
        inflow v calls (usedCap mf.graph (List.replicate n []) calls) =
          outflow v calls (usedCap mf.graph (List.replicate n []) calls)) ∧
      0 ≤ outflow s calls (usedCap mf.graph (List.replicate n []) calls) -
        inflow s calls (usedCap mf.graph (List.replicate n []) calls) ∧
      flow = wrapInt (outflow s calls (usedCap mf.graph (List.replicate n []) calls) -
        inflow s calls (usedCap mf.graph (List.replicate n []) calls)) ∧
      (outflow s calls (usedCap mf.graph (List.replicate n []) calls) -
          inflow s calls (usedCap mf.graph (List.replicate n []) calls) ≤ INT_MAX →
        flow = outflow s calls (usedCap mf.graph (List.replicate n []) calls) -
          inflow s calls (usedCap mf.graph (List.replicate n []) calls)) := by
  obtain ⟨hwf, hlen⟩ := built_wf hv
  constructor
  · obtain ⟨N, r, hN⟩ := max_flow_halts (t := t) hwf (by rw [hlen]; exact hs) hst
    refine ⟨N, (wrapInt r.1, r.2), ?_⟩
    rw [max_flow_int_eq, hN N (le_refl _)]
    rfl
  · intro fuel flow mf h0
    obtain ⟨x, h, hflow⟩ := max_flow_int_some h0
    obtain ⟨_, _, hflows⟩ := max_flow_spec hwf (by rw [hlen]; exact hs) h
    rw [built_graph] at hflows
    have hx0 : 0 ≤ x := flows_value_nonneg hflows
    have hpair : ∀ pre c post, calls = pre ++ c :: post →
        capAt mf.graph c.from_ (fwdPos (buildG (List.replicate n []) pre) c) +
          capAt mf.graph c.to_ (revPos (buildG (List.replicate n []) pre) c) = c.cap := by
      intro pre c post hsplit
      subst hsplit
      have := (reached_pairInv hv (max_flow_reached h)).2
      rw [built_graph] at this
      exact this
    obtain ⟨hfeas, hval⟩ := flows_attained hv hst hflows hpair
    rw [usedCap_eq_edgeFlows mf.graph calls _ (slotsOk_of_split mf.graph calls _ hpair)]
    unfold flowValue at hval
    rw [hval]
    refine ⟨hfeas.conserve, hx0, hflow, fun hb => ?_⟩
    rw [hflow]
    exact wrapInt_of_range (by omega) hb

theorem max_flow_conserves_witness :
    ValidCalls 3 [⟨0, 1, 2⟩, ⟨1, 2, 1⟩] ∧ 0 < 3 ∧ 0 ≠ 2 ∧
    (MaxFlow.built 3 [⟨0, 1, 2⟩, ⟨1, 2, 1⟩]).max_flow_int 10 0 2 =
      some (1, ⟨[[⟨1, 0, 1⟩], [⟨0, 0, 1⟩, ⟨2, 0, 0⟩], [⟨1, 1, 1⟩]], [0, 1, -1], [1, 2, 0], 3⟩) ∧
    (∀ v, v ≠ 0 → v ≠ 2 →
      inflow v [⟨0, 1, 2⟩, ⟨1, 2, 1⟩]
          (usedCap [[⟨1, 0, 1⟩], [⟨0, 0, 1⟩, ⟨2, 0, 0⟩], [⟨1, 1, 1⟩]] (List.replicate 3 [])
            [⟨0, 1, 2⟩, ⟨1, 2, 1⟩]) =
        outflow v [⟨0, 1, 2⟩, ⟨1, 2, 1⟩]
          (usedCap [[⟨1, 0, 1⟩], [⟨0, 0, 1⟩, ⟨2, 0, 0⟩], [⟨1, 1, 1⟩]] (List.replicate 3 [])
            [⟨0, 1, 2⟩, ⟨1, 2, 1⟩])) ∧
    (1 : Int) = outflow 0 [⟨0, 1, 2⟩, ⟨1, 2, 1⟩]
        (usedCap [[⟨1, 0, 1⟩], [⟨0, 0, 1⟩, ⟨2, 0, 0⟩], [⟨1, 1, 1⟩]] (List.replicate 3 [])
          [⟨0, 1, 2⟩, ⟨1, 2, 1⟩]) -
      inflow 0 [⟨0, 1, 2⟩, ⟨1, 2, 1⟩]
        (usedCap [[⟨1, 0, 1⟩], [⟨0, 0, 1⟩, ⟨2, 0, 0⟩], [⟨1, 1, 1⟩]] (List.replicate 3 [])
          [⟨0, 1, 2⟩, ⟨1, 2, 1⟩]) :=
  ⟨by decide, by decide, by decide, by decide,
    ((max_flow_conserves 3 [⟨0, 1, 2⟩, ⟨1, 2, 1⟩] 0 2 (by decide) (by decide) (by decide)).2 10 1
      ⟨[[⟨1, 0, 1⟩], [⟨0, 0, 1⟩, ⟨2, 0, 0⟩], [⟨1, 1, 1⟩]], [0, 1, -1], [1, 2, 0], 3⟩
      (by decide)).1,
    ((max_flow_conserves 3 [⟨0, 1, 2⟩, ⟨1, 2, 1⟩] 0 2 (by decide) (by decide) (by decide)).2 10 1
      ⟨[[⟨1, 0, 1⟩], [⟨0, 0, 1⟩, ⟨2, 0, 0⟩], [⟨1, 1, 1⟩]], [0, 1, -1], [1, 2, 0], 3⟩
      (by decide)).2.2.2 (by decide)⟩

theorem bfs_fold_stable (v w : Nat) : ∀ (es : List Edge) (level : List Int) (q : List Nat),
    0 ≤ levelOf level w → levelOf (es.foldl (bfsVisit v) (level, q)).1 w = levelOf level w := by
  intro es
  induction es with
  | nil => intro level q _; rfl
  | cons e es ih =>
    intro level q hw
    have h1 := bfsVisit_stable v level q e w hw
    rw [List.foldl_cons]
    have h2 := ih (bfsVisit v (level, q) e).1 (bfsVisit v (level, q) e).2 (by rw [h1]; exact hw)
    rw [h2, h1]

theorem bfsLoop_stable (g : Graph) (w : Nat) :
    ∀ (fuel : Nat) (level : List Int) (q : List Nat) (out : List Int),
    0 ≤ levelOf level w → bfsLoop g fuel level q = some out → levelOf out w = levelOf level w := by
  intro fuel
  induction fuel with
  | zero =>
    intro level q out _ h
    cases q with
    | nil =>
      simp only [bfsLoop, Option.some.injEq] at h
      rw [h]
    | cons v q => simp [bfsLoop] at h
  | succ fuel ih =>
    intro level q out hw h
    cases q with
    | nil =>
      simp only [bfsLoop, Option.some.injEq] at h
      rw [h]
    | cons v q =>
      simp only [bfsLoop] at h
      have h1 := bfs_fold_stable v w (adjOf g v) level q hw
      rw [ih _ _ out (by rw [h1]; exact hw) h, h1]

/-- The method `bfs` leaves `level[s] = 0`. -/
theorem bfs_level_source {mf mf1 : MaxFlow} {s fuel : Nat} (hs : s < mf.level.length)
    (h : mf.bfs fuel s = some mf1) : levelOf mf1.level s = 0 := by
  unfold MaxFlow.bfs at h
  split at h
  · simp at h
  · next out hout =>
    simp only [Option.some.injEq] at h
    subst h
    have h0 : levelOf ((List.replicate mf.level.length (-1 : Int)).set s 0) s = 0 := by
      rw [levelOf_set, if_pos ⟨rfl, by simpa using hs⟩]
    rw [bfsLoop_stable _ s fuel _ _ out (by rw [h0]) hout, h0]

/-- With `t = s` the inner loop of `max_flow` never ends, whatever the value
of its accumulator `flow`. -/
theorem augment_self (s : Nat) : ∀ (fuel : Nat) (mf : MaxFlow) (flow : Int),
    MaxFlow.augment fuel mf s s flow = none := by
  intro fuel
  induction fuel with
  | zero => intro mf flow; rfl
  | succ fuel ih =>
    intro mf flow
    simp only [MaxFlow.augment]
    cases fuel with
    | zero => rfl
    | succ k =>
      simp only [MaxFlow.dfs, if_true]
      rw [if_pos INF_pos]
      exact ih mf (flow + INF)

theorem phases_self {s : Nat} : ∀ (fuel : Nat) (mf : MaxFlow) (flow : Int),
    s < mf.level.length → MaxFlow.phases fuel mf s s flow = none := by
  intro fuel
  induction fuel with
  | zero => intro mf flow _; rfl
  | succ fuel _ =>
    intro mf flow hs
    simp only [MaxFlow.phases]
    cases hb : MaxFlow.bfs fuel mf s with
    | none => rfl
    | some mf1 =>
      simp only
      rw [if_neg (by rw [bfs_level_source hs hb]; decide), augment_self]

/-- C22.  For every state of a `MaxFlow` object and every node `s` in range,
`max_flow(s, s)` never returns: `bfs(s)` leaves `level[s] = 0`, every call
`dfs(s, s, f)` returns `f` and the unchanged object at once, so with
`f = INF > 0` the inner loop never ends (for every value of the accumulator
`flow`), and no amount of fuel makes `max_flow` return. -/
theorem max_flow_self_diverges (mf : MaxFlow) (s : Nat) (hs : s < mf.level.length) :
    (∀ fuel mf1, mf.bfs fuel s = some mf1 → levelOf mf1.level s = 0) ∧
    (∀ (fuel : Nat) (m : MaxFlow) (f : Int), m.dfs (fuel + 1) s s f = some (f, m)) ∧
    (∀ (fuel : Nat) (m : MaxFlow) (flow : Int), MaxFlow.augment fuel m s s flow = none) ∧
    ∀ fuel, mf.max_flow fuel s s = none :=
  ⟨fun _ _ h => bfs_level_source hs h, fun _ _ _ => by simp [MaxFlow.dfs],
    fun fuel m flow => augment_self s fuel m flow, fun fuel => phases_self fuel mf 0 hs⟩

theorem max_flow_self_diverges_witness :
    1 < (MaxFlow.built 3 [⟨0, 1, 2⟩, ⟨1, 2, 1⟩]).level.length ∧
    ∀ fuel, (MaxFlow.built 3 [⟨0, 1, 2⟩, ⟨1, 2, 1⟩]).max_flow fuel 1 1 = none :=
  ⟨by decide, (max_flow_self_diverges (MaxFlow.built 3 [⟨0, 1, 2⟩, ⟨1, 2, 1⟩]) 1 (by decide)).2.2.2⟩

/-! ## The greedy set cover -/

theorem mem_setInsert (x y : Int) (l : List Int) : y ∈ setInsert x l ↔ y = x ∨ y ∈ l := by
  induction l with
  | nil => simp [setInsert]
  | cons a l ih =>
    simp only [setInsert]
    split
    · simp
    · split
      · next h =>
        subst h
        simp
      · simp only [List.mem_cons, ih]
        tauto

theorem mem_setInsertAll (y : Int) : ∀ (l acc : List Int),
    y ∈ setInsertAll acc l ↔ y ∈ acc ∨ y ∈ l := by
  intro l
  induction l with
  | nil => intro acc; simp [setInsertAll]
  | cons a l ih =>
    intro acc
    have := ih (setInsert a acc)
    unfold setInsertAll at this ⊢
    rw [List.foldl_cons, this, mem_setInsert]
    simp only [List.mem_cons]
    tauto

theorem sorted_setInsert (x : Int) (l : List Int) (h : l.Pairwise (fun a b => a < b)) :
    (setInsert x l).Pairwise (fun a b => a < b) := by
  induction l with
  | nil => simp [setInsert]
  | cons a l ih =>
    obtain ⟨h1, h2⟩ := List.pairwise_cons.mp h
    simp only [setInsert]
    split
    · next hxa =>
      refine List.pairwise_cons.mpr ⟨?_, h⟩
      intro b hb
      rcases List.mem_cons.mp hb with hb | hb
      · rw [hb]; exact hxa
      · exact lt_trans hxa (h1 b hb)
    · split
      · exact h
      · next hxa hne =>
        refine List.pairwise_cons.mpr ⟨?_, ih h2⟩
        intro b hb
        rcases (mem_setInsert x b l).mp hb with hb | hb
        · rw [hb]; omega
        · exact h1 b hb

theorem sorted_setInsertAll : ∀ (l acc : List Int), acc.Pairwise (fun a b => a < b) →
    (setInsertAll acc l).Pairwise (fun a b => a < b) := by
  intro l
  induction l with
  | nil => intro acc h; exact h
  | cons a l ih =>
    intro acc h
    have := ih (setInsert a acc) (sorted_setInsert a acc h)
    unfold setInsertAll at this ⊢
    rw [List.foldl_cons]
    exact this

theorem mem_setInter (x : Int) (a b : List Int) : x ∈ setInter a b ↔ x ∈ a ∧ x ∈ b := by
  simp [setInter]

theorem eraseAll_sublist : ∀ (bc u : List Int),
    (bc.foldl (fun uncovered student => setErase student uncovered) u).Sublist u := by
  intro bc
  induction bc with
  | nil => intro u; exact List.Sublist.refl u
  | cons x bc ih =>
    intro u
    rw [List.foldl_cons]
    exact (ih _).trans (List.filter_sublist _)

theorem mem_eraseAll (y : Int) : ∀ (bc u : List Int),
    y ∈ bc.foldl (fun uncovered student => setErase student uncovered) u ↔ y ∈ u ∧ y ∉ bc := by
  intro bc
  induction bc with
  | nil => intro u; simp
  | cons x bc ih =>
    intro u
    rw [List.foldl_cons, ih]
    simp only [setErase, List.mem_filter, decide_eq_true_eq, List.mem_cons, not_or]
    tauto

theorem eraseAll_length_lt {bc u : List Int} {x : Int} (hx : x ∈ u) (hb : x ∈ bc) :
    (bc.foldl (fun uncovered student => setErase student uncovered) u).length < u.length := by
  have hs := eraseAll_sublist bc u
  rcases Nat.lt_or_ge (bc.foldl (fun uncovered student => setErase student uncovered) u).length
    u.length with h | h
  · exact h
  · exfalso
    have heq := hs.eq_of_length_le h
    have := (mem_eraseAll x bc u).mp (by rw [heq]; exact hx)
    exact this.2 hb

theorem mem_newCoverage (p : BusStopPlacement) (u : List Int) (j : Nat) (x : Int) :
    x ∈ newCoverage p u j ↔ x ∈ p.coverage[j]?.getD [] ∧ x ∈ u := by
  unfold newCoverage
  rw [mem_setInsertAll, mem_setInter]
  simp

theorem bestStop_fold (p : BusStopPlacement) (u : List Int) : ∀ m : Nat,
    (((List.range m).foldl
        (fun (best : Int × List Int) (j : Nat) =>
          let new_coverage := setInsertAll [] (setInter (p.coverage[j]?.getD []) u)
          if new_coverage.length > best.2.length then ((j : Int), new_coverage) else best)
        (-1, []) = (-1, [])) ∨
      ∃ j, j < m ∧ (List.range m).foldl
        (fun (best : Int × List Int) (j : Nat) =>
          let new_coverage := setInsertAll [] (setInter (p.coverage[j]?.getD []) u)
          if new_coverage.length > best.2.length then ((j : Int), new_coverage) else best)
        (-1, []) = ((j : Int), newCoverage p u j) ∧ 0 < (newCoverage p u j).length) ∧
    ∀ j, j < m → (newCoverage p u j).length ≤ ((List.range m).foldl
        (fun (best : Int × List Int) (j : Nat) =>
          let new_coverage := setInsertAll [] (setInter (p.coverage[j]?.getD []) u)
          if new_coverage.length > best.2.length then ((j : Int), new_coverage) else best)
        (-1, [])).2.length := by
  intro m
  induction m with
  | zero => exact ⟨Or.inl rfl, fun j hj => absurd hj (Nat.not_lt_zero j)⟩
  | succ m ih =>
    obtain ⟨h1, h2⟩ := ih
    rw [List.range_succ, List.foldl_append, List.foldl_cons, List.foldl_nil]
    simp only
    by_cases hgt : (setInsertAll [] (setInter (p.coverage[m]?.getD []) u)).length >
        ((List.range m).foldl
          (fun (best : Int × List Int) (j : Nat) =>
            let new_coverage := setInsertAll [] (setInter (p.coverage[j]?.getD []) u)
            if new_coverage.length > best.2.length then ((j : Int), new_coverage) else best)
          (-1, [])).2.length
    · rw [if_pos hgt]
      refine ⟨Or.inr ⟨m, Nat.lt_succ_self m, rfl, ?_⟩, fun j hj => ?_⟩
      · exact lt_of_le_of_lt (Nat.zero_le _) hgt
      · simp only
        rcases Nat.lt_succ_iff_lt_or_eq.mp hj with h | h
        · exact le_trans (h2 j h) (le_of_lt hgt)
        · rw [h]
          exact le_refl _
    · rw [if_neg hgt]
      refine ⟨?_, fun j hj => ?_⟩
      · rcases h1 with h | ⟨j, hj, h, hpos⟩
        · exact Or.inl h
        · exact Or.inr ⟨j, Nat.lt_succ_of_lt hj, h, hpos⟩
      · rcases Nat.lt_succ_iff_lt_or_eq.mp hj with h | h
        · exact h2 j h
        · rw [h]
          exact not_lt.mp hgt

/-- The stop that the inner loop chooses: when some stop covers an uncovered
student, a stop `j` is chosen and it covers at least one of them. -/
theorem bestStop_spec (p : BusStopPlacement) (u : List Int) {j0 : Nat} {x : Int}
    (hj0 : j0 < p.num_candidates) (hx : x ∈ p.coverage[j0]?.getD []) (hxu : x ∈ u) :
    ∃ j, j < p.num_candidates ∧ p.bestStop u = ((j : Int), newCoverage p u j) ∧
      0 < (newCoverage p u j).length := by
  obtain ⟨h1, h2⟩ := bestStop_fold p u p.num_candidates
  have hpos : 0 < (newCoverage p u j0).length :=
    List.length_pos_of_mem ((mem_newCoverage p u j0 x).mpr ⟨hx, hxu⟩)
  rcases h1 with h | ⟨j, hj, h, hp⟩
  · have := h2 j0 hj0
    rw [h] at this
    simp only [List.length_nil] at this
    omega
  · exact ⟨j, hj, h, hp⟩

theorem greedyInv_step {p : BusStopPlacement} {selected : List Nat} {u : List Int} {j : Nat}
    (hinv : GreedyInv p selected u) (hj : j < p.num_candidates)
    (hpos : 0 < (newCoverage p u j).length) :
    GreedyInv p (selected ++ [j])
      ((newCoverage p u j).foldl (fun uncovered student => setErase student uncovered) u) := by
  obtain ⟨y, hy⟩ := List.exists_mem_of_length_pos hpos
  have hy2 := (mem_newCoverage p u j y).mp hy
  refine ⟨?_, ?_, ?_, ?_⟩
  · intro x hx
    exact hinv.students x ((mem_eraseAll x _ u).mp hx).1
  · intro k hk
    rcases hinv.covered k hk with h | ⟨i, hi, h⟩
    · by_cases hc : (k : Int) ∈ newCoverage p u j
      · right
        exact ⟨j, List.mem_append_right _ (List.mem_singleton.mpr rfl),
          ((mem_newCoverage p u j _).mp hc).1⟩
      · left
        exact (mem_eraseAll _ _ u).mpr ⟨h, hc⟩
    · right
      exact ⟨i, List.mem_append_left _ hi, h⟩
  · intro i hi
    rcases List.mem_append.mp hi with h | h
    · refine ⟨(hinv.done i h).1, fun x hx hxu => ?_⟩
      exact (hinv.done i h).2 x hx ((mem_eraseAll x _ u).mp hxu).1
    · rw [List.mem_singleton.mp h]
      refine ⟨hj, fun x hx hxu => ?_⟩
      have h2 := (mem_eraseAll x _ u).mp hxu
      exact h2.2 ((mem_newCoverage p u j x).mpr ⟨hx, h2.1⟩)
  · rw [List.nodup_append]
    refine ⟨hinv.nodup, List.nodup_singleton j, ?_⟩
    intro a ha hb
    rw [List.mem_singleton.mp hb] at ha
    exact (hinv.done j ha).2 y hy2.1 hy2.2

theorem coverable_stop {p : BusStopPlacement} (hp : Coverable p) {k : Nat}
    (hk : k < p.num_students) :
    ∃ j, j < p.num_candidates ∧ (k : Int) ∈ p.coverage[j]?.getD [] := by
  obtain ⟨c, hc, hkc⟩ := hp.all k hk
  obtain ⟨j, hj, hjc⟩ := List.getElem_of_mem hc
  refine ⟨j, by rw [← hp.size]; exact hj, ?_⟩
  rw [List.getElem?_eq_getElem hj]
  simp only [Option.getD_some]
  rw [hjc]
  exact hkc

/-- One round of the loop of `greedy_set_cover`: a stop that covers an
uncovered student is appended, and its students are erased. -/
theorem greedyLoop_step {p : BusStopPlacement} (hp : Coverable p) {selected : List Nat}
    {u : List Int} (hinv : GreedyInv p selected u) (hu : u ≠ []) (fuel : Nat) :
    ∃ j, j < p.num_candidates ∧ 0 < (newCoverage p u j).length ∧
      p.greedyLoop (fuel + 1) selected u =
        p.greedyLoop fuel (selected ++ [j])
          ((newCoverage p u j).foldl (fun uncovered student => setErase student uncovered) u) := by
  cases u with
  | nil => exact absurd rfl hu
  | cons y us =>
    obtain ⟨k, hk, hyk⟩ := hinv.students y (List.mem_cons_self _ _)
    obtain ⟨j0, hj0, hkj⟩ := coverable_stop hp hk
    rw [← hyk] at hkj
    obtain ⟨j, hj, hbest, hpos⟩ := bestStop_spec p (y :: us) hj0 hkj (List.mem_cons_self _ _)
    refine ⟨j, hj, hpos, ?_⟩
    simp only [BusStopPlacement.greedyLoop]
    rw [hbest]
    simp only
    have h1 : ¬ ((j : Int) = -1 ∨ newCoverage p (y :: us) j = []) := by
      rintro (h | h)
      · omega
      · rw [h] at hpos
        simp at hpos
    rw [if_neg h1, Int.toNat_ofNat]

theorem greedyLoop_spec {p : BusStopPlacement} (hp : Coverable p) :
    ∀ (fuel : Nat) (selected : List Nat) (u : List Int) (r : List Nat),
    GreedyInv p selected u → p.greedyLoop fuel selected u = some r → GreedyInv p r [] := by
  intro fuel
  induction fuel with
  | zero =>
    intro selected u r hinv h
    cases u with
    | nil =>
      simp only [BusStopPlacement.greedyLoop, Option.some.injEq] at h
      rw [← h]
      exact hinv
    | cons y us => simp [BusStopPlacement.greedyLoop] at h
  | succ fuel ih =>
    intro selected u r hinv h
    by_cases hu : u = []
    · subst hu
      simp only [BusStopPlacement.greedyLoop, Option.some.injEq] at h
      rw [← h]
      exact hinv
    · obtain ⟨j, hj, hpos, hstep⟩ := greedyLoop_step hp hinv hu fuel
      rw [hstep] at h
      exact ih _ _ r (greedyInv_step hinv hj hpos) h

theorem greedyLoop_halts {p : BusStopPlacement} (hp : Coverable p) :
    ∀ (fuel : Nat) (selected : List Nat) (u : List Int),
    GreedyInv p selected u → u.length ≤ fuel → ∃ r, p.greedyLoop fuel selected u = some r := by
  intro fuel
  induction fuel with
  | zero =>
    intro selected u _ hlen
    have hu : u = [] := List.length_eq_zero.mp (Nat.le_zero.mp hlen)
    subst hu
    exact ⟨selected, rfl⟩
  | succ fuel ih =>
    intro selected u hinv hlen
    by_cases hu : u = []
    · subst hu
      exact ⟨selected, rfl⟩
    · obtain ⟨j, hj, hpos, hstep⟩ := greedyLoop_step hp hinv hu fuel
      rw [hstep]
      apply ih _ _ (greedyInv_step hinv hj hpos)
      obtain ⟨y, hy⟩ := List.exists_mem_of_length_pos hpos
      have hy2 := (mem_newCoverage p u j y).mp hy
      have := eraseAll_length_lt hy2.2 hy
      omega

theorem greedyInv_init (p : BusStopPlacement) :
    GreedyInv p [] (setInsertAll [] ((List.range p.num_students).map (fun (i : Nat) => (i : Int)))) := by
  refine ⟨?_, ?_, ?_, List.nodup_nil⟩
  · intro x hx
    rw [mem_setInsertAll] at hx
    simp only [List.not_mem_nil, List.mem_map, List.mem_range, false_or] at hx
    obtain ⟨k, hk, hxk⟩ := hx
    exact ⟨k, hk, hxk.symm⟩
  · intro k hk
    left
    rw [mem_setInsertAll]
    right
    exact List.mem_map.mpr ⟨k, List.mem_range.mpr hk, rfl⟩
  · intro j hj
    simp at hj

theorem mem_covered (p : BusStopPlacement) (x : Int) : ∀ (r : List Nat) (acc : List Int),
    x ∈ r.foldl (fun cov stop_id => setInsertAll cov (p.coverage[stop_id]?.getD [])) acc ↔
      x ∈ acc ∨ ∃ j ∈ r, x ∈ p.coverage[j]?.getD [] := by
  intro r
  induction r with
  | nil => intro acc; simp
  | cons j r ih =>
    intro acc
    rw [List.foldl_cons, ih, mem_setInsertAll]
    simp only [List.mem_cons, exists_eq_or_imp]
    tauto

theorem sorted_covered (p : BusStopPlacement) : ∀ (r : List Nat) (acc : List Int),
    acc.Pairwise (fun a b => a < b) →
    (r.foldl (fun cov stop_id => setInsertAll cov (p.coverage[stop_id]?.getD [])) acc).Pairwise
      (fun a b => a < b) := by
  intro r
  induction r with
  | nil => intro acc h; exact h
  | cons j r ih =>
    intro acc h
    rw [List.foldl_cons]
    exact ih _ (sorted_setInsertAll _ acc h)

/-- An increasing list that holds exactly the numbers `0, …, n - 1` has `n`
elements. -/
theorem length_of_students {l : List Int} {n : Nat} (hs : l.Pairwise (fun a b => a < b))
    (hm : ∀ x, x ∈ l ↔ ∃ k : Nat, k < n ∧ x = (k : Int)) : l.length = n := by
  have hnd : l.Nodup := hs.imp (fun h => ne_of_lt h)
  have hnd2 : ((List.range n).map (fun (i : Nat) => (i : Int))).Nodup :=
    (List.nodup_range n).map (fun a b h => by simpa using h)
  have hperm : l.Perm ((List.range n).map (fun (i : Nat) => (i : Int))) := by
    rw [List.perm_ext_iff_of_nodup hnd hnd2]
    intro x
    rw [hm]
    simp only [List.mem_map, List.mem_range]
    constructor
    · rintro ⟨k, hk, h⟩
      exact ⟨k, hk, h.symm⟩
    · rintro ⟨k, hk, h⟩
      exact ⟨k, hk, h.symm⟩
  rw [hperm.length_eq]
  simp

theorem verify_of_greedyInv {p : BusStopPlacement} (hp : Coverable p) {r : List Nat}
    (hinv : GreedyInv p r []) : p.verify_solution r = true := by
  unfold BusStopPlacement.verify_solution
  simp only [beq_iff_eq]
  apply length_of_students (sorted_covered p r [] List.Pairwise.nil)
  intro x
  rw [mem_covered]
  simp only [List.not_mem_nil, false_or]
  constructor
  · rintro ⟨j, _, hx⟩
    have hc : p.coverage[j]?.getD [] ∈ p.coverage := by
      cases hj : p.coverage[j]? with
      | none => rw [hj] at hx; simp at hx
      | some c =>
        simp only [Option.getD_some]
        obtain ⟨h, rfl⟩ := List.getElem?_eq_some.mp hj
        exact List.getElem_mem _
    obtain ⟨h0, h1⟩ := hp.ids _ hc x hx
    exact ⟨x.toNat, by omega, by omega⟩
  · rintro ⟨k, hk, rfl⟩
    rcases hinv.covered k hk with h | h
    · simp at h
    · exact h

/-- C23.  On an instance with `num_students ≥ 1` whose `coverage` has one
entry per candidate stop, whose coverage sets hold only student ids in
`[0, num_students)` and in which every student belongs to a coverage set,
`greedy_set_cover` returns, and the list it returns is not empty, holds
pairwise distinct stop ids below `num_candidates`, and `verify_solution`
returns `true` on it. -/
theorem greedy_set_cover_covers (p : BusStopPlacement) (hn : 1 ≤ p.num_students)
    (hp : Coverable p) :
    (∃ fuel r, p.greedy_set_cover fuel = some r) ∧
    ∀ fuel r, p.greedy_set_cover fuel = some r →
      r ≠ [] ∧ r.Nodup ∧ (∀ j ∈ r, j < p.num_candidates) ∧ p.verify_solution r = true := by
  constructor
  · obtain ⟨r, hr⟩ := greedyLoop_halts hp _ [] _ (greedyInv_init p) (le_refl _)
    exact ⟨_, r, hr⟩
  · intro fuel r h
    have hinv := greedyLoop_spec hp fuel [] _ r (greedyInv_init p) h
    refine ⟨?_, hinv.nodup, fun j hj => (hinv.done j hj).1, verify_of_greedyInv hp hinv⟩
    intro hnil
    rcases hinv.covered 0 hn with h0 | ⟨j, hj, _⟩
    · simp at h0
    · rw [hnil] at hj
      simp at hj

theorem greedy_set_cover_covers_witness :
    1 ≤ busDemo.num_students ∧ Coverable busDemo ∧
    busDemo.greedy_set_cover 6 = some [0, 1, 2] ∧
    ((∃ fuel r, busDemo.greedy_set_cover fuel = some r) ∧
    ∀ fuel r, busDemo.greedy_set_cover fuel = some r →
      r ≠ [] ∧ r.Nodup ∧ (∀ j ∈ r, j < busDemo.num_candidates) ∧
        busDemo.verify_solution r = true) :=
  ⟨by decide, ⟨by decide, by decide, by decide⟩, by decide,
    greedy_set_cover_covers busDemo (by decide) ⟨by decide, by decide, by decide⟩⟩
